import Mathlib

/-! # Multigrid preconditioner (`multigrid/mgpre.cpp`)

A shallow embedding of `MultigridPreconditioner::Mult`,
`MultigridPreconditioner::MGM`, `MultigridPreconditioner::Update`, the
constructor and the setters of `MultigridPreconditioner`, and
`TwoLevelMatrix::Mult`.

* A `BaseVector` is the list of its entries over an arbitrary scalar type `R`
  that has `0` and `+`.
* Every collaborator (smoother, prolongation, coarse-grid preconditioner,
  level matrices, CG solver) is a field holding a function; a call that the
  C++ performs through a reference it mutates is a function returning the new
  contents.  Every collaborator call may throw, so it returns `Except Thrown`.
* `int` values are unbounded integers (`Int`); signed overflow is undefined in
  C++ and is not modelled.
* `Traced α` carries, next to the value, the list of `Call`s issued, in
  program order: every entry into `MGM` and every smoothing, transfer and
  coarse-solve call.  Allocation of scratch vectors (`CreateVector`) and the
  vector operations `=`, `+=`, `Range` are not recorded.
-/

namespace ngmg

/-- What a C++ call can raise: a `std::exception`, an ngsolve `Exception`
(both carry their message), or the dereference of a null pointer, which no
handler catches. -/
inductive Thrown where
  | exception (what : String)
  | Exception (what : String)
  | null_dereference
  deriving DecidableEq, Repr

/-- The values a `COARSETYPE` variable can hold: the four enumerators used in
`mgpre.cpp`, and any other integer value cast into the enumeration. -/
inductive COARSETYPE where
  | EXACT_COARSE
  | CG_COARSE
  | SMOOTHING_COARSE
  | USER_COARSE
  | unrecognized (value : Int)
  deriving DecidableEq, Repr

/-- One recorded step of a run: the entry into `MGM` at a level (with the
`incsm` it was given) or a call of a collaborator. -/
inductive Call where
  | MGM (level incsm : Int)
  | coarsegridpre
  | CGSolver
  | Residuum (level : Int)
  | PreSmooth (level steps : Int)
  | PostSmooth (level steps : Int)
  | PreSmoothResiduum (level steps : Int)
  | RestrictInline (level : Int)
  | ProlongateInline (level : Int)
  deriving DecidableEq, Repr

/-- A computation that either throws or returns a value together with the
calls it issued. -/
def Traced (α : Type) : Type := Except Thrown (α × List Call)

namespace Traced

/-- Return without issuing a call. -/
def ret {α : Type} (a : α) : Traced α := Except.ok (a, [])

/-- Sequencing: the calls of the second computation follow those of the first. -/
def andThen {α β : Type} (x : Traced α) (g : α → Traced β) : Traced β :=
  match x with
  | Except.error e => Except.error e
  | Except.ok (a, t) =>
    match g a with
    | Except.error e => Except.error e
    | Except.ok (b, t') => Except.ok (b, t ++ t')

/-- A step that is not recorded (vector operations, allocation). -/
def quiet {α : Type} (r : Except Thrown α) : Traced α :=
  match r with
  | Except.error e => Except.error e
  | Except.ok a => Except.ok (a, [])

/-- A recorded collaborator call. -/
def call {α : Type} (c : Call) (r : Except Thrown α) : Traced α :=
  match r with
  | Except.error e => Except.error e
  | Except.ok a => Except.ok (a, [c])

/-- Record one step that cannot fail. -/
def emit (c : Call) : Traced Unit := Except.ok ((), [c])

/-- Dereference a pointer: a null pointer ends the run. -/
def deref {α : Type} (p : Option α) : Traced α :=
  match p with
  | none => Except.error Thrown.null_dereference
  | some a => Except.ok (a, [])

end Traced

instance : Monad Traced where
  pure := Traced.ret
  bind := Traced.andThen

/-- The loop `for (int j = 1; j <= n; j++) body` (equally
`for (int i = 1; i < n + 1; i++) body`) whose body does not read the counter:
`body` runs `n` times, each time on the state the previous round left. -/
def forLoop {α : Type} : Nat → (α → Traced α) → α → Traced α
  | 0, _, a => pure a
  | n + 1, body, a => do
    let a' ← body a
    forLoop n body a'

section Vectors

variable {R : Type} [Zero R] [Add R]

/-- The assignment `v = 0`: every entry becomes zero, the size stays. -/
def zeroVec (v : List R) : List R := List.replicate v.length 0

/-- Modelled from the spec: `BaseVector::operator+=`, which is declared outside
the embedded source.  The spec's `u += w` accumulates, entry by entry, a vector
of the same level; for operands of different size the embedding raises an
`Exception`, so that no result is stated for them. -/
def vadd (u w : List R) : Except Thrown (List R) :=
  if u.length = w.length then Except.ok (List.zipWith (· + ·) u w)
  else Except.error (Thrown.Exception "BaseVector::Add: sizes do not match")

/-- Modelled from the spec: `BaseVector::Range (begin, end)`, declared outside
the embedded source: the view on the entries `begin .. end-1`.  A range that
does not lie inside the vector is the fatal hierarchy mismatch of the spec. -/
def Range (v : List R) (b e : Nat) : Except Thrown (List R) :=
  if b ≤ e ∧ e ≤ v.length then Except.ok ((v.drop b).take (e - b))
  else Except.error (Thrown.Exception "BaseVector::Range: out of range")

/-- Writing through the view `v.Range (0, n)`: the leading entries of `v` are
those of the view `vt`, the entries from `n` on are kept. -/
def setRange (v : List R) (n : Nat) (vt : List R) : List R := vt ++ v.drop n

end Vectors

/-- A `BaseMatrix`, seen through its action `Mult` (written `A * x`). -/
abbrev BaseMatrix (R : Type) : Type := List R → Except Thrown (List R)

/-- The calls of `Smoother` that `mgpre.cpp` uses.  Arguments are in the order
of the C++ signature; an argument passed by mutable reference is returned. -/
structure Smoother (R : Type) where
  /-- The call `PreSmooth (level, u, f, steps)`, returning `u`. -/
  PreSmooth : Int → List R → List R → Int → Except Thrown (List R)
  /-- The call `PostSmooth (level, u, f, steps)`, returning `u`. -/
  PostSmooth : Int → List R → List R → Int → Except Thrown (List R)
  /-- The call `PreSmoothResiduum (level, u, f, res, steps)`, returning `(u, res)`. -/
  PreSmoothResiduum : Int → List R → List R → List R → Int → Except Thrown (List R × List R)
  /-- The call `Residuum (level, u, f, d)`, returning `d`. -/
  Residuum : Int → List R → List R → List R → Except Thrown (List R)
  /-- The call `CreateVector (level)`. -/
  CreateVector : Int → Except Thrown (List R)

/-- The calls of `Prolongation` that `MGM` uses, each returning the vector it
changed in place. -/
structure Prolongation (R : Type) where
  /-- The call `RestrictInline (level, v)`. -/
  RestrictInline : Int → List R → Except Thrown (List R)
  /-- The call `ProlongateInline (level, v)`. -/
  ProlongateInline : Int → List R → Except Thrown (List R)

/-- The query of `MeshAccess` that `Mult` uses. -/
structure MeshAccess where
  GetNLevels : Int

/-- The queries of `FESpace` that `mgpre.cpp` uses; `GetFreeDofs` is a pointer
to a bit array (one flag per dof) and may be null. -/
structure FESpace where
  GetNDofLevel : Int → Nat
  GetFreeDofs : Option (List Bool)

/-- The queries of `BilinearForm` that `mgpre.cpp` uses. -/
structure BilinearForm (R : Type) where
  GetNLevels : Int
  GetMatrix : Int → BaseMatrix R
  UseGalerkin : Bool

/-- The data members of `MultigridPreconditioner` that `mgpre.cpp` reads or
writes.  `CGSolver` is the class template `CGSolver<double>` of the linear
algebra library, taken as a parameter: it maps a matrix to the action of the
solver built on it. -/
structure MultigridPreconditioner (R : Type) where
  ma : MeshAccess
  fespace : FESpace
  biform : BilinearForm R
  smoother : Option (Smoother R)
  prolongation : Option (Prolongation R)
  coarsegridpre : Option (BaseMatrix R)
  smoothingsteps : Int
  cycle : Int
  incsmooth : Int
  coarsetype : COARSETYPE
  coarsesmoothingsteps : Int
  ownsmoother : Int
  ownprolongation : Int
  owncoarsegridpre : Int
  updateall : Int
  update_always : Int
  checksumcgpre : Int
  CGSolver : BaseMatrix R → BaseMatrix R

section Engine

variable {R : Type} [Zero R] [Add R]

open Traced

/-- One round of the defect-correction loop of the base case, on the state
`(u, d, w)`:
`smoother->Residuum (level, u, f, d); w = (*coarsegridpre) * d; u += w;`. -/
def defectCorrection (sm : Smoother R) (C : BaseMatrix R) (level : Int) (f : List R)
    (s : List R × List R × List R) : Traced (List R × List R × List R) := do
  let d ← call (Call.Residuum level) (sm.Residuum level s.1 f s.2.1)
  let w ← call Call.coarsegridpre (C d)
  let u ← quiet (vadd s.1 w)
  pure (u, d, w)

/-- The branch `level <= 0` of `MGM`: the `switch (coarsetype)`, which has no
`default` label. -/
def MGM_coarse (P : MultigridPreconditioner R) (level : Int) (u f : List R) :
    Traced (List R) :=
  match P.coarsetype with
  | COARSETYPE.EXACT_COARSE | COARSETYPE.USER_COARSE => do
    let C ← deref P.coarsegridpre
    let u ← call Call.coarsegridpre (C f)
    if P.coarsesmoothingsteps > 1 then do
      let sm ← deref P.smoother
      let d ← quiet (sm.CreateVector 0)
      let w ← quiet (sm.CreateVector 0)
      let s ← forLoop (P.coarsesmoothingsteps - 1).toNat (defectCorrection sm C level f) (u, d, w)
      pure s.1
    else
      pure u
  | COARSETYPE.CG_COARSE => do
    let inv := P.CGSolver (P.biform.GetMatrix 1)
    call Call.CGSolver (inv f)
  | COARSETYPE.SMOOTHING_COARSE => do
    let sm ← deref P.smoother
    let u ← call (Call.PreSmooth level P.coarsesmoothingsteps)
      (sm.PreSmooth level u f P.coarsesmoothingsteps)
    call (Call.PostSmooth level P.coarsesmoothingsteps)
      (sm.PostSmooth level u f P.coarsesmoothingsteps)
  | COARSETYPE.unrecognized _ => pure u

/-- The branch `level > 0` of `MGM`; `coarser` is the recursive call
`MGM (level-1, ., ., .)`. -/
def MGM_fine (P : MultigridPreconditioner R)
    (coarser : List R → List R → Int → Traced (List R))
    (level : Int) (u f : List R) (incsm : Int) : Traced (List R) :=
  if P.cycle = 0 then do
    let sm ← deref P.smoother
    let u ← call (Call.PreSmooth level (P.smoothingsteps * incsm))
      (sm.PreSmooth level u f (P.smoothingsteps * incsm))
    call (Call.PostSmooth level (P.smoothingsteps * incsm))
      (sm.PostSmooth level u f (P.smoothingsteps * incsm))
  else do
    let sm ← deref P.smoother
    let d ← quiet (sm.CreateVector level)
    let w ← quiet (sm.CreateVector level)
    let ud ← call (Call.PreSmoothResiduum level (P.smoothingsteps * incsm))
      (sm.PreSmoothResiduum level u f d (P.smoothingsteps * incsm))
    let u := ud.1
    let d := ud.2
    let n := P.fespace.GetNDofLevel (level - 1)
    let _ ← quiet (Range d 0 n)
    let _ ← quiet (Range w 0 n)
    let pr ← deref P.prolongation
    let d ← call (Call.RestrictInline level) (pr.RestrictInline level d)
    let dt := d.take n
    let w := zeroVec w
    let wt ← forLoop P.cycle.toNat (fun wt => coarser wt dt (incsm * P.incsmooth)) (w.take n)
    let w := setRange w n wt
    let w ← call (Call.ProlongateInline level) (pr.ProlongateInline level w)
    let u ← quiet (vadd u w)
    call (Call.PostSmooth level (P.smoothingsteps * incsm))
      (sm.PostSmooth level u f (P.smoothingsteps * incsm))

/-- The recursion of `MGM`, on `k = max (level, 0)`: `k = 0` is the branch
`level <= 0`, and `k + 1` the branch `level > 0`, whose recursive calls are at
`level - 1`, that is at `k`. -/
def MGMAt (P : MultigridPreconditioner R) :
    Nat → Int → List R → List R → Int → Traced (List R)
  | 0, level, u, f, incsm => do
    emit (Call.MGM level incsm)
    MGM_coarse P level u f
  | k + 1, level, u, f, incsm => do
    emit (Call.MGM level incsm)
    MGM_fine P (fun u' f' incsm' => MGMAt P k (level - 1) u' f' incsm') level u f incsm

/-- The procedure `MultigridPreconditioner::MGM (level, u, f, incsm)`,
returning `u`. -/
def MGM (P : MultigridPreconditioner R) (level : Int) (u f : List R) (incsm : Int) :
    Traced (List R) :=
  MGMAt P level.toNat level u f incsm

/-- Modelled from the spec: the default value of the parameter `incsm` of `MGM`,
given in the class declaration, which is outside the embedded source; `Mult`
calls `MGM` with three arguments. -/
def MGM_default_incsm : Int := 1

/-- The procedure `MultigridPreconditioner::Mult (x, y)`, returning `y`.  The
first handler wraps a `std::exception`, the second appends to an `Exception`
and rethrows it. -/
def Mult (P : MultigridPreconditioner R) (x y : List R) : Traced (List R) :=
  match MGM P (P.ma.GetNLevels - 1) (zeroVec y) x MGM_default_incsm with
  | Except.ok r => Except.ok r
  | Except.error (Thrown.exception what) =>
    Except.error (Thrown.Exception (what ++ "\ncaught in MultigridPreconditioner::Mult\n"))
  | Except.error (Thrown.Exception what) =>
    Except.error (Thrown.Exception (what ++ "in MultigridPreconditioner::Mult\n"))
  | Except.error Thrown.null_dereference => Except.error Thrown.null_dereference

end Engine

/-- The value of a run, without the recorded calls. -/
def Traced.value {α : Type} (x : Traced α) : Except Thrown α :=
  match x with
  | Except.error e => Except.error e
  | Except.ok (a, _) => Except.ok a

/-! ## Counting recorded calls -/

/-- Whether a recorded step is an entry into `MGM` at a level that satisfies `q`. -/
def Call.isMGM (q : Int → Bool) : Call → Bool
  | Call.MGM level _ => q level
  | _ => false

/-- How often a run entered `MGM` at `level`. -/
def entries (level : Int) (t : List Call) : Nat :=
  t.countP (Call.isMGM (fun l => decide (l = level)))

/-- How often a run executed the base case of `MGM`, the branch `level <= 0`. -/
def baseCases (t : List Call) : Nat :=
  t.countP (Call.isMGM (fun l => decide (l ≤ 0)))

/-- The number of entries, at levels satisfying `q`, of one `MGM` started at
level `k` with cycle `c`: the entry itself, and `c` runs one level below
unless `c = 0`. -/
def visits (c : Int) (q : Int → Bool) : Nat → Nat
  | 0 => if q 0 then 1 else 0
  | k + 1 => (if q ((k : Int) + 1) then 1 else 0) + (if c = 0 then 0 else c.toNat * visits c q k)

/-- The number of the frame of a recorded entry into `MGM` on the call stack of
a run started at level `top`: the frame at `level` lies inside the frames at
`level + 1, ..., top`, since a frame calls `MGM` at the next lower level only.
Other calls count as 0. -/
def Call.frame (top : Int) : Call → Nat
  | Call.MGM level _ => (top - level + 1).toNat
  | _ => 0

/-- The nesting depth of the `MGM` frames of a run started at level `top`: the
largest frame number among its recorded entries. -/
def nesting (top : Int) (t : List Call) : Nat :=
  (t.map (Call.frame top)).foldr max 0

/-- The level and the step count of a recorded smoothing call (`PreSmooth`,
`PreSmoothResiduum` or `PostSmooth`). -/
def Call.smoothing : Call → Option (Int × Int)
  | Call.PreSmooth level steps => some (level, steps)
  | Call.PreSmoothResiduum level steps => some (level, steps)
  | Call.PostSmooth level steps => some (level, steps)
  | _ => none

/-! ## `MultigridPreconditioner::Update` -/

/-- The calls that `Update` makes into code outside `mgpre.cpp`, taken as
parameters.  `SmootherUpdate` is `Smoother::Update (flag)` and
`ProlongationUpdate` is `Prolongation::Update ()`, each returning the
collaborator in its new state; `InverseMatrix` is
`dynamic_cast<const BaseSparseMatrix&> (A) .InverseMatrix (subset)`, the cast
included, where no argument is the null subset.  Each of them may throw. -/
structure UpdateCalls (R : Type) where
  SmootherUpdate : Smoother R → Int → Except Thrown (Smoother R)
  ProlongationUpdate : Prolongation R → Except Thrown (Prolongation R)
  InverseMatrix : BaseMatrix R → Option (List Bool) → Except Thrown (BaseMatrix R)

/-- What a call of `Update` leaves: the object in its new state, and whether
an assignment to `coarsegridpre` was executed. -/
structure Updated (R : Type) where
  state : MultigridPreconditioner R
  rebuilt : Bool

/-- The statement `if (smoother) smoother->Update (update_always);`. -/
def updateSmoother {R : Type} (E : UpdateCalls R) (P : MultigridPreconditioner R) :
    Except Thrown (Option (Smoother R)) :=
  match P.smoother with
  | none => Except.ok none
  | some sm =>
    match E.SmootherUpdate sm P.update_always with
    | Except.error e => Except.error e
    | Except.ok sm' => Except.ok (some sm')

/-- The statement `if (prolongation) prolongation->Update ();`. -/
def updateProlongation {R : Type} (E : UpdateCalls R) (P : MultigridPreconditioner R) :
    Except Thrown (Option (Prolongation R)) :=
  match P.prolongation with
  | none => Except.ok none
  | some pr =>
    match E.ProlongationUpdate pr with
    | Except.error e => Except.error e
    | Except.ok pr' => Except.ok (some pr')

/-- The block of `Update` guarded by `biform.GetNLevels () == 1 || updateall`:
under `EXACT_COARSE` the coarse-grid preconditioner becomes the inverse of
`biform.GetMatrix (0)`, on the free dofs if the space reports any; the `else`
branch is empty. -/
def updateCoarse {R : Type} (E : UpdateCalls R) (P : MultigridPreconditioner R) :
    Except Thrown (Updated R) :=
  if P.biform.GetNLevels = 1 ∨ P.updateall ≠ 0 then
    if P.coarsetype = COARSETYPE.EXACT_COARSE then
      match P.fespace.GetFreeDofs with
      | none =>
        match E.InverseMatrix (P.biform.GetMatrix 0) none with
        | Except.error e => Except.error e
        | Except.ok inv => Except.ok ⟨{ P with coarsegridpre := some inv }, true⟩
      | some freedofs =>
        match E.InverseMatrix (P.biform.GetMatrix 0) (some freedofs) with
        | Except.error e => Except.error e
        | Except.ok inv => Except.ok ⟨{ P with coarsegridpre := some inv }, true⟩
    else Except.ok ⟨P, false⟩
  else Except.ok ⟨P, false⟩

/-- The procedure `MultigridPreconditioner::Update ()` (the part compiled
without `OLD`). -/
def Update {R : Type} (E : UpdateCalls R) (P : MultigridPreconditioner R) :
    Except Thrown (Updated R) :=
  match updateSmoother E P with
  | Except.error e => Except.error e
  | Except.ok smoother =>
    match updateProlongation E P with
    | Except.error e => Except.error e
    | Except.ok prolongation =>
      updateCoarse E { P with smoother := smoother, prolongation := prolongation }

/-! ## `TwoLevelMatrix` -/

/-- What `TwoLevelMatrix` uses of a `BaseMatrix` object: its action and
`CreateVector ()`. -/
structure MatrixObject (R : Type) where
  Mult : BaseMatrix R
  CreateVector : Except Thrown (List R)

/-- The data members of `TwoLevelMatrix`; `mat`, `cpre` and `smoother` are
pointers. -/
structure TwoLevelMatrix (R : Type) where
  mat : Option (MatrixObject R)
  cpre : Option (MatrixObject R)
  smoother : Option (Smoother R)
  level : Int
  smoothingsteps : Int
  own_smoother : Bool

section TwoLevel

variable {R : Type} [Zero R] [Add R]

open Traced

/-- The function `TwoLevelMatrix::CreateVector ()`: `mat->CreateVector ()`. -/
def TwoLevelMatrix.CreateVector (T : TwoLevelMatrix R) : Traced (List R) := do
  let mat ← deref T.mat
  quiet mat.CreateVector

/-- The procedure `TwoLevelMatrix::Mult (f, u)`, returning `u`.  The application
of `cpre` is recorded as a call of the coarse-grid preconditioner. -/
def TwoLevelMatrix.Mult (T : TwoLevelMatrix R) (f u : List R) : Traced (List R) := do
  let cpre ← deref T.cpre
  let cres ← quiet cpre.CreateVector
  let cw ← quiet cpre.CreateVector
  let res ← T.CreateVector
  let u := zeroVec u
  let sm ← deref T.smoother
  let ur ← call (Call.PreSmoothResiduum T.level T.smoothingsteps)
    (sm.PreSmoothResiduum T.level u f res T.smoothingsteps)
  let u := ur.1
  let res := ur.2
  let cres ← quiet (Range res 0 cres.length)
  let cwv ← call Call.coarsegridpre (cpre.Mult cres)
  let ut ← quiet (Range u 0 cw.length)
  let ut ← quiet (vadd ut cwv)
  let u := setRange u cw.length ut
  call (Call.PostSmooth T.level T.smoothingsteps)
    (sm.PostSmooth T.level u f T.smoothingsteps)

end TwoLevel

/-! ## The size contract of the collaborators -/

/-- The sizes that the collaborators, whose code is outside `mgpre.cpp`, have
to keep: a call that writes a vector in place leaves its size, `CreateVector
(level)` returns a vector of `ndof (level)` entries, and the coarse solvers
(the inner solver being the one `MGM` builds) return as many entries as
they are given. -/
structure SizeContract {R : Type} (P : MultigridPreconditioner R) : Prop where
  CreateVector : ∀ sm level v, P.smoother = some sm →
    sm.CreateVector level = Except.ok v → v.length = P.fespace.GetNDofLevel level
  PreSmooth : ∀ sm level u f steps u', P.smoother = some sm →
    sm.PreSmooth level u f steps = Except.ok u' → u'.length = u.length
  PostSmooth : ∀ sm level u f steps u', P.smoother = some sm →
    sm.PostSmooth level u f steps = Except.ok u' → u'.length = u.length
  PreSmoothResiduum : ∀ sm level u f d steps u' d', P.smoother = some sm →
    sm.PreSmoothResiduum level u f d steps = Except.ok (u', d') →
    u'.length = u.length ∧ d'.length = d.length
  Residuum : ∀ sm level u f d d', P.smoother = some sm →
    sm.Residuum level u f d = Except.ok d' → d'.length = d.length
  RestrictInline : ∀ pr level v v', P.prolongation = some pr →
    pr.RestrictInline level v = Except.ok v' → v'.length = v.length
  ProlongateInline : ∀ pr level v v', P.prolongation = some pr →
    pr.ProlongateInline level v = Except.ok v' → v'.length = v.length
  coarsegridpre : ∀ C f v, P.coarsegridpre = some C → C f = Except.ok v → v.length = f.length
  CGSolver : ∀ f v, P.CGSolver (P.biform.GetMatrix 1) f = Except.ok v → v.length = f.length

/-- Collaborators that are present and return from every call. -/
structure NeverThrows {R : Type} (P : MultigridPreconditioner R) : Prop where
  smoother : ∃ sm, P.smoother = some sm ∧
    (∀ level, ∃ v, sm.CreateVector level = Except.ok v) ∧
    (∀ level u f steps, ∃ u', sm.PreSmooth level u f steps = Except.ok u') ∧
    (∀ level u f steps, ∃ u', sm.PostSmooth level u f steps = Except.ok u') ∧
    (∀ level u f d steps, ∃ ud, sm.PreSmoothResiduum level u f d steps = Except.ok ud) ∧
    (∀ level u f d, ∃ d', sm.Residuum level u f d = Except.ok d')
  prolongation : ∃ pr, P.prolongation = some pr ∧
    (∀ level v, ∃ v', pr.RestrictInline level v = Except.ok v') ∧
    (∀ level v, ∃ v', pr.ProlongateInline level v = Except.ok v')
  coarsegridpre : ∃ C, P.coarsegridpre = some C ∧ ∀ f, ∃ v, C f = Except.ok v
  CGSolver : ∀ f, ∃ v, P.CGSolver (P.biform.GetMatrix 1) f = Except.ok v

/-! ## The setters and the constructor -/

section Setters

variable {R : Type}

/-- The setter `SetSmoothingSteps (sstep)`. -/
def SetSmoothingSteps (P : MultigridPreconditioner R) (sstep : Int) :
    MultigridPreconditioner R :=
  { P with smoothingsteps := sstep }

/-- The setter `SetCycle (c)`. -/
def SetCycle (P : MultigridPreconditioner R) (c : Int) : MultigridPreconditioner R :=
  { P with cycle := c }

/-- The setter `SetIncreaseSmoothingSteps (incsm)`. -/
def SetIncreaseSmoothingSteps (P : MultigridPreconditioner R) (incsm : Int) :
    MultigridPreconditioner R :=
  { P with incsmooth := incsm }

/-- The setter `SetCoarseType (ctyp)`. -/
def SetCoarseType (P : MultigridPreconditioner R) (ctyp : COARSETYPE) :
    MultigridPreconditioner R :=
  { P with coarsetype := ctyp }

/-- The setter `SetCoarseGridPreconditioner (acoarsegridpre)`; the argument is a
shared pointer. -/
def SetCoarseGridPreconditioner (P : MultigridPreconditioner R)
    (acoarsegridpre : Option (BaseMatrix R)) : MultigridPreconditioner R :=
  { P with coarsetype := COARSETYPE.USER_COARSE, coarsegridpre := acoarsegridpre }

/-- The setter `SetCoarseSmoothingSteps (cstep)`. -/
def SetCoarseSmoothingSteps (P : MultigridPreconditioner R) (cstep : Int) :
    MultigridPreconditioner R :=
  { P with coarsesmoothingsteps := cstep }

/-- The setter `SetOwnSmoother (os)`. -/
def SetOwnSmoother (P : MultigridPreconditioner R) (os : Int) : MultigridPreconditioner R :=
  { P with ownsmoother := os }

/-- The setter `SetUpdateAll (ua)`: `updateall = ua; if (smoother)
smoother->SetUpdateAll (ua);`.  The call `Smoother::SetUpdateAll`, whose code is
outside `mgpre.cpp`, is the parameter `smootherSetUpdateAll`, returning the
smoother in its new state. -/
def SetUpdateAll (smootherSetUpdateAll : Smoother R → Int → Except Thrown (Smoother R))
    (P : MultigridPreconditioner R) (ua : Int) : Except Thrown (MultigridPreconditioner R) :=
  match P.smoother with
  | none => Except.ok { P with updateall := ua }
  | some sm =>
    match smootherSetUpdateAll sm ua with
    | Except.error e => Except.error e
    | Except.ok sm' => Except.ok { P with updateall := ua, smoother := some sm' }

/-- The setter `SetOwnProlongation (op)`. -/
def SetOwnProlongation (P : MultigridPreconditioner R) (op : Int) :
    MultigridPreconditioner R :=
  { P with ownprolongation := op }

/-- The setter `SetOwnCoarseGridPreconditioner (oc)`. -/
def SetOwnCoarseGridPreconditioner (P : MultigridPreconditioner R) (oc : Int) :
    MultigridPreconditioner R :=
  { P with owncoarsegridpre := oc }

/-- Modelled from the spec: the setter `SetUpdateAlways (ua)`, defined in the class
declaration, which is outside the embedded source; it sets the `update_always`
flag of the configuration. -/
def SetUpdateAlways (P : MultigridPreconditioner R) (ua : Int) : MultigridPreconditioner R :=
  { P with update_always := ua }

/-- The constructor `MultigridPreconditioner::MultigridPreconditioner (ama,
afespace, abiform, asmoother, aprolongation)`.  `uninit` is the indeterminate
value of the members that are not assigned yet, and `cg` the `CGSolver` class
template.  The call of `Update ()` at its end is commented out. -/
def MultigridPreconditioner.construct
    (smootherSetUpdateAll : Smoother R → Int → Except Thrown (Smoother R))
    (cg : BaseMatrix R → BaseMatrix R) (uninit : Int)
    (ama : MeshAccess) (afespace : FESpace) (abiform : BilinearForm R)
    (asmoother : Option (Smoother R)) (aprolongation : Option (Prolongation R)) :
    Except Thrown (MultigridPreconditioner R) :=
  let P : MultigridPreconditioner R :=
    { ma := ama, fespace := afespace, biform := abiform, smoother := asmoother,
      prolongation := aprolongation, coarsegridpre := none,
      smoothingsteps := uninit, cycle := uninit, incsmooth := uninit,
      coarsetype := COARSETYPE.unrecognized uninit, coarsesmoothingsteps := uninit,
      ownsmoother := uninit, ownprolongation := uninit, owncoarsegridpre := uninit,
      updateall := uninit, update_always := uninit, checksumcgpre := uninit,
      CGSolver := cg }
  let P := SetSmoothingSteps P 1
  let P := SetCycle P 1
  let P := SetIncreaseSmoothingSteps P 1
  let P := SetCoarseType P COARSETYPE.EXACT_COARSE
  let P := SetCoarseSmoothingSteps P 1
  let P := SetOwnSmoother P 1
  let P := SetOwnProlongation P 1
  let P := SetOwnCoarseGridPreconditioner P 1
  match SetUpdateAll smootherSetUpdateAll P (if abiform.UseGalerkin then 1 else 0) with
  | Except.error e => Except.error e
  | Except.ok P => Except.ok { SetUpdateAlways P 0 with checksumcgpre := -17 }

/-- The states that the object can be in after `P`: a call of `Update ()` that
returns, a call of `SetUpdateAll (ua)` that returns, or a change of the
hierarchy (the mesh, the space and the bilinear form are references to objects
that change outside the class) leads from a state to the next. -/
inductive Reaches (E : UpdateCalls R)
    (smootherSetUpdateAll : Smoother R → Int → Except Thrown (Smoother R))
    (P : MultigridPreconditioner R) : MultigridPreconditioner R → Prop where
  | start : Reaches E smootherSetUpdateAll P P
  | Update (Q : MultigridPreconditioner R) (U : Updated R) :
      Reaches E smootherSetUpdateAll P Q → Update E Q = Except.ok U →
      Reaches E smootherSetUpdateAll P U.state
  | SetUpdateAll (Q Q' : MultigridPreconditioner R) (ua : Int) :
      Reaches E smootherSetUpdateAll P Q →
      SetUpdateAll smootherSetUpdateAll Q ua = Except.ok Q' →
      Reaches E smootherSetUpdateAll P Q'
  | hierarchy (Q : MultigridPreconditioner R) (ma : MeshAccess) (fespace : FESpace)
      (biform : BilinearForm R) :
      Reaches E smootherSetUpdateAll P Q →
      Reaches E smootherSetUpdateAll P { Q with ma := ma, fespace := fespace, biform := biform }

end Setters

/-! ## Smoothing steps requested in a run -/

/-- The steps that a recorded call requests from the fused pre-smoothing
primitive `PreSmoothResiduum`. -/
def Call.preSteps : Call → Int
  | Call.PreSmoothResiduum _ steps => steps
  | _ => 0

/-- The steps that a recorded call requests from `PostSmooth` above level 0. -/
def Call.postSteps : Call → Int
  | Call.PostSmooth level steps => if 0 < level then steps else 0
  | _ => 0

/-- The total that a run requests, `g` giving the request of each call. -/
def totalSteps (g : Call → Int) (t : List Call) : Int :=
  (t.map g).sum

/-! ## A concrete three-level hierarchy over the integers -/

namespace Example

/-- A smoother over `Int`: one step adds `f` to `u`; `Residuum` returns `f - u`,
and the residual after pre-smoothing is `f - 2 u`. -/
def smoother : Smoother Int where
  PreSmooth := fun _ u f steps => Except.ok (List.zipWith (fun a b => a + steps * b) u f)
  PostSmooth := fun _ u f steps => Except.ok (List.zipWith (fun a b => a + steps * b) u f)
  PreSmoothResiduum := fun _ u f _ steps =>
    Except.ok (List.zipWith (fun a b => a + steps * b) u f,
      List.zipWith (fun a b => b - 2 * (a + steps * b)) u f)
  Residuum := fun _ u f _ => Except.ok (List.zipWith (fun a b => b - a) u f)
  CreateVector := fun level => Except.ok (List.replicate (level.toNat + 1) 7)

/-- Transfer operators that leave the vector as it is. -/
def prolongation : Prolongation Int where
  RestrictInline := fun _ v => Except.ok v
  ProlongateInline := fun _ v => Except.ok v

/-- A preconditioner on `L` levels with `ndof (level) = level + 1`, cycle `c`,
growth factor `q` of the smoothing steps, coarse type `ct` and `n` coarse
smoothing steps; the coarse-grid preconditioner multiplies by `m`. -/
def pre (L c q : Int) (ct : COARSETYPE) (n : Int) (m : Int) :
    MultigridPreconditioner Int where
  ma := ⟨L⟩
  fespace := ⟨fun level => level.toNat + 1, none⟩
  biform := ⟨L, fun _ v => Except.ok v, false⟩
  smoother := some smoother
  prolongation := some prolongation
  coarsegridpre := some (fun v => Except.ok (v.map (fun a => m * a)))
  smoothingsteps := 1
  cycle := c
  incsmooth := q
  coarsetype := ct
  coarsesmoothingsteps := n
  ownsmoother := 1
  ownprolongation := 1
  owncoarsegridpre := 1
  updateall := 0
  update_always := 0
  checksumcgpre := -17
  CGSolver := fun A => A

end Example

/-! ## Further concrete collaborators -/

namespace Example

/-- Level matrices that differ from level to level: the matrix of `level`
multiplies by `level + 2`. -/
def biformByLevel (L : Int) : BilinearForm Int :=
  ⟨L, fun level v => Except.ok (v.map (fun a => (level + 2) * a)), false⟩

/-- Collaborators of `Update`: the smoother and the prolongation stay as they
are, and the "inverse" of `A` applies `A` twice, keeping the entries of the
dofs that are not free. -/
def updates : UpdateCalls Int where
  SmootherUpdate := fun sm _ => Except.ok sm
  ProlongationUpdate := fun pr => Except.ok pr
  InverseMatrix := fun A subset => Except.ok (fun v =>
    match A v with
    | Except.error e => Except.error e
    | Except.ok w =>
      match A w with
      | Except.error e => Except.error e
      | Except.ok z =>
        match subset with
        | none => Except.ok z
        | some free => Except.ok (List.zipWith (fun b p => if b then p.1 else p.2) free
            (List.zip z v)))

/-- A smoother over `Int` that keeps the sizes: one step adds 1 to every entry
of `u`, and every residual has the entries 1. -/
def smootherSized : Smoother Int where
  PreSmooth := fun _ u _ steps => Except.ok (u.map (fun a => a + steps))
  PostSmooth := fun _ u _ steps => Except.ok (u.map (fun a => a + steps))
  PreSmoothResiduum := fun _ u _ d steps =>
    Except.ok (u.map (fun a => a + steps), d.map (fun _ => 1))
  Residuum := fun _ _ _ d => Except.ok (d.map (fun _ => 1))
  CreateVector := fun level => Except.ok (List.replicate (level.toNat + 1) 7)

/-- The preconditioner `pre` with the size-keeping smoother. -/
def sized (L c q : Int) (ct : COARSETYPE) (n : Int) (m : Int) : MultigridPreconditioner Int :=
  { pre L c q ct n m with smoother := some smootherSized }

/-- A coarse-grid preconditioner supplied by the user: it multiplies by `m`. -/
def userpre (m : Int) : BaseMatrix Int :=
  fun v => Except.ok (v.map (fun a => m * a))

/-- A two-level matrix on a fine space of `n` entries with a coarse
preconditioner of dimension `nc` that multiplies by `m`. -/
def twolevel (n nc : Nat) (m : Int) (steps : Int) : TwoLevelMatrix Int where
  mat := some ⟨fun v => Except.ok v, Except.ok (List.replicate n 7)⟩
  cpre := some ⟨fun v => Except.ok (v.map (fun a => m * a)), Except.ok (List.replicate nc 7)⟩
  smoother := some smoother
  level := 1
  smoothingsteps := steps
  own_smoother := true

end Example

/-! ## Successful runs, step by step -/

namespace Traced

variable {α β : Type}

theorem bind_def (x : Traced α) (g : α → Traced β) : x >>= g = andThen x g := rfl

theorem pure_def (a : α) : (pure a : Traced α) = Except.ok (a, []) := rfl

theorem andThen_ok {x : Traced α} {g : α → Traced β} {b : β} {t : List Call} :
    andThen x g = Except.ok (b, t) ↔
      ∃ a t1 t2, x = Except.ok (a, t1) ∧ g a = Except.ok (b, t2) ∧ t = t1 ++ t2 := by
  unfold andThen
  constructor
  · intro h
    split at h
    · cases h
    · rename_i a t1
      split at h
      · cases h
      · rename_i b' t2 hg
        cases h
        exact ⟨a, t1, t2, rfl, hg, rfl⟩
  · rintro ⟨a, t1, t2, hx, hg, rfl⟩
    subst hx
    simp only [hg]

theorem call_ok {c : Call} {r : Except Thrown α} {a : α} {t : List Call} :
    call c r = Except.ok (a, t) ↔ r = Except.ok a ∧ t = [c] := by
  unfold call
  cases r with
  | error e => simp
  | ok a' =>
    constructor
    · intro h; cases h; exact ⟨rfl, rfl⟩
    · rintro ⟨h, rfl⟩; cases h; rfl

theorem quiet_ok {r : Except Thrown α} {a : α} {t : List Call} :
    quiet r = Except.ok (a, t) ↔ r = Except.ok a ∧ t = [] := by
  unfold quiet
  cases r with
  | error e => simp
  | ok a' =>
    constructor
    · intro h; cases h; exact ⟨rfl, rfl⟩
    · rintro ⟨h, rfl⟩; cases h; rfl

theorem deref_ok {p : Option α} {a : α} {t : List Call} :
    deref p = Except.ok (a, t) ↔ p = some a ∧ t = [] := by
  unfold deref
  cases p with
  | none => simp
  | some a' =>
    constructor
    · intro h; cases h; exact ⟨rfl, rfl⟩
    · rintro ⟨h, rfl⟩; cases h; rfl

theorem emit_ok {c : Call} {a : Unit} {t : List Call} :
    emit c = Except.ok (a, t) ↔ t = [c] := by
  unfold emit
  constructor
  · intro h; cases h; rfl
  · rintro rfl; rfl

theorem ret_ok {a b : α} {t : List Call} :
    (pure a : Traced α) = Except.ok (b, t) ↔ b = a ∧ t = [] := by
  rw [pure_def]
  constructor
  · intro h; cases h; exact ⟨rfl, rfl⟩
  · rintro ⟨rfl, rfl⟩; rfl

end Traced

theorem Range_zero_ok {R : Type} {v x : List R} {n : Nat} :
    Range v 0 n = Except.ok x ↔ n ≤ v.length ∧ x = v.take n := by
  unfold Range
  by_cases h : n ≤ v.length
  · simp only [Nat.zero_le, h, and_self, if_true, List.drop_zero, Nat.sub_zero, true_and]
    constructor
    · intro e; cases e; rfl
    · rintro rfl; rfl
  · simp [h]

theorem vadd_ok {R : Type} [Add R] {u w v : List R} :
    vadd u w = Except.ok v ↔ u.length = w.length ∧ v = List.zipWith (· + ·) u w := by
  unfold vadd
  by_cases h : u.length = w.length
  · rw [if_pos h]
    constructor
    · intro e; cases e; exact ⟨h, rfl⟩
    · rintro ⟨-, rfl⟩; rfl
  · rw [if_neg h]
    constructor
    · intro e; cases e
    · rintro ⟨h', -⟩; exact absurd h' h

theorem vadd_zeroVec {R : Type} [AddZeroClass R] (u : List R) :
    vadd u (zeroVec u) = Except.ok u := by
  rw [vadd_ok]
  refine ⟨by simp [zeroVec], ?_⟩
  unfold zeroVec
  induction u with
  | nil => rfl
  | cons a u ih =>
    simp only [List.length_cons, List.replicate_succ, List.zipWith_cons_cons, add_zero]
    rw [← ih]

theorem count_flatten_replicate (a : Call) (l : List Call) (m : Nat) :
    (List.replicate m l).flatten.count a = m * l.count a := by
  induction m with
  | zero => simp
  | succ m ih =>
    rw [List.replicate_succ, List.flatten_cons, List.count_append, ih]
    ring

theorem map_range_eq_replicate {α : Type} (tr : Nat → α) (c : α) (m : Nat)
    (h : ∀ j, j < m → tr j = c) : (List.range m).map tr = List.replicate m c := by
  rw [List.eq_replicate_iff]
  refine ⟨by simp, ?_⟩
  intro b hb
  obtain ⟨j, hj, rfl⟩ := List.mem_map.mp hb
  exact h j (List.mem_range.mp hj)

theorem value_emit_andThen {α : Type} (c : Call) (x : Traced α) :
    Traced.value (Traced.andThen (Traced.emit c) (fun _ => x)) = Traced.value x := by
  unfold Traced.andThen Traced.emit Traced.value
  cases x with
  | error e => rfl
  | ok a => rfl

/-! ## The loop and the recursion -/

section Engine

variable {R : Type} [Zero R] [Add R]

open Traced

theorem forLoop_zero_ok {α : Type} {body : α → Traced α} {a b : α} {t : List Call} :
    forLoop 0 body a = Except.ok (b, t) ↔ b = a ∧ t = [] :=
  ret_ok

theorem forLoop_succ_ok {α : Type} {body : α → Traced α} {n : Nat} {a b : α}
    {t : List Call} :
    forLoop (n + 1) body a = Except.ok (b, t) ↔
      ∃ a' t1 t2, body a = Except.ok (a', t1) ∧ forLoop n body a' = Except.ok (b, t2) ∧
        t = t1 ++ t2 := by
  show andThen (body a) (fun a' => forLoop n body a') = _ ↔ _
  exact andThen_ok

/-- A successful loop of `n` rounds is a chain of `n` successful runs of the
body, each started on the state the previous one returned; its calls are
those of the rounds, in order. -/
theorem forLoop_ok_iff {α : Type} {body : α → Traced α} {n : Nat} {a b : α}
    {t : List Call} :
    forLoop n body a = Except.ok (b, t) ↔
      ∃ (w : Nat → α) (tr : Nat → List Call), w 0 = a ∧
        (∀ j, j < n → body (w j) = Except.ok (w (j + 1), tr j)) ∧
        b = w n ∧ t = ((List.range n).map tr).flatten := by
  induction n generalizing a b t with
  | zero =>
    rw [forLoop_zero_ok]
    constructor
    · rintro ⟨rfl, rfl⟩
      exact ⟨fun _ => b, fun _ => [], rfl, by intro j hj; omega, rfl, rfl⟩
    · rintro ⟨w, tr, h0, -, hb, ht⟩
      exact ⟨by rw [hb, h0], by simpa using ht⟩
  | succ n ih =>
    rw [forLoop_succ_ok]
    constructor
    · rintro ⟨a', t1, t2, hbody, hrest, rfl⟩
      obtain ⟨w, tr, h0, hstep, hb, ht⟩ := ih.mp hrest
      refine ⟨fun j => if j = 0 then a else w (j - 1),
        fun j => if j = 0 then t1 else tr (j - 1), by simp, ?_, ?_, ?_⟩
      · intro j hj
        by_cases hj0 : j = 0
        · subst hj0
          simpa [h0] using hbody
        · have h1 := hstep (j - 1) (by omega)
          have e : j - 1 + 1 = j := by omega
          rw [e] at h1
          simpa [hj0] using h1
      · simpa using hb
      · rw [ht, List.range_succ_eq_map]
        simp [List.map_map, Function.comp_def]
    · rintro ⟨w, tr, h0, hstep, hb, ht⟩
      refine ⟨w 1, tr 0, ((List.range n).map (fun j => tr (j + 1))).flatten, ?_, ?_, ?_⟩
      · have := hstep 0 (by omega)
        rwa [h0] at this
      · exact ih.mpr ⟨fun j => w (j + 1), fun j => tr (j + 1), rfl,
          fun j hj => hstep (j + 1) (by omega), hb, rfl⟩
      · rw [ht, List.range_succ_eq_map]
        simp [List.map_map, Function.comp_def]

theorem forLoop_forall {α : Type} {body : α → Traced α} {Q : Call → Prop}
    (hbody : ∀ a b t, body a = Except.ok (b, t) → ∀ c ∈ t, Q c) :
    ∀ (n : Nat) (a b : α) (t : List Call),
      forLoop n body a = Except.ok (b, t) → ∀ c ∈ t, Q c := by
  intro n
  induction n with
  | zero =>
    intro a b t h c hc
    obtain ⟨-, rfl⟩ := forLoop_zero_ok.mp h
    simp at hc
  | succ n ih =>
    intro a b t h c hc
    obtain ⟨a', t1, t2, h1, h2, rfl⟩ := forLoop_succ_ok.mp h
    rcases List.mem_append.mp hc with hc | hc
    · exact hbody a a' t1 h1 c hc
    · exact ih a' b t2 h2 c hc

theorem forLoop_countP {α : Type} {body : α → Traced α} {p : Call → Bool} {m : Nat}
    (hbody : ∀ a b t, body a = Except.ok (b, t) → t.countP p = m) :
    ∀ (n : Nat) (a b : α) (t : List Call),
      forLoop n body a = Except.ok (b, t) → t.countP p = n * m := by
  intro n
  induction n with
  | zero =>
    intro a b t h
    obtain ⟨-, rfl⟩ := forLoop_zero_ok.mp h
    simp
  | succ n ih =>
    intro a b t h
    obtain ⟨a', t1, t2, h1, h2, rfl⟩ := forLoop_succ_ok.mp h
    rw [List.countP_append, hbody a a' t1 h1, ih a' b t2 h2]
    ring

/-- The recursion of `MGM` as the source writes it: base case for `level <= 0`,
otherwise the recursive case, which calls `MGM` at `level - 1`. -/
theorem MGM_eq (P : MultigridPreconditioner R) (level : Int) (u f : List R) (incsm : Int) :
    MGM P level u f incsm =
      if level ≤ 0 then
        andThen (emit (Call.MGM level incsm)) (fun _ => MGM_coarse P level u f)
      else
        andThen (emit (Call.MGM level incsm))
          (fun _ => MGM_fine P (fun u' f' i' => MGM P (level - 1) u' f' i') level u f incsm) := by
  unfold MGM
  cases hk : level.toNat with
  | zero =>
    have hle : level ≤ 0 := by omega
    rw [if_pos hle]
    rfl
  | succ k =>
    have hlt : ¬ level ≤ 0 := by omega
    have hk' : (level - 1).toNat = k := by omega
    rw [if_neg hlt]
    simp only [hk']
    rfl

theorem MGM_ok_coarse {P : MultigridPreconditioner R} {level : Int} {u f : List R}
    {incsm : Int} {r : List R} {t : List Call} (hl : level ≤ 0) :
    MGM P level u f incsm = Except.ok (r, t) ↔
      ∃ t', MGM_coarse P level u f = Except.ok (r, t') ∧ t = Call.MGM level incsm :: t' := by
  rw [MGM_eq, if_pos hl, andThen_ok]
  constructor
  · rintro ⟨a, t1, t2, h1, h2, rfl⟩
    rw [emit_ok] at h1
    subst h1
    exact ⟨t2, h2, rfl⟩
  · rintro ⟨t', h, rfl⟩
    exact ⟨(), [Call.MGM level incsm], t', rfl, h, rfl⟩

theorem MGM_ok_fine {P : MultigridPreconditioner R} {level : Int} {u f : List R}
    {incsm : Int} {r : List R} {t : List Call} (hl : 0 < level) :
    MGM P level u f incsm = Except.ok (r, t) ↔
      ∃ t', MGM_fine P (fun u' f' i' => MGM P (level - 1) u' f' i') level u f incsm
          = Except.ok (r, t') ∧ t = Call.MGM level incsm :: t' := by
  rw [MGM_eq, if_neg (by omega), andThen_ok]
  constructor
  · rintro ⟨a, t1, t2, h1, h2, rfl⟩
    rw [emit_ok] at h1
    subst h1
    exact ⟨t2, h2, rfl⟩
  · rintro ⟨t', h, rfl⟩
    exact ⟨(), [Call.MGM level incsm], t', rfl, h, rfl⟩

/-- The recursive case with `cycle = 0`: pre-smoothing, then post-smoothing. -/
theorem MGM_fine_cycle0_ok {P : MultigridPreconditioner R}
    {coarser : List R → List R → Int → Traced (List R)} {level : Int} {u f : List R}
    {incsm : Int} {r : List R} {t : List Call} (hc : P.cycle = 0) :
    MGM_fine P coarser level u f incsm = Except.ok (r, t) ↔
      ∃ sm u1, P.smoother = some sm ∧
        sm.PreSmooth level u f (P.smoothingsteps * incsm) = Except.ok u1 ∧
        sm.PostSmooth level u1 f (P.smoothingsteps * incsm) = Except.ok r ∧
        t = [Call.PreSmooth level (P.smoothingsteps * incsm),
             Call.PostSmooth level (P.smoothingsteps * incsm)] := by
  unfold MGM_fine
  rw [if_pos hc]
  simp only [bind_def]
  constructor
  · intro h
    obtain ⟨sm, t1, t2, h1, h2, rfl⟩ := andThen_ok.mp h
    obtain ⟨hsm, rfl⟩ := deref_ok.mp h1
    obtain ⟨u1, t3, t4, h3, h4, rfl⟩ := andThen_ok.mp h2
    obtain ⟨hpre, rfl⟩ := call_ok.mp h3
    obtain ⟨hpost, rfl⟩ := call_ok.mp h4
    exact ⟨sm, u1, hsm, hpre, hpost, rfl⟩
  · rintro ⟨sm, u1, hsm, hpre, hpost, rfl⟩
    exact andThen_ok.mpr ⟨sm, [], _, deref_ok.mpr ⟨hsm, rfl⟩,
      andThen_ok.mpr ⟨u1, _, _, call_ok.mpr ⟨hpre, rfl⟩, call_ok.mpr ⟨hpost, rfl⟩, rfl⟩, rfl⟩

/-- The recursive case with `cycle ≠ 0`, stage by stage. -/
theorem MGM_fine_cycle_ok {P : MultigridPreconditioner R}
    {coarser : List R → List R → Int → Traced (List R)} {level : Int} {u f : List R}
    {incsm : Int} {r : List R} {t : List Call} (hc : P.cycle ≠ 0)
    (h : MGM_fine P coarser level u f incsm = Except.ok (r, t)) :
    ∃ sm pr d0 w0 u1 d1 d2 wt tl w2 u2,
      P.smoother = some sm ∧ P.prolongation = some pr ∧
      sm.CreateVector level = Except.ok d0 ∧ sm.CreateVector level = Except.ok w0 ∧
      sm.PreSmoothResiduum level u f d0 (P.smoothingsteps * incsm) = Except.ok (u1, d1) ∧
      P.fespace.GetNDofLevel (level - 1) ≤ d1.length ∧
      P.fespace.GetNDofLevel (level - 1) ≤ w0.length ∧
      pr.RestrictInline level d1 = Except.ok d2 ∧
      forLoop P.cycle.toNat
        (fun wt => coarser wt (d2.take (P.fespace.GetNDofLevel (level - 1)))
          (incsm * P.incsmooth))
        ((zeroVec w0).take (P.fespace.GetNDofLevel (level - 1))) = Except.ok (wt, tl) ∧
      pr.ProlongateInline level
        (setRange (zeroVec w0) (P.fespace.GetNDofLevel (level - 1)) wt) = Except.ok w2 ∧
      vadd u1 w2 = Except.ok u2 ∧
      sm.PostSmooth level u2 f (P.smoothingsteps * incsm) = Except.ok r ∧
      t = [Call.PreSmoothResiduum level (P.smoothingsteps * incsm), Call.RestrictInline level]
            ++ tl ++
          [Call.ProlongateInline level, Call.PostSmooth level (P.smoothingsteps * incsm)] := by
  unfold MGM_fine at h
  rw [if_neg hc] at h
  simp only [bind_def] at h
  obtain ⟨sm, _, _, a0, b0, rfl⟩ := andThen_ok.mp h
  obtain ⟨hsm, rfl⟩ := deref_ok.mp a0
  obtain ⟨d0, _, _, a1, b1, rfl⟩ := andThen_ok.mp b0
  obtain ⟨hd0, rfl⟩ := quiet_ok.mp a1
  obtain ⟨w0, _, _, a2, b2, rfl⟩ := andThen_ok.mp b1
  obtain ⟨hw0, rfl⟩ := quiet_ok.mp a2
  obtain ⟨⟨u1, d1⟩, _, _, a3, b3, rfl⟩ := andThen_ok.mp b2
  obtain ⟨hpsr, rfl⟩ := call_ok.mp a3
  obtain ⟨x1, _, _, a4, b4, rfl⟩ := andThen_ok.mp b3
  obtain ⟨hr1, rfl⟩ := quiet_ok.mp a4
  obtain ⟨x2, _, _, a5, b5, rfl⟩ := andThen_ok.mp b4
  obtain ⟨hr2, rfl⟩ := quiet_ok.mp a5
  obtain ⟨pr, _, _, a6, b6, rfl⟩ := andThen_ok.mp b5
  obtain ⟨hpr, rfl⟩ := deref_ok.mp a6
  obtain ⟨d2, _, _, a7, b7, rfl⟩ := andThen_ok.mp b6
  obtain ⟨hres, rfl⟩ := call_ok.mp a7
  obtain ⟨wt, tl, _, hloop, b8, rfl⟩ := andThen_ok.mp b7
  obtain ⟨w2, _, _, a9, b9, rfl⟩ := andThen_ok.mp b8
  obtain ⟨hpro, rfl⟩ := call_ok.mp a9
  obtain ⟨u2, _, _, a10, b10, rfl⟩ := andThen_ok.mp b9
  obtain ⟨hadd, rfl⟩ := quiet_ok.mp a10
  obtain ⟨hpost, rfl⟩ := call_ok.mp b10
  exact ⟨sm, pr, d0, w0, u1, d1, d2, wt, tl, w2, u2, hsm, hpr, hd0, hw0, hpsr,
    (Range_zero_ok.mp hr1).1, (Range_zero_ok.mp hr2).1, hres, hloop, hpro, hadd, hpost,
    by simp⟩

end Engine

/-! ## The base case -/

section Coarse

variable {R : Type} [Add R]

open Traced

/-- One round of defect correction: residual, coarse solve, accumulation. -/
theorem defectCorrection_ok {sm : Smoother R} {C : BaseMatrix R} {level : Int} {f : List R}
    {s s' : List R × List R × List R} {t : List Call} :
    defectCorrection sm C level f s = Except.ok (s', t) ↔
      ∃ d w u, sm.Residuum level s.1 f s.2.1 = Except.ok d ∧ C d = Except.ok w ∧
        vadd s.1 w = Except.ok u ∧ s' = (u, d, w) ∧
        t = [Call.Residuum level, Call.coarsegridpre] := by
  unfold defectCorrection
  simp only [bind_def]
  constructor
  · intro h
    obtain ⟨d, _, _, a0, b0, rfl⟩ := andThen_ok.mp h
    obtain ⟨hd, rfl⟩ := call_ok.mp a0
    obtain ⟨w, _, _, a1, b1, rfl⟩ := andThen_ok.mp b0
    obtain ⟨hw, rfl⟩ := call_ok.mp a1
    obtain ⟨u, _, _, a2, b2, rfl⟩ := andThen_ok.mp b1
    obtain ⟨hu, rfl⟩ := quiet_ok.mp a2
    obtain ⟨rfl, rfl⟩ := ret_ok.mp b2
    exact ⟨d, w, u, hd, hw, hu, rfl, rfl⟩
  · rintro ⟨d, w, u, hd, hw, hu, rfl, rfl⟩
    exact andThen_ok.mpr ⟨d, _, _, call_ok.mpr ⟨hd, rfl⟩,
      andThen_ok.mpr ⟨w, _, _, call_ok.mpr ⟨hw, rfl⟩,
        andThen_ok.mpr ⟨u, _, _, quiet_ok.mpr ⟨hu, rfl⟩, ret_ok.mpr ⟨rfl, rfl⟩, rfl⟩, rfl⟩, rfl⟩

/-- The base case under `EXACT_COARSE` or `USER_COARSE`. -/
theorem MGM_coarse_direct_ok {P : MultigridPreconditioner R} {level : Int} {u f r : List R}
    {t : List Call}
    (hct : P.coarsetype = COARSETYPE.EXACT_COARSE ∨ P.coarsetype = COARSETYPE.USER_COARSE) :
    MGM_coarse P level u f = Except.ok (r, t) ↔
      ∃ C u0, P.coarsegridpre = some C ∧ C f = Except.ok u0 ∧
        ((¬ P.coarsesmoothingsteps > 1 ∧ r = u0 ∧ t = [Call.coarsegridpre]) ∨
         (P.coarsesmoothingsteps > 1 ∧ ∃ sm d0 w0 s tl, P.smoother = some sm ∧
            sm.CreateVector 0 = Except.ok d0 ∧ sm.CreateVector 0 = Except.ok w0 ∧
            forLoop (P.coarsesmoothingsteps - 1).toNat (defectCorrection sm C level f)
              (u0, d0, w0) = Except.ok (s, tl) ∧
            r = s.1 ∧ t = Call.coarsegridpre :: tl)) := by
  have key : MGM_coarse P level u f =
      andThen (deref P.coarsegridpre) (fun C =>
        andThen (call Call.coarsegridpre (C f)) (fun u =>
          if P.coarsesmoothingsteps > 1 then
            andThen (deref P.smoother) (fun sm =>
              andThen (quiet (sm.CreateVector 0)) (fun d =>
                andThen (quiet (sm.CreateVector 0)) (fun w =>
                  andThen (forLoop (P.coarsesmoothingsteps - 1).toNat
                    (defectCorrection sm C level f) (u, d, w)) (fun s => pure s.1))))
          else pure u)) := by
    unfold MGM_coarse
    rcases hct with h | h <;> rw [h] <;> rfl
  rw [key]
  constructor
  · intro h
    obtain ⟨C, _, _, a0, b0, rfl⟩ := andThen_ok.mp h
    obtain ⟨hC, rfl⟩ := deref_ok.mp a0
    obtain ⟨u0, _, _, a1, b1, rfl⟩ := andThen_ok.mp b0
    obtain ⟨hu0, rfl⟩ := call_ok.mp a1
    refine ⟨C, u0, hC, hu0, ?_⟩
    by_cases hn : P.coarsesmoothingsteps > 1
    · rw [if_pos hn] at b1
      obtain ⟨sm, _, _, a2, b2, rfl⟩ := andThen_ok.mp b1
      obtain ⟨hsm, rfl⟩ := deref_ok.mp a2
      obtain ⟨d0, _, _, a3, b3, rfl⟩ := andThen_ok.mp b2
      obtain ⟨hd0, rfl⟩ := quiet_ok.mp a3
      obtain ⟨w0, _, _, a4, b4, rfl⟩ := andThen_ok.mp b3
      obtain ⟨hw0, rfl⟩ := quiet_ok.mp a4
      obtain ⟨s, tl, _, hloop, b5, rfl⟩ := andThen_ok.mp b4
      obtain ⟨rfl, rfl⟩ := ret_ok.mp b5
      exact Or.inr ⟨hn, sm, d0, w0, s, tl, hsm, hd0, hw0, hloop, rfl, by simp⟩
    · rw [if_neg hn] at b1
      obtain ⟨rfl, rfl⟩ := ret_ok.mp b1
      exact Or.inl ⟨hn, rfl, rfl⟩
  · rintro ⟨C, u0, hC, hu0, h⟩
    refine andThen_ok.mpr ⟨C, [], t, deref_ok.mpr ⟨hC, rfl⟩, ?_, rfl⟩
    rcases h with ⟨hn, rfl, rfl⟩ | ⟨hn, sm, d0, w0, s, tl, hsm, hd0, hw0, hloop, rfl, rfl⟩
    · refine andThen_ok.mpr ⟨r, _, [], call_ok.mpr ⟨hu0, rfl⟩, ?_, rfl⟩
      rw [if_neg hn]
      exact ret_ok.mpr ⟨rfl, rfl⟩
    · refine andThen_ok.mpr ⟨u0, _, tl, call_ok.mpr ⟨hu0, rfl⟩, ?_, rfl⟩
      rw [if_pos hn]
      exact andThen_ok.mpr ⟨sm, [], tl, deref_ok.mpr ⟨hsm, rfl⟩,
        andThen_ok.mpr ⟨d0, [], tl, quiet_ok.mpr ⟨hd0, rfl⟩,
          andThen_ok.mpr ⟨w0, [], tl, quiet_ok.mpr ⟨hw0, rfl⟩,
            andThen_ok.mpr ⟨s, tl, [], hloop, ret_ok.mpr ⟨rfl, rfl⟩, by simp⟩, rfl⟩, rfl⟩, rfl⟩

/-- The base case under `CG_COARSE`. -/
theorem MGM_coarse_cg_ok {P : MultigridPreconditioner R} {level : Int} {u f r : List R}
    {t : List Call} (hct : P.coarsetype = COARSETYPE.CG_COARSE) :
    MGM_coarse P level u f = Except.ok (r, t) ↔
      P.CGSolver (P.biform.GetMatrix 1) f = Except.ok r ∧ t = [Call.CGSolver] := by
  have key : MGM_coarse P level u f =
      call Call.CGSolver (P.CGSolver (P.biform.GetMatrix 1) f) := by
    unfold MGM_coarse
    rw [hct]
  rw [key]
  exact call_ok

/-- The base case under `SMOOTHING_COARSE`. -/
theorem MGM_coarse_smoothing_ok {P : MultigridPreconditioner R} {level : Int}
    {u f r : List R} {t : List Call} (hct : P.coarsetype = COARSETYPE.SMOOTHING_COARSE) :
    MGM_coarse P level u f = Except.ok (r, t) ↔
      ∃ sm u1, P.smoother = some sm ∧
        sm.PreSmooth level u f P.coarsesmoothingsteps = Except.ok u1 ∧
        sm.PostSmooth level u1 f P.coarsesmoothingsteps = Except.ok r ∧
        t = [Call.PreSmooth level P.coarsesmoothingsteps,
             Call.PostSmooth level P.coarsesmoothingsteps] := by
  have key : MGM_coarse P level u f =
      andThen (deref P.smoother) (fun sm =>
        andThen (call (Call.PreSmooth level P.coarsesmoothingsteps)
            (sm.PreSmooth level u f P.coarsesmoothingsteps)) (fun u =>
          call (Call.PostSmooth level P.coarsesmoothingsteps)
            (sm.PostSmooth level u f P.coarsesmoothingsteps))) := by
    unfold MGM_coarse
    rw [hct]
    rfl
  rw [key]
  constructor
  · intro h
    obtain ⟨sm, _, _, a0, b0, rfl⟩ := andThen_ok.mp h
    obtain ⟨hsm, rfl⟩ := deref_ok.mp a0
    obtain ⟨u1, _, _, a1, b1, rfl⟩ := andThen_ok.mp b0
    obtain ⟨hpre, rfl⟩ := call_ok.mp a1
    obtain ⟨hpost, rfl⟩ := call_ok.mp b1
    exact ⟨sm, u1, hsm, hpre, hpost, rfl⟩
  · rintro ⟨sm, u1, hsm, hpre, hpost, rfl⟩
    exact andThen_ok.mpr ⟨sm, [], _, deref_ok.mpr ⟨hsm, rfl⟩,
      andThen_ok.mpr ⟨u1, _, _, call_ok.mpr ⟨hpre, rfl⟩, call_ok.mpr ⟨hpost, rfl⟩, rfl⟩, rfl⟩

/-- The base case for a value outside the enumeration: no `case` label
matches, and `u` is returned as it came. -/
theorem MGM_coarse_unrecognized_ok {P : MultigridPreconditioner R} {level : Int}
    {u f r : List R} {t : List Call} {v : Int}
    (hct : P.coarsetype = COARSETYPE.unrecognized v) :
    MGM_coarse P level u f = Except.ok (r, t) ↔ r = u ∧ t = [] := by
  have key : MGM_coarse P level u f = pure u := by
    unfold MGM_coarse
    rw [hct]
  rw [key]
  exact ret_ok

/-- The base case records only calls of the coarse-grid preconditioner, of the
CG solver and of the smoother at this level; it never enters `MGM`. -/
theorem MGM_coarse_calls {P : MultigridPreconditioner R} {level : Int} {u f r : List R}
    {t : List Call} (h : MGM_coarse P level u f = Except.ok (r, t)) :
    ∀ c ∈ t, c = Call.coarsegridpre ∨ c = Call.CGSolver ∨ c = Call.Residuum level ∨
      c = Call.PreSmooth level P.coarsesmoothingsteps ∨
      c = Call.PostSmooth level P.coarsesmoothingsteps := by
  intro c hc
  cases hct : P.coarsetype with
  | EXACT_COARSE =>
    obtain ⟨C, u0, -, -, h' | h'⟩ := (MGM_coarse_direct_ok (Or.inl hct)).mp h
    · obtain ⟨-, -, rfl⟩ := h'
      simp at hc
      exact Or.inl hc
    · obtain ⟨-, sm, d0, w0, s, tl, -, -, -, hloop, -, rfl⟩ := h'
      rcases List.mem_cons.mp hc with hc | hc
      · exact Or.inl hc
      · have := forLoop_forall (Q := fun c => c = Call.Residuum level ∨ c = Call.coarsegridpre)
          (fun a b t hb c hc => by
            obtain ⟨_, _, _, -, -, -, -, rfl⟩ := defectCorrection_ok.mp hb
            simpa using hc) _ _ _ _ hloop c hc
        rcases this with e | e
        · exact Or.inr (Or.inr (Or.inl e))
        · exact Or.inl e
  | USER_COARSE =>
    obtain ⟨C, u0, -, -, h' | h'⟩ := (MGM_coarse_direct_ok (Or.inr hct)).mp h
    · obtain ⟨-, -, rfl⟩ := h'
      simp at hc
      exact Or.inl hc
    · obtain ⟨-, sm, d0, w0, s, tl, -, -, -, hloop, -, rfl⟩ := h'
      rcases List.mem_cons.mp hc with hc | hc
      · exact Or.inl hc
      · have := forLoop_forall (Q := fun c => c = Call.Residuum level ∨ c = Call.coarsegridpre)
          (fun a b t hb c hc => by
            obtain ⟨_, _, _, -, -, -, -, rfl⟩ := defectCorrection_ok.mp hb
            simpa using hc) _ _ _ _ hloop c hc
        rcases this with e | e
        · exact Or.inr (Or.inr (Or.inl e))
        · exact Or.inl e
  | CG_COARSE =>
    obtain ⟨-, rfl⟩ := (MGM_coarse_cg_ok hct).mp h
    simp at hc
    exact Or.inr (Or.inl hc)
  | SMOOTHING_COARSE =>
    obtain ⟨sm, u1, -, -, -, rfl⟩ := (MGM_coarse_smoothing_ok hct).mp h
    simp at hc
    rcases hc with e | e
    · exact Or.inr (Or.inr (Or.inr (Or.inl e)))
    · exact Or.inr (Or.inr (Or.inr (Or.inr e)))
  | unrecognized v =>
    obtain ⟨-, rfl⟩ := (MGM_coarse_unrecognized_ok hct).mp h
    simp at hc

theorem MGM_coarse_countP {P : MultigridPreconditioner R} {level : Int} {u f r : List R}
    {t : List Call} (q : Int → Bool) (h : MGM_coarse P level u f = Except.ok (r, t)) :
    t.countP (Call.isMGM q) = 0 := by
  rw [List.countP_eq_zero]
  intro c hc
  rcases MGM_coarse_calls h c hc with e | e | e | e | e <;> subst e <;> simp [Call.isMGM]

end Coarse

/-! ## Which calls a run records -/

section Counting

variable {R : Type} [Zero R] [Add R]

open Traced

/-- Entries into `MGM` during one run started at level `k`. -/
theorem MGM_countP (P : MultigridPreconditioner R) (q : Int → Bool) :
    ∀ (k : Nat) (level : Int), level = k → ∀ (u f : List R) (incsm : Int) (r : List R)
      (t : List Call), MGM P level u f incsm = Except.ok (r, t) →
      t.countP (Call.isMGM q) = visits P.cycle q k := by
  intro k
  induction k with
  | zero =>
    intro level hl u f incsm r t h
    obtain ⟨t', h', rfl⟩ := (MGM_ok_coarse (by omega)).mp h
    have hl0 : level = 0 := by simpa using hl
    subst hl0
    rw [List.countP_cons, MGM_coarse_countP q h']
    simp [Call.isMGM, visits]
  | succ k ih =>
    intro level hl u f incsm r t h
    obtain ⟨t', h', rfl⟩ := (MGM_ok_fine (by omega)).mp h
    have hl1 : level = (k : Int) + 1 := by simpa using hl
    subst hl1
    rw [List.countP_cons]
    by_cases hc : P.cycle = 0
    · obtain ⟨sm, u1, -, -, -, rfl⟩ := (MGM_fine_cycle0_ok hc).mp h'
      simp [Call.isMGM, visits, hc]
    · obtain ⟨sm, pr, d0, w0, u1, d1, d2, wt, tl, w2, u2, -, -, -, -, -, -, -, -, hloop, -, -,
        -, rfl⟩ := MGM_fine_cycle_ok hc h'
      have hrec := forLoop_countP (p := Call.isMGM q) (m := visits P.cycle q k)
        (fun a b t hb => ih ((k : Int) + 1 - 1) (by omega) _ _ _ _ _ hb) _ _ _ _ hloop
      simp only [List.countP_append, hrec]
      simp [Call.isMGM, visits, hc, List.countP_cons]
      omega

theorem visits_base (c : Int) (k : Nat) :
    visits c (fun l => decide (l ≤ 0)) k = c.toNat ^ k := by
  induction k with
  | zero => simp [visits]
  | succ k ih =>
    have hk : ¬ ((k : Int) + 1 ≤ 0) := by omega
    by_cases hc : c = 0
    · simp [visits, hk, hc]
    · simp [visits, hk, hc, ih, pow_succ, Nat.mul_comm]

theorem visits_level (c : Int) (l : Int) (k : Nat) :
    visits c (fun x => decide (x = l)) k =
      if 0 ≤ l ∧ l ≤ k then c.toNat ^ (k - l.toNat) else 0 := by
  induction k with
  | zero =>
    by_cases hl : l = 0
    · subst hl; simp [visits]
    · have h1 : ¬ (0 = l) := fun e => hl e.symm
      have h2 : ¬ (0 ≤ l ∧ l ≤ ((0 : Nat) : Int)) := by omega
      rw [if_neg h2]
      simp [visits, h1]
  | succ k ih =>
    simp only [visits, ih]
    by_cases hl : l = (k : Int) + 1
    · subst hl
      have h2 : ¬ (0 ≤ (k : Int) + 1 ∧ (k : Int) + 1 ≤ k) := by omega
      have h3 : (0 : Int) ≤ (k : Int) + 1 ∧ (k : Int) + 1 ≤ ((k + 1 : Nat) : Int) := by
        constructor <;> push_cast <;> omega
      have h4 : k + 1 - ((k : Int) + 1).toNat = 0 := by omega
      rw [if_pos h3, if_neg h2, h4]
      simp
    · have h1 : ¬ ((k : Int) + 1 = l) := fun e => hl e.symm
      by_cases hr : 0 ≤ l ∧ l ≤ k
      · have h3 : (0 : Int) ≤ l ∧ l ≤ ((k + 1 : Nat) : Int) := by
          constructor
          · exact hr.1
          · push_cast; omega
        have h4 : k + 1 - l.toNat = (k - l.toNat) + 1 := by omega
        rw [if_pos h3, if_pos hr, h4]
        by_cases hc : c = 0
        · simp [h1, hc]
        · simp [h1, hc, pow_succ, Nat.mul_comm]
      · have h3 : ¬ ((0 : Int) ≤ l ∧ l ≤ ((k + 1 : Nat) : Int)) := by
          push_cast; omega
        rw [if_neg h3, if_neg hr]
        simp [h1]

/-- The call `Mult (x, y)` succeeds exactly when `MGM`, started at the finest level on
the zeroed `y`, succeeds, and then with the same result and calls. -/
theorem Mult_ok {P : MultigridPreconditioner R} {x y r : List R} {t : List Call} :
    Mult P x y = Except.ok (r, t) ↔
      MGM P (P.ma.GetNLevels - 1) (zeroVec y) x MGM_default_incsm = Except.ok (r, t) := by
  unfold Mult
  cases h : MGM P (P.ma.GetNLevels - 1) (zeroVec y) x MGM_default_incsm with
  | ok a => simp
  | error e => cases e <;> simp

/-- Entries per level during one `Mult` on a hierarchy of at least one level. -/
theorem Mult_entries {P : MultigridPreconditioner R} {x y r : List R} {t : List Call}
    (hL : 1 ≤ P.ma.GetNLevels) (h : Mult P x y = Except.ok (r, t)) (l : Int) :
    entries l t =
      if 0 ≤ l ∧ l ≤ P.ma.GetNLevels - 1 then
        P.cycle.toNat ^ ((P.ma.GetNLevels - 1).toNat - l.toNat)
      else 0 := by
  have hk : P.ma.GetNLevels - 1 = ((P.ma.GetNLevels - 1).toNat : Int) := by omega
  have hcount := MGM_countP P (fun x => decide (x = l)) _ _ hk _ _ _ _ _ (Mult_ok.mp h)
  unfold entries
  rw [hcount, visits_level]
  by_cases hr : 0 ≤ l ∧ l ≤ P.ma.GetNLevels - 1
  · rw [if_pos hr, if_pos ⟨hr.1, by omega⟩]
  · rw [if_neg hr, if_neg (by omega)]

/-- Step counts of the smoothing calls above level 0 during one run of `MGM`
started at level `k` with factor `incsm`. -/
theorem MGM_smoothing_steps (P : MultigridPreconditioner R) :
    ∀ (k : Nat) (level : Int), level = k → ∀ (u f : List R) (incsm : Int) (r : List R)
      (t : List Call), MGM P level u f incsm = Except.ok (r, t) →
      ∀ c ∈ t, ∀ (l s : Int), c.smoothing = some (l, s) → 1 ≤ l →
        l ≤ k ∧ s = P.smoothingsteps * (incsm * P.incsmooth ^ (k - l.toNat)) := by
  intro k
  induction k with
  | zero =>
    intro level hl u f incsm r t h c hc l s hcs h1
    obtain ⟨t', h', rfl⟩ := (MGM_ok_coarse (by omega)).mp h
    rcases List.mem_cons.mp hc with e | hc'
    · subst e; simp [Call.smoothing] at hcs
    · have hl0 : level = 0 := by simpa using hl
      rcases MGM_coarse_calls h' c hc' with e | e | e | e | e <;> subst e <;>
        simp [Call.smoothing] at hcs <;> omega
  | succ k ih =>
    intro level hl u f incsm r t h c hc l s hcs h1
    obtain ⟨t', h', rfl⟩ := (MGM_ok_fine (by omega)).mp h
    have hl1 : level = (k : Int) + 1 := by simpa using hl
    have here : ∀ l s : Int, l = level → s = P.smoothingsteps * incsm → 1 ≤ l →
        l ≤ ((k + 1 : Nat) : Int) ∧
          s = P.smoothingsteps * (incsm * P.incsmooth ^ (k + 1 - l.toNat)) := by
      intro l s e1 e2 _
      have e3 : k + 1 - l.toNat = 0 := by omega
      refine ⟨by omega, ?_⟩
      rw [e2, e3]
      simp
    rcases List.mem_cons.mp hc with e | hc'
    · subst e; simp [Call.smoothing] at hcs
    · by_cases hcy : P.cycle = 0
      · obtain ⟨sm, u1, -, -, -, rfl⟩ := (MGM_fine_cycle0_ok hcy).mp h'
        simp only [List.mem_cons, List.mem_singleton, List.not_mem_nil, or_false] at hc'
        rcases hc' with e | e <;> subst e <;> simp only [Call.smoothing, Option.some.injEq,
          Prod.mk.injEq] at hcs <;> exact here l s hcs.1.symm hcs.2.symm h1
      · obtain ⟨sm, pr, d0, w0, u1, d1, d2, wt, tl, w2, u2, -, -, -, -, -, -, -, -, hloop, -,
          -, -, rfl⟩ := MGM_fine_cycle_ok hcy h'
        simp only [List.mem_append, List.mem_cons, List.mem_singleton, List.not_mem_nil,
          or_false] at hc'
        rcases hc' with ((e | e) | hin) | e | e
        · subst e
          simp only [Call.smoothing, Option.some.injEq, Prod.mk.injEq] at hcs
          exact here l s hcs.1.symm hcs.2.symm h1
        · subst e; simp [Call.smoothing] at hcs
        · have hrec := forLoop_forall
            (Q := fun c => ∀ (l s : Int), c.smoothing = some (l, s) → 1 ≤ l →
              l ≤ k ∧ s = P.smoothingsteps * (incsm * P.incsmooth * P.incsmooth ^ (k - l.toNat)))
            (fun a b t hb => ih (level - 1) (by omega) _ _ _ _ _ hb) _ _ _ _ hloop c hin
            l s hcs h1
          obtain ⟨hle, hs⟩ := hrec
          have e3 : k + 1 - l.toNat = (k - l.toNat) + 1 := by omega
          refine ⟨by push_cast; omega, ?_⟩
          rw [hs, e3, pow_succ]
          ring
        · subst e; simp [Call.smoothing] at hcs
        · subst e
          simp only [Call.smoothing, Option.some.injEq, Prod.mk.injEq] at hcs
          exact here l s hcs.1.symm hcs.2.symm h1

end Counting

/-! ## The claims -/

section Claims

variable {R : Type} [Zero R] [Add R]

open Traced

/-- C1: on a hierarchy of `L >= 1` levels and for every cycle `c >= 0`, a
`Mult` that returns has executed the base case of `MGM` (the branch
`level <= 0`) exactly `c ^ (L - 1)` times, where `0 ^ 0 = 1`; all these
executions are entries at level `0`. -/
theorem C1_base_case_visits (P : MultigridPreconditioner R) (x y r : List R)
    (t : List Call) (hL : 1 ≤ P.ma.GetNLevels) (hc : 0 ≤ P.cycle)
    (h : Mult P x y = Except.ok (r, t)) :
    (baseCases t : Int) = P.cycle ^ (P.ma.GetNLevels - 1).toNat ∧
      entries 0 t = baseCases t := by
  have hk : P.ma.GetNLevels - 1 = ((P.ma.GetNLevels - 1).toNat : Int) := by omega
  have hb : baseCases t = P.cycle.toNat ^ (P.ma.GetNLevels - 1).toNat := by
    have hcount := MGM_countP P (fun l => decide (l ≤ 0)) _ _ hk _ _ _ _ _ (Mult_ok.mp h)
    unfold baseCases
    rw [hcount, visits_base]
  constructor
  · rw [hb]
    push_cast
    rw [Int.toNat_of_nonneg hc]
  · rw [hb, Mult_entries hL h 0, if_pos ⟨le_refl 0, by omega⟩]
    simp

/-- C1, on three levels with cycle 2: the base case runs `2 ^ 2 = 4` times. -/
theorem C1_base_case_visits_witness :
    ∃ r t, Mult (Example.pre 3 2 3 COARSETYPE.EXACT_COARSE 1 3) [1, 2, 3] [9, 9, 9]
        = Except.ok (r, t) ∧ (baseCases t : Int) = 4 ∧ entries 0 t = baseCases t :=
  ⟨_, _, rfl, C1_base_case_visits (Example.pre 3 2 3 COARSETYPE.EXACT_COARSE 1 3)
    [1, 2, 3] [9, 9, 9] _ _ (by decide) (by decide) rfl⟩

/-- C2: on `L >= 1` levels with cycle `c >= 1`, a `Mult` that returns has
entered `MGM` once at the finest level `L - 1`, and `c` times at level `l - 1`
for every entry at level `l` (`1 <= l <= L - 1`).  Hence with `c = 1` every
level `0 .. L - 1` is entered once, and with `c = 2` level `l - 1` is entered
twice as often as level `l`. -/
theorem C2_entries_per_level (P : MultigridPreconditioner R) (x y r : List R)
    (t : List Call) (hL : 1 ≤ P.ma.GetNLevels) (hc : 1 ≤ P.cycle)
    (h : Mult P x y = Except.ok (r, t)) :
    entries (P.ma.GetNLevels - 1) t = 1 ∧
    (∀ l : Int, 1 ≤ l → l ≤ P.ma.GetNLevels - 1 →
      (entries (l - 1) t : Int) = P.cycle * entries l t) ∧
    (P.cycle = 1 → ∀ l : Int, 0 ≤ l → l ≤ P.ma.GetNLevels - 1 → entries l t = 1) ∧
    (P.cycle = 2 → ∀ l : Int, 1 ≤ l → l ≤ P.ma.GetNLevels - 1 →
      entries (l - 1) t = 2 * entries l t) := by
  have hstep : ∀ l : Int, 1 ≤ l → l ≤ P.ma.GetNLevels - 1 →
      entries (l - 1) t = P.cycle.toNat * entries l t := by
    intro l h1 h2
    rw [Mult_entries hL h (l - 1), Mult_entries hL h l, if_pos ⟨by omega, by omega⟩,
      if_pos ⟨by omega, h2⟩]
    have e : (P.ma.GetNLevels - 1).toNat - (l - 1).toNat
        = ((P.ma.GetNLevels - 1).toNat - l.toNat) + 1 := by omega
    rw [e, pow_succ, Nat.mul_comm]
  refine ⟨?_, ?_, ?_, ?_⟩
  · rw [Mult_entries hL h, if_pos ⟨by omega, le_refl _⟩]
    simp
  · intro l h1 h2
    rw [hstep l h1 h2]
    push_cast
    rw [Int.toNat_of_nonneg (by omega)]
  · intro hc1 l h1 h2
    rw [Mult_entries hL h l, if_pos ⟨h1, h2⟩, hc1]
    simp
  · intro hc2 l h1 h2
    rw [hstep l h1 h2, hc2]
    rfl

/-- C2, on three levels with cycle 2: levels 2, 1, 0 are entered 1, 2, 4 times. -/
theorem C2_entries_per_level_witness :
    ∃ r t, Mult (Example.pre 3 2 3 COARSETYPE.EXACT_COARSE 1 3) [1, 2, 3] [9, 9, 9]
        = Except.ok (r, t) ∧ entries 2 t = 1 ∧ entries 1 t = 2 ∧ entries 0 t = 4 :=
  have hw := C2_entries_per_level (Example.pre 3 2 3 COARSETYPE.EXACT_COARSE 1 3)
    [1, 2, 3] [9, 9, 9] _ _ (by decide) (by decide) rfl
  ⟨_, _, rfl, hw.1, by decide, by decide⟩

/-- C3: during one `Mult` on `L` levels (for every cycle, in particular for
`cycle >= 1`), every pre-smoothing call (`PreSmooth`, `PreSmoothResiduum`) and
every post-smoothing call recorded at level `L - 1 - k`, `0 <= k <= L - 2`, was
given `smoothing_steps * smoothing_step_increase ^ k` steps, the product taken
in unbounded integers.  With `smoothing_step_increase = 1` every smoothing call
above level 0 was given `smoothing_steps` steps. -/
theorem C3_smoothing_steps (P : MultigridPreconditioner R) (x y r : List R)
    (t : List Call) (hL : 1 ≤ P.ma.GetNLevels) (h : Mult P x y = Except.ok (r, t)) :
    (∀ (k : Nat) (s : Int), (k : Int) ≤ P.ma.GetNLevels - 2 →
      (Call.PreSmooth (P.ma.GetNLevels - 1 - k) s ∈ t ∨
        Call.PreSmoothResiduum (P.ma.GetNLevels - 1 - k) s ∈ t ∨
        Call.PostSmooth (P.ma.GetNLevels - 1 - k) s ∈ t) →
      s = P.smoothingsteps * P.incsmooth ^ k) ∧
    (P.incsmooth = 1 → ∀ (l s : Int), 1 ≤ l →
      (Call.PreSmooth l s ∈ t ∨ Call.PreSmoothResiduum l s ∈ t ∨ Call.PostSmooth l s ∈ t) →
      s = P.smoothingsteps) := by
  have hk : P.ma.GetNLevels - 1 = ((P.ma.GetNLevels - 1).toNat : Int) := by omega
  have key : ∀ (l s : Int), 1 ≤ l →
      (Call.PreSmooth l s ∈ t ∨ Call.PreSmoothResiduum l s ∈ t ∨ Call.PostSmooth l s ∈ t) →
      l ≤ P.ma.GetNLevels - 1 ∧
        s = P.smoothingsteps * P.incsmooth ^ ((P.ma.GetNLevels - 1).toNat - l.toNat) := by
    intro l s h1 hin
    have hall := MGM_smoothing_steps P _ _ hk _ _ _ _ _ (Mult_ok.mp h)
    have hone : ∀ c ∈ t, c.smoothing = some (l, s) →
        l ≤ P.ma.GetNLevels - 1 ∧
          s = P.smoothingsteps * P.incsmooth ^ ((P.ma.GetNLevels - 1).toNat - l.toNat) := by
      intro c hc hcs
      obtain ⟨hle, hs⟩ := hall c hc l s hcs h1
      refine ⟨by omega, ?_⟩
      rw [hs]
      simp [MGM_default_incsm]
    rcases hin with hin | hin | hin
    · exact hone _ hin rfl
    · exact hone _ hin rfl
    · exact hone _ hin rfl
  constructor
  · intro k s hk2 hin
    obtain ⟨-, hs⟩ := key _ s (by omega) hin
    have e : (P.ma.GetNLevels - 1).toNat - (P.ma.GetNLevels - 1 - (k : Int)).toNat = k := by
      omega
    rw [hs, e]
  · intro hq l s h1 hin
    obtain ⟨-, hs⟩ := key l s h1 hin
    rw [hs, hq]
    simp

/-- C3, on three levels with `smoothing_steps = 1` and growth factor 3: the
smoothing calls at level 1 (depth 1) were given `1 * 3 ^ 1` steps. -/
theorem C3_smoothing_steps_witness :
    ∃ r t, Mult (Example.pre 3 2 3 COARSETYPE.EXACT_COARSE 1 3) [1, 2, 3] [9, 9, 9]
        = Except.ok (r, t) ∧ Call.PostSmooth 1 3 ∈ t ∧
      ∀ (k : Nat) (s : Int), (k : Int) ≤ 3 - 2 →
        (Call.PreSmooth (3 - 1 - k) s ∈ t ∨ Call.PreSmoothResiduum (3 - 1 - k) s ∈ t ∨
          Call.PostSmooth (3 - 1 - k) s ∈ t) → s = 1 * 3 ^ k :=
  ⟨_, _, rfl, by decide,
    (C3_smoothing_steps (Example.pre 3 2 3 COARSETYPE.EXACT_COARSE 1 3)
      [1, 2, 3] [9, 9, 9] _ _ (by decide) rfl).1⟩

/-- C4: the call `Mult (x, y)` returns exactly what `MGM (L - 1, u, x, incsm = 1)`
returns when started from `u` = the zero vector of the size of `y`, with the
same calls; so the result depends on `y` only through its size.  The
right-hand side `x` is passed by const reference: it is an argument of the
run and no part of its result. -/
theorem C4_Mult_is_MGM_from_zero (P : MultigridPreconditioner R) (x y y' : List R) :
    (∀ r t, Mult P x y = Except.ok (r, t) ↔
      MGM P (P.ma.GetNLevels - 1) (List.replicate y.length 0) x 1 = Except.ok (r, t)) ∧
    (y'.length = y.length → Mult P x y' = Mult P x y) := by
  constructor
  · intro r t
    exact Mult_ok
  · intro hlen
    unfold Mult zeroVec
    rw [hlen]

/-- C4, on three levels: two calls of `Mult` that differ only in the old
contents of `y` agree. -/
theorem C4_Mult_is_MGM_from_zero_witness :
    Mult (Example.pre 3 2 3 COARSETYPE.EXACT_COARSE 1 3) [1, 2, 3] [0, 5, 7]
      = Mult (Example.pre 3 2 3 COARSETYPE.EXACT_COARSE 1 3) [1, 2, 3] [9, 9, 9] :=
  (C4_Mult_is_MGM_from_zero (Example.pre 3 2 3 COARSETYPE.EXACT_COARSE 1 3)
    [1, 2, 3] [9, 9, 9] [0, 5, 7]).2 rfl

/-- C5: a returning `MGM (level, u, f, incsm)` with `level > 0` and `cycle >= 1`
has issued, at that level and in this order: one `PreSmoothResiduum` with
`smoothing_steps * incsm` steps, giving the residual `d1`; one `RestrictInline`
on it, giving `d2`; then `cycle` calls `MGM (level - 1, wt, dt, incsm *
smoothing_step_increase)` one after the other, the first on the leading
`n = ndof (level - 1)` entries of the zeroed `w`, each next one on what the
previous one returned, all with `dt` = the leading `n` entries of `d2`; one
`ProlongateInline` on `w` with the last `wt` written back; `u += w`; one
`PostSmooth` with `smoothing_steps * incsm` steps.  The recorded calls are the
entry, the two calls before the recursion, the calls of the recursive runs in
order, and the two calls after it. -/
theorem C5_recursive_case_sequence (P : MultigridPreconditioner R) (level : Int)
    (u f : List R) (incsm : Int) (r : List R) (t : List Call)
    (hl : 0 < level) (hc : 1 ≤ P.cycle) (h : MGM P level u f incsm = Except.ok (r, t)) :
    ∃ (sm : Smoother R) (pr : Prolongation R) (d0 w0 u1 d1 d2 w2 : List R)
      (w : Nat → List R) (tr : Nat → List Call),
      P.smoother = some sm ∧ P.prolongation = some pr ∧
      sm.CreateVector level = Except.ok d0 ∧ sm.CreateVector level = Except.ok w0 ∧
      sm.PreSmoothResiduum level u f d0 (P.smoothingsteps * incsm) = Except.ok (u1, d1) ∧
      pr.RestrictInline level d1 = Except.ok d2 ∧
      w 0 = (List.replicate w0.length 0).take (P.fespace.GetNDofLevel (level - 1)) ∧
      (w 0).length = P.fespace.GetNDofLevel (level - 1) ∧
      P.fespace.GetNDofLevel (level - 1) ≤ d1.length ∧
      (∀ j : Nat, (j : Int) < P.cycle →
        MGM P (level - 1) (w j) (d2.take (P.fespace.GetNDofLevel (level - 1)))
          (incsm * P.incsmooth) = Except.ok (w (j + 1), tr j)) ∧
      pr.ProlongateInline level
        (w P.cycle.toNat ++
          (List.replicate w0.length 0).drop (P.fespace.GetNDofLevel (level - 1)))
        = Except.ok w2 ∧
      u1.length = w2.length ∧
      sm.PostSmooth level (List.zipWith (· + ·) u1 w2) f (P.smoothingsteps * incsm)
        = Except.ok r ∧
      t = Call.MGM level incsm ::
          Call.PreSmoothResiduum level (P.smoothingsteps * incsm) ::
          Call.RestrictInline level ::
          (((List.range P.cycle.toNat).map tr).flatten ++
            [Call.ProlongateInline level,
             Call.PostSmooth level (P.smoothingsteps * incsm)]) := by
  obtain ⟨t', h', rfl⟩ := (MGM_ok_fine hl).mp h
  obtain ⟨sm, pr, d0, w0, u1, d1, d2, wt, tl, w2, u2, hsm, hpr, hd0, hw0, hpsr, hnd, hnw, hres,
    hloop, hpro, hadd, hpost, rfl⟩ := MGM_fine_cycle_ok (by omega) h'
  obtain ⟨w, tr, hw0', hstep, rfl, rfl⟩ := forLoop_ok_iff.mp hloop
  obtain ⟨hlen, rfl⟩ := vadd_ok.mp hadd
  refine ⟨sm, pr, d0, w0, u1, d1, d2, w2, w, tr, hsm, hpr, hd0, hw0, hpsr, hres, hw0', ?_, hnd,
    ?_, hpro, hlen, hpost, by simp⟩
  · rw [hw0']
    simp [zeroVec, hnw]
  · intro j hj
    exact hstep j (by omega)

/-- C5, at level 1 of a two-level hierarchy with cycle 2 (a W-cycle). -/
theorem C5_recursive_case_sequence_witness :
    ∃ (r : List Int) (tr : Nat → List Call),
      MGM (Example.pre 2 2 3 COARSETYPE.EXACT_COARSE 1 3) 1 [0, 0] [1, 2] 1 =
        Except.ok (r, Call.MGM 1 1 :: Call.PreSmoothResiduum 1 (1 * 1) ::
          Call.RestrictInline 1 :: (((List.range 2).map tr).flatten ++
            [Call.ProlongateInline 1, Call.PostSmooth 1 (1 * 1)])) :=
  have hw := C5_recursive_case_sequence (Example.pre 2 2 3 COARSETYPE.EXACT_COARSE 1 3)
    1 [0, 0] [1, 2] 1 _ _ (by decide) (by decide) rfl
  match hw with
  | ⟨_, _, _, _, _, _, _, _, _, tr, _, _, _, _, _, _, _, _, _, _, _, _, _, ht⟩ =>
    ⟨_, tr, congrArg (fun t => Except.ok (_, t)) ht⟩

/-- C6: at level 0 under `EXACT_COARSE` or `USER_COARSE`, with coarse solver `C`
and `n = coarse_smoothing_steps`, a returning `MGM` returns `u_m`,
`m = max (n, 1) - 1`, where `u_0 = C * f` and, for `1 <= i <= m`,
`u_i = u_(i-1) + C * d_i` with `d_i` the residual that `Residuum (0, u_(i-1), f, .)`
wrote into the scratch vector.  So `C` is applied `max (n, 1)` times, and for
`n > 1` there are `n - 1` defect-correction passes. -/
theorem C6_direct_coarse_solve (P : MultigridPreconditioner R) (u f : List R)
    (incsm : Int) (r : List R) (t : List Call)
    (hct : P.coarsetype = COARSETYPE.EXACT_COARSE ∨ P.coarsetype = COARSETYPE.USER_COARSE)
    (h : MGM P 0 u f incsm = Except.ok (r, t)) :
    ∃ (C : BaseMatrix R) (us ds : Nat → List R),
      P.coarsegridpre = some C ∧ C f = Except.ok (us 0) ∧
      (1 < P.coarsesmoothingsteps →
        ∃ sm, P.smoother = some sm ∧ sm.CreateVector 0 = Except.ok (ds 0)) ∧
      (∀ i : Nat, 1 ≤ i → (i : Int) ≤ max P.coarsesmoothingsteps 1 - 1 →
        ∃ (sm : Smoother R) (w : List R), P.smoother = some sm ∧
          sm.Residuum 0 (us (i - 1)) f (ds (i - 1)) = Except.ok (ds i) ∧
          C (ds i) = Except.ok w ∧ (us (i - 1)).length = w.length ∧
          us i = List.zipWith (· + ·) (us (i - 1)) w) ∧
      r = us (max P.coarsesmoothingsteps 1 - 1).toNat ∧
      (t.count Call.coarsegridpre : Int) = max P.coarsesmoothingsteps 1 ∧
      (1 < P.coarsesmoothingsteps →
        (t.count (Call.Residuum 0) : Int) = P.coarsesmoothingsteps - 1) ∧
      t = Call.MGM 0 incsm :: Call.coarsegridpre ::
        (List.replicate (max P.coarsesmoothingsteps 1 - 1).toNat
          [Call.Residuum 0, Call.coarsegridpre]).flatten := by
  obtain ⟨t', h', rfl⟩ := (MGM_ok_coarse (le_refl 0)).mp h
  obtain ⟨C, u0, hC, hu0, hcase | hcase⟩ := (MGM_coarse_direct_ok hct).mp h'
  · obtain ⟨hn, rfl, rfl⟩ := hcase
    have hm : max P.coarsesmoothingsteps 1 - 1 = 0 := by omega
    refine ⟨C, fun _ => r, fun _ => [], hC, hu0, fun h1 => absurd h1 hn, ?_, rfl, ?_,
      fun h1 => absurd h1 hn, ?_⟩
    · intro i h1 h2
      omega
    · simp [List.count_cons]
      omega
    · rw [hm]
      simp
  · obtain ⟨hn, sm, d0, w0, s, tl, hsm, hd0, hw0, hloop, rfl, rfl⟩ := hcase
    obtain ⟨st, tr, hst0, hstep, rfl, rfl⟩ := forLoop_ok_iff.mp hloop
    have hm : (max P.coarsesmoothingsteps 1 - 1).toNat = (P.coarsesmoothingsteps - 1).toNat := by
      omega
    have htr : (List.range (P.coarsesmoothingsteps - 1).toNat).map tr
        = List.replicate (P.coarsesmoothingsteps - 1).toNat
            [Call.Residuum 0, Call.coarsegridpre] := by
      apply map_range_eq_replicate
      intro j hj
      obtain ⟨d, w, u', -, -, -, -, e⟩ := defectCorrection_ok.mp (hstep j hj)
      exact e
    refine ⟨C, fun i => (st i).1, fun i => (st i).2.1, hC, ?_, fun _ => ⟨sm, hsm, ?_⟩, ?_, ?_,
      ?_, ?_, ?_⟩
    · simpa [hst0] using hu0
    · simpa [hst0] using hd0
    · intro i h1 h2
      obtain ⟨d, w, u', hd, hw, hadd, e, -⟩ := defectCorrection_ok.mp (hstep (i - 1) (by omega))
      have ei : i - 1 + 1 = i := by omega
      rw [ei] at e
      obtain ⟨hlen, hu'⟩ := vadd_ok.mp hadd
      refine ⟨sm, w, hsm, ?_, ?_, hlen, ?_⟩
      · simp only [e]; exact hd
      · simp only [e]; exact hw
      · simp only [e]; exact hu'
    · rw [hm]
    · rw [htr, List.count_cons, List.count_cons, count_flatten_replicate]
      simp [List.count_cons]
      omega
    · intro _
      rw [htr, List.count_cons, List.count_cons, count_flatten_replicate]
      simp [List.count_cons]
      omega
    · rw [htr, hm]

/-- C6, with three coarse smoothing steps: `C` is applied three times and the
residual is formed twice. -/
theorem C6_direct_coarse_solve_witness :
    ∃ (r : List Int) (t : List Call),
      MGM (Example.pre 1 1 1 COARSETYPE.USER_COARSE 3 3) 0 [0] [1] 1 = Except.ok (r, t) ∧
      t = Call.MGM 0 1 :: Call.coarsegridpre ::
        (List.replicate (max 3 1 - 1 : Int).toNat [Call.Residuum 0, Call.coarsegridpre]).flatten :=
  have hw := C6_direct_coarse_solve (Example.pre 1 1 1 COARSETYPE.USER_COARSE 3 3)
    [0] [1] 1 _ _ (Or.inr rfl) rfl
  match hw with
  | ⟨_, _, _, _, _, _, _, _, _, _, ht⟩ => ⟨_, _, rfl, ht⟩

/-- C8: with `cycle = 0` and `level > 0`, `MGM (level, u, f, incsm)` returns `r`
exactly when `PreSmooth` and then `PostSmooth`, each with `smoothing_steps *
incsm` steps at that level, lead from `u` to `r`; besides its own entry the run
records these two calls and nothing else: no recursive `MGM`, no restriction,
no prolongation, no coarse solve. -/
theorem C8_cycle_zero_smooths_only (P : MultigridPreconditioner R) (level : Int)
    (u f : List R) (incsm : Int) (r : List R) (t : List Call)
    (hl : 0 < level) (hc : P.cycle = 0) :
    MGM P level u f incsm = Except.ok (r, t) ↔
      ∃ (sm : Smoother R) (u1 : List R), P.smoother = some sm ∧
        sm.PreSmooth level u f (P.smoothingsteps * incsm) = Except.ok u1 ∧
        sm.PostSmooth level u1 f (P.smoothingsteps * incsm) = Except.ok r ∧
        t = [Call.MGM level incsm, Call.PreSmooth level (P.smoothingsteps * incsm),
             Call.PostSmooth level (P.smoothingsteps * incsm)] := by
  rw [MGM_ok_fine hl]
  constructor
  · rintro ⟨t', h', rfl⟩
    obtain ⟨sm, u1, hsm, hpre, hpost, rfl⟩ := (MGM_fine_cycle0_ok hc).mp h'
    exact ⟨sm, u1, hsm, hpre, hpost, rfl⟩
  · rintro ⟨sm, u1, hsm, hpre, hpost, rfl⟩
    exact ⟨_, (MGM_fine_cycle0_ok hc).mpr ⟨sm, u1, hsm, hpre, hpost, rfl⟩, rfl⟩

/-- C8, at level 2 of three levels with cycle 0 and `incsm = 4`. -/
theorem C8_cycle_zero_smooths_only_witness :
    MGM (Example.pre 3 0 3 COARSETYPE.EXACT_COARSE 1 3) 2 [0, 0, 0] [1, 2, 3] 4 =
      Except.ok ([8, 16, 24], [Call.MGM 2 4, Call.PreSmooth 2 (1 * 4),
        Call.PostSmooth 2 (1 * 4)]) :=
  (C8_cycle_zero_smooths_only (Example.pre 3 0 3 COARSETYPE.EXACT_COARSE 1 3) 2 [0, 0, 0]
    [1, 2, 3] 4 [8, 16, 24] _ (by decide) rfl).mpr
    ⟨Example.smoother, [4, 8, 12], rfl, rfl, rfl, rfl⟩

/-- C10: at level 0 under `SMOOTHING_COARSE`, `MGM` returns `r` exactly when
`PreSmooth` and then `PostSmooth`, each with `coarse_smoothing_steps` steps, lead
from `u` to `r`, and it records no solver call; the value does not depend on
`smoothing_steps` or `incsm`.  Hence, if the smoother keeps `u = 0` for `f = 0`,
a zero right-hand side and a zero initial `u` give the zero vector. -/
theorem C10_smoothing_only_base_case (P : MultigridPreconditioner R) (u f : List R)
    (incsm : Int) (hct : P.coarsetype = COARSETYPE.SMOOTHING_COARSE) :
    (∀ r t, MGM P 0 u f incsm = Except.ok (r, t) ↔
      ∃ (sm : Smoother R) (u1 : List R), P.smoother = some sm ∧
        sm.PreSmooth 0 u f P.coarsesmoothingsteps = Except.ok u1 ∧
        sm.PostSmooth 0 u1 f P.coarsesmoothingsteps = Except.ok r ∧
        t = [Call.MGM 0 incsm, Call.PreSmooth 0 P.coarsesmoothingsteps,
             Call.PostSmooth 0 P.coarsesmoothingsteps]) ∧
    (∀ s i : Int, Traced.value (MGM { P with smoothingsteps := s } 0 u f i)
      = Traced.value (MGM P 0 u f incsm)) ∧
    (∀ sm : Smoother R, P.smoother = some sm →
      sm.PreSmooth 0 (zeroVec u) (zeroVec f) P.coarsesmoothingsteps = Except.ok (zeroVec u) →
      sm.PostSmooth 0 (zeroVec u) (zeroVec f) P.coarsesmoothingsteps = Except.ok (zeroVec u) →
      ∃ t, MGM P 0 (zeroVec u) (zeroVec f) incsm = Except.ok (zeroVec u, t)) := by
  have hiff : ∀ (u f r : List R) (t : List Call), MGM P 0 u f incsm = Except.ok (r, t) ↔
      ∃ (sm : Smoother R) (u1 : List R), P.smoother = some sm ∧
        sm.PreSmooth 0 u f P.coarsesmoothingsteps = Except.ok u1 ∧
        sm.PostSmooth 0 u1 f P.coarsesmoothingsteps = Except.ok r ∧
        t = [Call.MGM 0 incsm, Call.PreSmooth 0 P.coarsesmoothingsteps,
             Call.PostSmooth 0 P.coarsesmoothingsteps] := by
    intro u f r t
    rw [MGM_ok_coarse (le_refl 0)]
    constructor
    · rintro ⟨t', h', rfl⟩
      obtain ⟨sm, u1, hsm, hpre, hpost, rfl⟩ := (MGM_coarse_smoothing_ok hct).mp h'
      exact ⟨sm, u1, hsm, hpre, hpost, rfl⟩
    · rintro ⟨sm, u1, hsm, hpre, hpost, rfl⟩
      exact ⟨_, (MGM_coarse_smoothing_ok hct).mpr ⟨sm, u1, hsm, hpre, hpost, rfl⟩, rfl⟩
  refine ⟨hiff u f, ?_, ?_⟩
  · intro s i
    rw [MGM_eq, MGM_eq, if_pos (le_refl 0), if_pos (le_refl 0), value_emit_andThen,
      value_emit_andThen]
    rfl
  · intro sm hsm hpre hpost
    exact ⟨_, (hiff _ _ _ _).mpr ⟨sm, zeroVec u, hsm, hpre, hpost, rfl⟩⟩

/-- C10, with a zero right-hand side and five coarse smoothing steps. -/
theorem C10_smoothing_only_base_case_witness :
    ∃ t, MGM (Example.pre 1 1 1 COARSETYPE.SMOOTHING_COARSE 5 3) 0 [0, 0] [0, 0] 1
      = Except.ok ([0, 0], t) :=
  (C10_smoothing_only_base_case (Example.pre 1 1 1 COARSETYPE.SMOOTHING_COARSE 5 3)
    [8, 8] [4, 4] 1 rfl).2.2 Example.smoother rfl rfl rfl

end Claims

/-! ## Claims that need `a + 0 = a` on the scalars -/

section ClaimsAddZero

variable {R : Type} [AddZeroClass R]

open Traced

/-- Defect correction on an exact solve: the residual is zero, its coarse
solve is zero, and `u` stays. -/
theorem forLoop_defectCorrection_exact (sm : Smoother R) (C : BaseMatrix R) (level : Int)
    (f uf : List R) (hres : ∀ d, sm.Residuum level uf f d = Except.ok (zeroVec uf))
    (hzero : C (zeroVec uf) = Except.ok (zeroVec uf)) :
    ∀ (m : Nat) (d w : List R), ∃ s tl,
      forLoop m (defectCorrection sm C level f) (uf, d, w) = Except.ok (s, tl) ∧ s.1 = uf := by
  intro m
  induction m with
  | zero =>
    intro d w
    exact ⟨(uf, d, w), [], rfl, rfl⟩
  | succ m ih =>
    intro d w
    obtain ⟨s, tl, hs, hs1⟩ := ih (zeroVec uf) (zeroVec uf)
    exact ⟨s, _, forLoop_succ_ok.mpr ⟨(uf, zeroVec uf, zeroVec uf), _, tl,
      defectCorrection_ok.mpr ⟨zeroVec uf, zeroVec uf, uf, hres d, hzero, vadd_zeroVec uf,
        rfl, rfl⟩, hs, rfl⟩, hs1⟩

/-- C7: at level 0 under `EXACT_COARSE`, let the coarse solver `C` be exact for
the smoother's residual (`Residuum (0, C * f, f)` is the zero vector) and map
the zero vector to itself, and let the scratch vectors be allocated.  Then for
every `coarse_smoothing_steps = n > 1`, `MGM` returns `C * f`, the vector it
returns for `coarse_smoothing_steps = 1`. -/
theorem C7_exact_solve_idempotent (P : MultigridPreconditioner R) (C : BaseMatrix R)
    (sm : Smoother R) (u f uf d0 : List R) (incsm n : Int)
    (hct : P.coarsetype = COARSETYPE.EXACT_COARSE) (hC : P.coarsegridpre = some C)
    (hsm : P.smoother = some sm) (hf : C f = Except.ok uf)
    (hd0 : sm.CreateVector 0 = Except.ok d0)
    (hres : ∀ d, sm.Residuum 0 uf f d = Except.ok (zeroVec uf))
    (hzero : C (zeroVec uf) = Except.ok (zeroVec uf)) (hn : 1 < n) :
    Traced.value (MGM { P with coarsesmoothingsteps := n } 0 u f incsm) = Except.ok uf ∧
    Traced.value (MGM { P with coarsesmoothingsteps := 1 } 0 u f incsm) = Except.ok uf := by
  constructor
  · obtain ⟨s, tl, hs, hs1⟩ :=
      forLoop_defectCorrection_exact sm C 0 f uf hres hzero (n - 1).toNat d0 d0
    have hct' : ({ P with coarsesmoothingsteps := n } : MultigridPreconditioner R).coarsetype
        = COARSETYPE.EXACT_COARSE := hct
    have hrun : MGM { P with coarsesmoothingsteps := n } 0 u f incsm
        = Except.ok (uf, Call.MGM 0 incsm :: Call.coarsegridpre :: tl) :=
      (MGM_ok_coarse (le_refl 0)).mpr ⟨_, (MGM_coarse_direct_ok (Or.inl hct')).mpr
        ⟨C, uf, hC, hf, Or.inr ⟨hn, sm, d0, d0, s, tl, hsm, hd0, hd0, hs, hs1.symm, rfl⟩⟩, rfl⟩
    rw [hrun]
    rfl
  · have hct' : ({ P with coarsesmoothingsteps := 1 } : MultigridPreconditioner R).coarsetype
        = COARSETYPE.EXACT_COARSE := hct
    have h1 : ¬ ({ P with coarsesmoothingsteps := 1 } :
        MultigridPreconditioner R).coarsesmoothingsteps > 1 := by
      show ¬ ((1 : Int) > 1)
      decide
    have hrun : MGM { P with coarsesmoothingsteps := 1 } 0 u f incsm
        = Except.ok (uf, [Call.MGM 0 incsm, Call.coarsegridpre]) :=
      (MGM_ok_coarse (le_refl 0)).mpr ⟨_, (MGM_coarse_direct_ok (Or.inl hct')).mpr
        ⟨C, uf, hC, hf, Or.inl ⟨h1, rfl, rfl⟩⟩, rfl⟩
    rw [hrun]
    rfl

/-- C7, with the identity as coarse solver, for which `f - C * f = 0`: three
coarse smoothing steps return `C * f`, as one step does. -/
theorem C7_exact_solve_idempotent_witness :
    Traced.value (MGM { Example.pre 1 1 1 COARSETYPE.EXACT_COARSE 1 1 with
        coarsesmoothingsteps := 3 } 0 [0, 0] [4, 5] 1) = Except.ok [4, 5] ∧
    Traced.value (MGM { Example.pre 1 1 1 COARSETYPE.EXACT_COARSE 1 1 with
        coarsesmoothingsteps := 1 } 0 [0, 0] [4, 5] 1) = Except.ok [4, 5] :=
  C7_exact_solve_idempotent (Example.pre 1 1 1 COARSETYPE.EXACT_COARSE 1 1)
    (fun v => Except.ok (v.map (fun a => 1 * a))) Example.smoother [0, 0] [4, 5] [4, 5] [7] 1 3
    rfl rfl rfl rfl rfl (fun _ => rfl) rfl (by decide)

end ClaimsAddZero

/-! ## The iterative coarse solve, failures of `Mult`, unrecognized strategies -/

section ClaimsCoarse

variable {R : Type} [Zero R] [Add R]

open Traced

/-- C11: the code at the failing input.  Under `CG_COARSE` the base case of `MGM`
returns what the solver built on `biform.GetMatrix (1)` returns; on a hierarchy
whose level matrices multiply by `level + 2`, the result for `f = [1]` is that
of level index 1, `[3]`, and not that of the level-0 matrix, `[2]`, whose
inverse `Update` takes for the coarse solve. -/
theorem C11_iterative_solve_matrix_index :
    (∀ (P : MultigridPreconditioner Int) (level : Int) (u f r : List Int) (incsm : Int)
      (t : List Call), P.coarsetype = COARSETYPE.CG_COARSE → level ≤ 0 →
      (MGM P level u f incsm = Except.ok (r, t) ↔
        P.CGSolver (P.biform.GetMatrix 1) f = Except.ok r ∧
          t = [Call.MGM level incsm, Call.CGSolver])) ∧
    MGM { Example.pre 1 1 1 COARSETYPE.CG_COARSE 1 3 with biform := Example.biformByLevel 1 }
      0 [0] [1] 1 = Except.ok ([3], [Call.MGM 0 1, Call.CGSolver]) ∧
    (Example.pre 1 1 1 COARSETYPE.CG_COARSE 1 3).CGSolver
      ((Example.biformByLevel 1).GetMatrix 0) [1] = Except.ok [2] := by
  refine ⟨?_, rfl, rfl⟩
  intro P level u f r incsm t hct hl
  rw [MGM_ok_coarse hl]
  constructor
  · rintro ⟨t', h', rfl⟩
    obtain ⟨hr, rfl⟩ := (MGM_coarse_cg_ok hct).mp h'
    exact ⟨hr, rfl⟩
  · rintro ⟨hr, rfl⟩
    exact ⟨_, (MGM_coarse_cg_ok hct).mpr ⟨hr, rfl⟩, rfl⟩

/-- C16: the call `Mult` fails exactly when the call of `MGM` inside it fails, and
then returns no result.  A `std::exception` with message `what` leaves `Mult`
as an `Exception` with the message `what` followed by
`"\ncaught in MultigridPreconditioner::Mult\n"`, an `Exception` leaves it with
`"in MultigridPreconditioner::Mult\n"` appended to its message; the
dereference of a null pointer is no exception and passes no handler. -/
theorem C16_Mult_fails_with_MGM (P : MultigridPreconditioner R) (x y : List R) :
    ((∃ e, Mult P x y = Except.error e) ↔
      ∃ e, MGM P (P.ma.GetNLevels - 1) (zeroVec y) x 1 = Except.error e) ∧
    (∀ e, Mult P x y = Except.error e → ∀ r t, Mult P x y ≠ Except.ok (r, t)) ∧
    (∀ what, MGM P (P.ma.GetNLevels - 1) (zeroVec y) x 1
        = Except.error (Thrown.exception what) →
      Mult P x y = Except.error
        (Thrown.Exception (what ++ "\ncaught in MultigridPreconditioner::Mult\n"))) ∧
    (∀ what, MGM P (P.ma.GetNLevels - 1) (zeroVec y) x 1
        = Except.error (Thrown.Exception what) →
      Mult P x y = Except.error
        (Thrown.Exception (what ++ "in MultigridPreconditioner::Mult\n"))) ∧
    (MGM P (P.ma.GetNLevels - 1) (zeroVec y) x 1 = Except.error Thrown.null_dereference →
      Mult P x y = Except.error Thrown.null_dereference) := by
  have hM : Mult P x y =
      match MGM P (P.ma.GetNLevels - 1) (zeroVec y) x 1 with
      | Except.ok r => Except.ok r
      | Except.error (Thrown.exception what) =>
        Except.error (Thrown.Exception (what ++ "\ncaught in MultigridPreconditioner::Mult\n"))
      | Except.error (Thrown.Exception what) =>
        Except.error (Thrown.Exception (what ++ "in MultigridPreconditioner::Mult\n"))
      | Except.error Thrown.null_dereference => Except.error Thrown.null_dereference := rfl
  refine ⟨?_, ?_, ?_, ?_, ?_⟩
  · rw [hM]
    cases h : MGM P (P.ma.GetNLevels - 1) (zeroVec y) x 1 with
    | ok a => simp
    | error e => cases e <;> simp
  · intro e he r t h
    rw [he] at h
    cases h
  · intro what h
    rw [hM, h]
  · intro what h
    rw [hM, h]
  · intro h
    rw [hM, h]

/-- C16, with a coarse-grid preconditioner that throws a `std::exception`. -/
theorem C16_Mult_fails_with_MGM_witness :
    Mult { Example.pre 1 1 1 COARSETYPE.EXACT_COARSE 1 3 with
        coarsegridpre := some (fun _ => Except.error (Thrown.exception "singular matrix")) }
      [1] [9] = Except.error
        (Thrown.Exception "singular matrix\ncaught in MultigridPreconditioner::Mult\n") :=
  (C16_Mult_fails_with_MGM { Example.pre 1 1 1 COARSETYPE.EXACT_COARSE 1 3 with
      coarsegridpre := some (fun _ => Except.error (Thrown.exception "singular matrix")) }
    [1] [9]).2.2.1 "singular matrix" rfl

/-- C17 as stated fails: with a coarse-type value outside the enumeration the
base case returns, and `u` is what it was. -/
theorem C17_unrecognized_counterexample :
    MGM (Example.pre 1 1 1 (COARSETYPE.unrecognized 7) 1 3) 0 [5] [1] 1
      = Except.ok ([5], [Call.MGM 0 1]) :=
  rfl

/-- C17, amended: when `MGM` reaches the base case (`level <= 0`) with a
coarse-type value that is none of `EXACT_COARSE`, `USER_COARSE`, `CG_COARSE`,
`SMOOTHING_COARSE`, no `case` of the `switch` is taken: `MGM` calls no
collaborator, raises no error and returns `u` unchanged. -/
theorem C17_unrecognized_returns_u (P : MultigridPreconditioner R) (level : Int)
    (u f : List R) (incsm : Int) (v : Int)
    (hct : P.coarsetype = COARSETYPE.unrecognized v) (hl : level ≤ 0) :
    MGM P level u f incsm = Except.ok (u, [Call.MGM level incsm]) :=
  (MGM_ok_coarse hl).mpr ⟨[], (MGM_coarse_unrecognized_ok hct).mpr ⟨rfl, rfl⟩, rfl⟩

/-- C17 amended, at level 0 with the value 7. -/
theorem C17_unrecognized_returns_u_witness :
    MGM (Example.pre 1 1 1 (COARSETYPE.unrecognized 7) 1 3) 0 [5, 6] [1, 2] 4
      = Except.ok ([5, 6], [Call.MGM 0 4]) :=
  C17_unrecognized_returns_u (Example.pre 1 1 1 (COARSETYPE.unrecognized 7) 1 3) 0 [5, 6]
    [1, 2] 4 7 rfl (by decide)

end ClaimsCoarse

/-! ## `Update` -/

section ClaimsUpdate

variable {R : Type}

theorem updateCoarse_ok {E : UpdateCalls R} {P : MultigridPreconditioner R} {U : Updated R} :
    updateCoarse E P = Except.ok U ↔
      (((P.biform.GetNLevels = 1 ∨ P.updateall ≠ 0) ∧
          P.coarsetype = COARSETYPE.EXACT_COARSE) ∧
        ∃ inv, E.InverseMatrix (P.biform.GetMatrix 0) P.fespace.GetFreeDofs = Except.ok inv ∧
          U = ⟨{ P with coarsegridpre := some inv }, true⟩) ∨
      (¬ ((P.biform.GetNLevels = 1 ∨ P.updateall ≠ 0) ∧
          P.coarsetype = COARSETYPE.EXACT_COARSE) ∧ U = ⟨P, false⟩) := by
  have key : updateCoarse E P =
      if P.biform.GetNLevels = 1 ∨ P.updateall ≠ 0 then
        if P.coarsetype = COARSETYPE.EXACT_COARSE then
          match E.InverseMatrix (P.biform.GetMatrix 0) P.fespace.GetFreeDofs with
          | Except.error e => Except.error e
          | Except.ok inv => Except.ok ⟨{ P with coarsegridpre := some inv }, true⟩
        else Except.ok ⟨P, false⟩
      else Except.ok ⟨P, false⟩ := by
    unfold updateCoarse
    cases P.fespace.GetFreeDofs <;> rfl
  rw [key]
  by_cases hg : P.biform.GetNLevels = 1 ∨ P.updateall ≠ 0
  · by_cases hct : P.coarsetype = COARSETYPE.EXACT_COARSE
    · rw [if_pos hg, if_pos hct]
      have hboth : (P.biform.GetNLevels = 1 ∨ P.updateall ≠ 0) ∧
          P.coarsetype = COARSETYPE.EXACT_COARSE := ⟨hg, hct⟩
      cases hinv : E.InverseMatrix (P.biform.GetMatrix 0) P.fespace.GetFreeDofs with
      | error e =>
        constructor
        · intro h
          cases h
        · rintro (⟨-, inv', h1, -⟩ | ⟨h1, -⟩)
          · cases h1
          · exact absurd hboth h1
      | ok inv =>
        constructor
        · intro h
          cases h
          exact Or.inl ⟨hboth, inv, rfl, rfl⟩
        · rintro (⟨-, inv', h1, rfl⟩ | ⟨h1, -⟩)
          · cases h1; rfl
          · exact absurd hboth h1
    · rw [if_pos hg, if_neg hct]
      constructor
      · intro h
        cases h
        exact Or.inr ⟨fun h' => hct h'.2, rfl⟩
      · rintro (⟨⟨-, h1⟩, -⟩ | ⟨-, rfl⟩)
        · exact absurd h1 hct
        · rfl
  · rw [if_neg hg]
    constructor
    · intro h
      cases h
      exact Or.inr ⟨fun h' => hg h'.1, rfl⟩
    · rintro (⟨⟨h1, -⟩, -⟩ | ⟨-, rfl⟩)
      · exact absurd h1 hg
      · rfl

theorem Update_ok {E : UpdateCalls R} {P : MultigridPreconditioner R} {U : Updated R} :
    Update E P = Except.ok U ↔
      ∃ sm pr, updateSmoother E P = Except.ok sm ∧ updateProlongation E P = Except.ok pr ∧
        updateCoarse E { P with smoother := sm, prolongation := pr } = Except.ok U := by
  unfold Update
  cases hs : updateSmoother E P with
  | error e => simp
  | ok sm =>
    cases hp : updateProlongation E P with
    | error e => simp
    | ok pr => simp

/-- C12 as stated fails: on a single level under `USER_COARSE`, `Update` returns
without assigning `coarsegridpre`. -/
theorem C12_Update_counterexample :
    (Example.pre 1 1 1 COARSETYPE.USER_COARSE 1 3).biform.GetNLevels = 1 ∧
    ∃ U, Update Example.updates (Example.pre 1 1 1 COARSETYPE.USER_COARSE 1 3) = Except.ok U ∧
      U.rebuilt = false ∧
      U.state.coarsegridpre = (Example.pre 1 1 1 COARSETYPE.USER_COARSE 1 3).coarsegridpre :=
  ⟨rfl, _, rfl, rfl, rfl⟩

/-- C12, amended: a returning `Update ()` replaces the cached coarse-grid
preconditioner if and only if the hierarchy has exactly one level or
`updateall` is set, and the coarse type is `EXACT_COARSE`; otherwise the
cached object is left as it was. -/
theorem C12_Update_rebuild_condition (E : UpdateCalls R) (P : MultigridPreconditioner R)
    (U : Updated R) (h : Update E P = Except.ok U) :
    (U.rebuilt = true ↔
      (P.biform.GetNLevels = 1 ∨ P.updateall ≠ 0) ∧
        P.coarsetype = COARSETYPE.EXACT_COARSE) ∧
    (U.rebuilt = false → U.state.coarsegridpre = P.coarsegridpre) := by
  obtain ⟨sm, pr, -, -, hc⟩ := Update_ok.mp h
  rcases updateCoarse_ok.mp hc with ⟨hcond, inv, -, rfl⟩ | ⟨hcond, rfl⟩
  · exact ⟨⟨fun _ => hcond, fun _ => rfl⟩, fun h' => (by cases h')⟩
  · exact ⟨⟨fun h' => (by cases h'), fun h' => absurd h' hcond⟩, fun _ => rfl⟩

/-- C12 amended, on a single level under `EXACT_COARSE`: the object is rebuilt. -/
theorem C12_Update_rebuild_condition_witness :
    ∃ U, Update Example.updates (Example.pre 1 1 1 COARSETYPE.EXACT_COARSE 1 3) = Except.ok U ∧
      (U.rebuilt = true ↔
        ((Example.pre 1 1 1 COARSETYPE.EXACT_COARSE 1 3).biform.GetNLevels = 1 ∨
          (Example.pre 1 1 1 COARSETYPE.EXACT_COARSE 1 3).updateall ≠ 0) ∧
        (Example.pre 1 1 1 COARSETYPE.EXACT_COARSE 1 3).coarsetype
          = COARSETYPE.EXACT_COARSE) :=
  ⟨_, rfl, (C12_Update_rebuild_condition Example.updates
    (Example.pre 1 1 1 COARSETYPE.EXACT_COARSE 1 3) _ rfl).1⟩

/-- C13 as stated fails under `USER_COARSE`: on a single level, where the spec has
`Update ()` rebuild, the coarse-grid preconditioner after `Update ()` is still
the one set by the user, which maps `[1]` to `[3]`, and not the inverse of the
level-0 operator, which maps `[1]` to `[4]`. -/
theorem C13_Update_counterexample :
    ({ Example.pre 1 1 1 COARSETYPE.USER_COARSE 1 3 with
        biform := Example.biformByLevel 1 } : MultigridPreconditioner Int).biform.GetNLevels = 1 ∧
    ({ Example.pre 1 1 1 COARSETYPE.USER_COARSE 1 3 with
        biform := Example.biformByLevel 1 } : MultigridPreconditioner Int).coarsetype
      = COARSETYPE.USER_COARSE ∧
    ∃ U inv, Update Example.updates
        { Example.pre 1 1 1 COARSETYPE.USER_COARSE 1 3 with biform := Example.biformByLevel 1 }
        = Except.ok U ∧
      Example.updates.InverseMatrix ((Example.biformByLevel 1).GetMatrix 0) none
        = Except.ok inv ∧
      inv [1] = Except.ok [4] ∧
      (∃ C, U.state.coarsegridpre = some C ∧ C [1] = Except.ok [3]) ∧
      U.state.coarsegridpre ≠ some inv := by
  refine ⟨rfl, rfl, _, _, rfl, rfl, rfl, ⟨_, rfl, rfl⟩, ?_⟩
  intro h
  have h1 := congrArg (fun o : Option (BaseMatrix Int) => o.map (fun C => C [1])) h
  have h2 : (Except.ok [3] : Except Thrown (List Int)) = Except.ok [4] :=
    Option.some.inj h1
  have h3 : ([3] : List Int) = [4] := Except.ok.inj h2
  exact absurd h3 (by decide)

/-- C13, amended: a returning `Update ()` rebuilds the coarse-grid preconditioner
under `EXACT_COARSE` only, and the new object is then the inverse of the
level-0 operator `biform.GetMatrix (0)`: the full inverse when the space
reports no free-dof set, and otherwise the inverse on the reported free dofs.
Under `USER_COARSE` it rebuilds nothing and the object set by the user stays. -/
theorem C13_Update_rebuilds_inverse (E : UpdateCalls R) (P : MultigridPreconditioner R)
    (U : Updated R) (h : Update E P = Except.ok U) :
    (U.rebuilt = true →
      P.coarsetype = COARSETYPE.EXACT_COARSE ∧
      (P.fespace.GetFreeDofs = none →
        ∃ inv, E.InverseMatrix (P.biform.GetMatrix 0) none = Except.ok inv ∧
          U.state.coarsegridpre = some inv) ∧
      (∀ freedofs, P.fespace.GetFreeDofs = some freedofs →
        ∃ inv, E.InverseMatrix (P.biform.GetMatrix 0) (some freedofs) = Except.ok inv ∧
          U.state.coarsegridpre = some inv)) ∧
    (P.coarsetype = COARSETYPE.USER_COARSE →
      U.rebuilt = false ∧ U.state.coarsegridpre = P.coarsegridpre ∧
        U.state.coarsetype = COARSETYPE.USER_COARSE) := by
  obtain ⟨sm, pr, -, -, hc⟩ := Update_ok.mp h
  rcases updateCoarse_ok.mp hc with ⟨hcond, inv, hinv, rfl⟩ | ⟨-, rfl⟩
  · have hex : P.coarsetype = COARSETYPE.EXACT_COARSE := hcond.2
    refine ⟨fun _ => ⟨hex, ?_, ?_⟩, ?_⟩
    · intro hfd
      refine ⟨inv, ?_, rfl⟩
      rw [← hinv]
      exact congrArg _ hfd.symm
    · intro fd hfd
      refine ⟨inv, ?_, rfl⟩
      rw [← hinv]
      exact congrArg _ hfd.symm
    · intro hus
      rw [hex] at hus
      cases hus
  · exact ⟨fun hr => (by cases hr), fun hus => ⟨rfl, rfl, hus⟩⟩

/-- C13, amended, on a single level whose level-0 matrix multiplies by 2, with no
free-dof set: under `EXACT_COARSE` the new object is the inverse that the
collaborator returns for that matrix. -/
theorem C13_Update_rebuilds_inverse_witness :
    ∃ U, Update Example.updates
        { Example.pre 1 1 1 COARSETYPE.EXACT_COARSE 1 3 with biform := Example.biformByLevel 1 }
        = Except.ok U ∧
      ∃ inv, Example.updates.InverseMatrix ((Example.biformByLevel 1).GetMatrix 0) none
          = Except.ok inv ∧ U.state.coarsegridpre = some inv :=
  ⟨_, rfl, ((C13_Update_rebuilds_inverse Example.updates
    { Example.pre 1 1 1 COARSETYPE.EXACT_COARSE 1 3 with biform := Example.biformByLevel 1 }
    _ rfl).1 rfl).2.1 rfl⟩

end ClaimsUpdate

/-! ## Values of runs -/

section Values

variable {R : Type} [Zero R] [Add R]

open Traced

theorem value_andThen {α β : Type} (x : Traced α) (g : α → Traced β) :
    Traced.value (andThen x g) = (Traced.value x).bind (fun a => Traced.value (g a)) := by
  cases x with
  | error e => rfl
  | ok p =>
    obtain ⟨a, t⟩ := p
    cases hg : g a with
    | error e => simp only [andThen, Traced.value, Except.bind, hg]
    | ok q =>
      obtain ⟨b, t'⟩ := q
      simp only [andThen, Traced.value, Except.bind, hg]

theorem value_andThen_congr {α β : Type} (x : Traced α) (g g' : α → Traced β)
    (h : ∀ a, Traced.value (g a) = Traced.value (g' a)) :
    Traced.value (andThen x g) = Traced.value (andThen x g') := by
  rw [value_andThen, value_andThen]
  have hfun : (fun a => Traced.value (g a)) = (fun a => Traced.value (g' a)) := funext h
  rw [hfun]

theorem value_andThen_congr_left {α β : Type} (x x' : Traced α) (g : α → Traced β)
    (h : Traced.value x = Traced.value x') :
    Traced.value (andThen x g) = Traced.value (andThen x' g) := by
  rw [value_andThen, value_andThen, h]

/-- A loop whose body does not read the state it is given returns, after one
round or more, what one round returns. -/
theorem value_forLoop_const {α : Type} (body : α → Traced α)
    (hconst : ∀ a a', body a = body a') (n : Nat) (a : α) :
    Traced.value (forLoop (n + 1) body a) = Traced.value (body a) := by
  induction n generalizing a with
  | zero =>
    show Traced.value (andThen (body a) (fun a' => pure a')) = _
    rw [value_andThen]
    cases hv : Traced.value (body a) with
    | error e => rfl
    | ok b => rfl
  | succ n ih =>
    show Traced.value (andThen (body a) (fun a' => forLoop (n + 1) body a')) = _
    rw [value_andThen]
    have hfun : (fun a' => Traced.value (forLoop (n + 1) body a'))
        = (fun _ => Traced.value (body a)) := by
      funext a'
      rw [ih a', hconst a' a]
    rw [hfun]
    cases hv : Traced.value (body a) with
    | error e => rfl
    | ok b => rfl

/-- Under `EXACT_COARSE` or `USER_COARSE` the base case does not read `u`. -/
theorem MGM_base_ignores_u (P : MultigridPreconditioner R) (level : Int)
    (u u' f : List R) (incsm : Int)
    (hct : P.coarsetype = COARSETYPE.EXACT_COARSE ∨ P.coarsetype = COARSETYPE.USER_COARSE)
    (hl : level ≤ 0) :
    MGM P level u f incsm = MGM P level u' f incsm := by
  have hc : MGM_coarse P level u f = MGM_coarse P level u' f := by
    unfold MGM_coarse
    rcases hct with h | h <;> rw [h]
  rw [MGM_eq, MGM_eq, if_pos hl, if_pos hl, hc]

/-- The base case does not read `cycle`. -/
theorem MGM_base_ignores_cycle (P : MultigridPreconditioner R) (c : Int) (level : Int)
    (u f : List R) (incsm : Int) (hl : level ≤ 0) :
    MGM { P with cycle := c } level u f incsm = MGM P level u f incsm := by
  rw [MGM_eq, MGM_eq, if_pos hl, if_pos hl]
  rfl

theorem value_Mult (P : MultigridPreconditioner R) (x y : List R) :
    Traced.value (Mult P x y) =
      match Traced.value (MGM P (P.ma.GetNLevels - 1) (zeroVec y) x MGM_default_incsm) with
      | Except.ok r => Except.ok r
      | Except.error (Thrown.exception what) =>
        Except.error (Thrown.Exception (what ++ "\ncaught in MultigridPreconditioner::Mult\n"))
      | Except.error (Thrown.Exception what) =>
        Except.error (Thrown.Exception (what ++ "in MultigridPreconditioner::Mult\n"))
      | Except.error Thrown.null_dereference => Except.error Thrown.null_dereference := by
  unfold Mult Traced.value
  cases MGM P (P.ma.GetNLevels - 1) (zeroVec y) x MGM_default_incsm with
  | ok a => rfl
  | error e => cases e <;> rfl

/-- One level above the base case, under `EXACT_COARSE` or `USER_COARSE`: the
value of `MGM` for a cycle `c >= 1` is its value for cycle 1. -/
theorem value_MGM_cycle_two_level (P : MultigridPreconditioner R) (c : Int) (level : Int)
    (u f : List R) (incsm : Int)
    (hct : P.coarsetype = COARSETYPE.EXACT_COARSE ∨ P.coarsetype = COARSETYPE.USER_COARSE)
    (hc : 1 ≤ c) (hl0 : 0 < level) (hl1 : level - 1 ≤ 0) :
    Traced.value (MGM { P with cycle := c } level u f incsm)
      = Traced.value (MGM { P with cycle := 1 } level u f incsm) := by
  have hcoarser : ∀ c' : Int,
      (fun (u' f' : List R) (i' : Int) => MGM { P with cycle := c' } (level - 1) u' f' i')
        = (fun (u' f' : List R) (i' : Int) => MGM P (level - 1) u' f' i') := by
    intro c'
    funext u' f' i'
    exact MGM_base_ignores_cycle P c' (level - 1) u' f' i' hl1
  have hcne : ¬ (({ P with cycle := c } : MultigridPreconditioner R).cycle = 0) := by
    show ¬ (c = 0)
    omega
  have h1ne : ¬ (({ P with cycle := 1 } : MultigridPreconditioner R).cycle = 0) := by
    show ¬ ((1 : Int) = 0)
    decide
  rw [MGM_eq, MGM_eq, if_neg (by omega), if_neg (by omega), hcoarser c, hcoarser 1]
  apply value_andThen_congr
  intro _
  unfold MGM_fine
  rw [if_neg hcne, if_neg h1ne]
  simp only [bind_def]
  apply value_andThen_congr
  intro sm
  apply value_andThen_congr
  intro d
  apply value_andThen_congr
  intro w
  apply value_andThen_congr
  intro ud
  apply value_andThen_congr
  intro _
  apply value_andThen_congr
  intro _
  apply value_andThen_congr
  intro pr
  apply value_andThen_congr
  intro d2
  apply value_andThen_congr_left
  obtain ⟨n, hn⟩ : ∃ n : Nat, c.toNat = n + 1 := ⟨c.toNat - 1, by omega⟩
  have hconst : ∀ a a' : List R,
      MGM P (level - 1) a (List.take (P.fespace.GetNDofLevel (level - 1)) d2)
          (incsm * P.incsmooth)
        = MGM P (level - 1) a' (List.take (P.fespace.GetNDofLevel (level - 1)) d2)
          (incsm * P.incsmooth) :=
    fun a a' => MGM_base_ignores_u P (level - 1) a a' _ _ hct hl1
  show Traced.value (forLoop c.toNat _ _) = Traced.value (forLoop (0 + 1) _ _)
  rw [hn, value_forLoop_const _ hconst, value_forLoop_const _ hconst]

/-- C20: under `EXACT_COARSE` or `USER_COARSE` the base case (`level <= 0`) returns
the same, whatever `u` it is given; hence on a two-level hierarchy, the
collaborators being functions of their arguments, `Mult` with any cycle
`c >= 1` returns the vector (or raises the error) that `Mult` with cycle 1
does. -/
theorem C20_cycle_irrelevant_on_two_levels (P : MultigridPreconditioner R) (x y : List R)
    (c : Int)
    (hct : P.coarsetype = COARSETYPE.EXACT_COARSE ∨ P.coarsetype = COARSETYPE.USER_COARSE)
    (hL : P.ma.GetNLevels = 2) (hc : 1 ≤ c) :
    (∀ (level : Int) (u u' f : List R) (incsm : Int), level ≤ 0 →
      MGM P level u f incsm = MGM P level u' f incsm) ∧
    Traced.value (Mult { P with cycle := c } x y)
      = Traced.value (Mult { P with cycle := 1 } x y) := by
  constructor
  · intro level u u' f incsm hl
    exact MGM_base_ignores_u P level u u' f incsm hct hl
  · have h1 : P.ma.GetNLevels - 1 = 1 := by omega
    have key := value_MGM_cycle_two_level P c (P.ma.GetNLevels - 1) (zeroVec y) x
      MGM_default_incsm hct hc (by omega) (by omega)
    rw [value_Mult, value_Mult]
    show (match Traced.value (MGM { P with cycle := c } (P.ma.GetNLevels - 1) (zeroVec y) x
        MGM_default_incsm) with
      | Except.ok r => Except.ok r
      | Except.error (Thrown.exception what) =>
        Except.error (Thrown.Exception (what ++ "\ncaught in MultigridPreconditioner::Mult\n"))
      | Except.error (Thrown.Exception what) =>
        Except.error (Thrown.Exception (what ++ "in MultigridPreconditioner::Mult\n"))
      | Except.error Thrown.null_dereference => Except.error Thrown.null_dereference) = _
    rw [key]

/-- C20, on two levels with three coarse smoothing steps: cycle 4 returns what
cycle 1 returns. -/
theorem C20_cycle_irrelevant_on_two_levels_witness :
    Traced.value (Mult { Example.pre 2 9 3 COARSETYPE.USER_COARSE 3 3 with cycle := 4 }
        [1, 2] [9, 9])
      = Traced.value (Mult { Example.pre 2 9 3 COARSETYPE.USER_COARSE 3 3 with cycle := 1 }
        [1, 2] [9, 9]) :=
  (C20_cycle_irrelevant_on_two_levels (Example.pre 2 9 3 COARSETYPE.USER_COARSE 3 3)
    [1, 2] [9, 9] 4 (Or.inr rfl) rfl (by decide)).2

end Values

/-! ## Termination and nesting depth -/

section Termination

variable {R : Type} [Zero R] [Add R]

open Traced

theorem frame_le_nesting (top : Int) (t : List Call) (c : Call) (hc : c ∈ t) :
    Call.frame top c ≤ nesting top t := by
  unfold nesting
  induction t with
  | nil => cases hc
  | cons a t ih =>
    simp only [List.map_cons, List.foldr_cons]
    rcases List.mem_cons.mp hc with e | hc'
    · subst e
      exact le_max_left _ _
    · exact le_trans (ih hc') (le_max_right _ _)

theorem nesting_le (top : Int) (t : List Call) (b : Nat)
    (h : ∀ c ∈ t, Call.frame top c ≤ b) : nesting top t ≤ b := by
  unfold nesting
  induction t with
  | nil => simp
  | cons a t ih =>
    simp only [List.map_cons, List.foldr_cons]
    exact max_le (h a (List.mem_cons_self a t))
      (ih (fun c hc => h c (List.mem_cons_of_mem a hc)))

theorem entries_pos_of_mem (l i : Int) (t : List Call) (h : Call.MGM l i ∈ t) :
    0 < entries l t := by
  unfold entries
  rw [List.countP_pos_iff]
  exact ⟨Call.MGM l i, h, by simp [Call.isMGM]⟩

theorem mem_of_entries_pos (l : Int) (t : List Call) (h : 0 < entries l t) :
    ∃ i, Call.MGM l i ∈ t := by
  unfold entries at h
  rw [List.countP_pos_iff] at h
  obtain ⟨c, hc, hp⟩ := h
  cases c with
  | MGM level incsm =>
    simp only [Call.isMGM, decide_eq_true_eq] at hp
    subst hp
    exact ⟨incsm, hc⟩
  | _ => simp [Call.isMGM] at hp

/-- C19: the procedure `MGM` is defined for every integer `level`, every cycle and
every `incsm`, the collaborators being functions: for `level <= 0` it is the
base case, and for `level > 0` its recursive calls are at `level - 1`, for which
the measure `max (level, 0)` is smaller.  In a returning `Mult` on `L >= 1`
levels the `MGM` frames nest at most `L` deep, and exactly `L` deep when
`cycle >= 1`. -/
theorem C19_MGM_terminates (P : MultigridPreconditioner R) :
    (∀ (level : Int) (u f : List R) (incsm : Int), MGM P level u f incsm =
      if level ≤ 0 then
        andThen (emit (Call.MGM level incsm)) (fun _ => MGM_coarse P level u f)
      else
        andThen (emit (Call.MGM level incsm))
          (fun _ => MGM_fine P (fun u' f' i' => MGM P (level - 1) u' f' i') level u f incsm)) ∧
    (∀ level : Int, 0 < level → (level - 1).toNat < level.toNat) ∧
    (∀ (x y r : List R) (t : List Call), 1 ≤ P.ma.GetNLevels →
      Mult P x y = Except.ok (r, t) →
      (∀ l i, Call.MGM l i ∈ t → 0 ≤ l ∧ l ≤ P.ma.GetNLevels - 1) ∧
      (nesting (P.ma.GetNLevels - 1) t : Int) ≤ P.ma.GetNLevels ∧
      (1 ≤ P.cycle → (nesting (P.ma.GetNLevels - 1) t : Int) = P.ma.GetNLevels)) := by
  refine ⟨MGM_eq P, fun level hl => by omega, ?_⟩
  intro x y r t hL h
  have hrange : ∀ l i, Call.MGM l i ∈ t → 0 ≤ l ∧ l ≤ P.ma.GetNLevels - 1 := by
    intro l i hin
    have hpos := entries_pos_of_mem l i t hin
    rw [Mult_entries hL h l] at hpos
    by_cases hr : 0 ≤ l ∧ l ≤ P.ma.GetNLevels - 1
    · exact hr
    · rw [if_neg hr] at hpos
      omega
  have hle : nesting (P.ma.GetNLevels - 1) t ≤ P.ma.GetNLevels.toNat := by
    apply nesting_le
    intro c hc
    cases c with
    | MGM level incsm =>
      have := hrange level incsm hc
      simp only [Call.frame]
      omega
    | _ => simp [Call.frame]
  refine ⟨hrange, by omega, ?_⟩
  intro hc
  have hpos : 0 < entries 0 t := by
    rw [Mult_entries hL h 0, if_pos ⟨le_refl 0, by omega⟩]
    apply Nat.pos_pow_of_pos
    omega
  obtain ⟨i, hi⟩ := mem_of_entries_pos 0 t hpos
  have hge := frame_le_nesting (P.ma.GetNLevels - 1) t _ hi
  simp only [Call.frame] at hge
  omega

/-- C19, on three levels with cycle 2: the frames nest three deep. -/
theorem C19_MGM_terminates_witness :
    ∃ r t, Mult (Example.pre 3 2 3 COARSETYPE.EXACT_COARSE 1 3) [1, 2, 3] [9, 9, 9]
        = Except.ok (r, t) ∧ (nesting (3 - 1) t : Int) = 3 :=
  ⟨_, _, rfl, ((C19_MGM_terminates (Example.pre 3 2 3 COARSETYPE.EXACT_COARSE 1 3)).2.2
    [1, 2, 3] [9, 9, 9] _ _ (by decide) rfl).2.2 (by decide)⟩

end Termination

/-! ## Runs that return -/

theorem Range_zero_of_le {R : Type} {v : List R} {n : Nat} (h : n ≤ v.length) :
    Range v 0 n = Except.ok (v.take n) :=
  Range_zero_ok.mpr ⟨h, rfl⟩

theorem vadd_of_length {R : Type} [Add R] {u w : List R} (h : u.length = w.length) :
    vadd u w = Except.ok (List.zipWith (· + ·) u w) :=
  vadd_ok.mpr ⟨h, rfl⟩

theorem length_of_vadd {R : Type} [Add R] {u w v : List R} (h : vadd u w = Except.ok v) :
    v.length = u.length := by
  obtain ⟨hlen, rfl⟩ := vadd_ok.mp h
  simp [List.length_zipWith, hlen]

section Returns

variable {R : Type} [Zero R] [Add R]

open Traced

/-- The recursive case with `cycle ≠ 0` returns when each of its stages does. -/
theorem MGM_fine_cycle_of {P : MultigridPreconditioner R}
    {coarser : List R → List R → Int → Traced (List R)} {level : Int} {u f : List R}
    {incsm : Int} {r : List R} (hc : P.cycle ≠ 0)
    {sm : Smoother R} {pr : Prolongation R} {d0 w0 u1 d1 d2 wt w2 u2 : List R}
    {tl : List Call}
    (hsm : P.smoother = some sm) (hpr : P.prolongation = some pr)
    (hd0 : sm.CreateVector level = Except.ok d0) (hw0 : sm.CreateVector level = Except.ok w0)
    (hpsr : sm.PreSmoothResiduum level u f d0 (P.smoothingsteps * incsm) = Except.ok (u1, d1))
    (hnd : P.fespace.GetNDofLevel (level - 1) ≤ d1.length)
    (hnw : P.fespace.GetNDofLevel (level - 1) ≤ w0.length)
    (hres : pr.RestrictInline level d1 = Except.ok d2)
    (hloop : forLoop P.cycle.toNat
        (fun wt => coarser wt (d2.take (P.fespace.GetNDofLevel (level - 1)))
          (incsm * P.incsmooth))
        ((zeroVec w0).take (P.fespace.GetNDofLevel (level - 1))) = Except.ok (wt, tl))
    (hpro : pr.ProlongateInline level
        (setRange (zeroVec w0) (P.fespace.GetNDofLevel (level - 1)) wt) = Except.ok w2)
    (hadd : vadd u1 w2 = Except.ok u2)
    (hpost : sm.PostSmooth level u2 f (P.smoothingsteps * incsm) = Except.ok r) :
    MGM_fine P coarser level u f incsm = Except.ok (r,
      [Call.PreSmoothResiduum level (P.smoothingsteps * incsm), Call.RestrictInline level]
        ++ tl ++
      [Call.ProlongateInline level, Call.PostSmooth level (P.smoothingsteps * incsm)]) := by
  unfold MGM_fine
  rw [if_neg hc]
  simp only [bind_def]
  refine andThen_ok.mpr ⟨sm, [], _, deref_ok.mpr ⟨hsm, rfl⟩, ?_, rfl⟩
  refine andThen_ok.mpr ⟨d0, [], _, quiet_ok.mpr ⟨hd0, rfl⟩, ?_, rfl⟩
  refine andThen_ok.mpr ⟨w0, [], _, quiet_ok.mpr ⟨hw0, rfl⟩, ?_, rfl⟩
  refine andThen_ok.mpr ⟨(u1, d1), [Call.PreSmoothResiduum level (P.smoothingsteps * incsm)],
    [Call.RestrictInline level] ++ tl ++
      [Call.ProlongateInline level, Call.PostSmooth level (P.smoothingsteps * incsm)],
    call_ok.mpr ⟨hpsr, rfl⟩, ?_, by simp⟩
  refine andThen_ok.mpr ⟨_, [], _, quiet_ok.mpr ⟨Range_zero_of_le hnd, rfl⟩, ?_, rfl⟩
  refine andThen_ok.mpr ⟨_, [], _, quiet_ok.mpr ⟨Range_zero_of_le hnw, rfl⟩, ?_, rfl⟩
  refine andThen_ok.mpr ⟨pr, [], _, deref_ok.mpr ⟨hpr, rfl⟩, ?_, rfl⟩
  refine andThen_ok.mpr ⟨d2, [Call.RestrictInline level],
    tl ++ [Call.ProlongateInline level, Call.PostSmooth level (P.smoothingsteps * incsm)],
    call_ok.mpr ⟨hres, rfl⟩, ?_, by simp⟩
  refine andThen_ok.mpr ⟨wt, tl,
    [Call.ProlongateInline level, Call.PostSmooth level (P.smoothingsteps * incsm)],
    hloop, ?_, rfl⟩
  refine andThen_ok.mpr ⟨w2, [Call.ProlongateInline level],
    [Call.PostSmooth level (P.smoothingsteps * incsm)], call_ok.mpr ⟨hpro, rfl⟩, ?_, rfl⟩
  refine andThen_ok.mpr ⟨u2, [], _, quiet_ok.mpr ⟨hadd, rfl⟩, ?_, rfl⟩
  exact call_ok.mpr ⟨hpost, rfl⟩

/-- A loop returns when its body returns on every state that satisfies an
invariant and leaves the invariant in force. -/
theorem forLoop_returns {α : Type} {body : α → Traced α} (I : α → Prop)
    (hbody : ∀ a, I a → ∃ b t, body a = Except.ok (b, t) ∧ I b) :
    ∀ (n : Nat) (a : α), I a → ∃ b t, forLoop n body a = Except.ok (b, t) ∧ I b := by
  intro n
  induction n with
  | zero =>
    intro a ha
    exact ⟨a, [], rfl, ha⟩
  | succ n ih =>
    intro a ha
    obtain ⟨a', t1, h1, ha'⟩ := hbody a ha
    obtain ⟨b, t2, h2, hb⟩ := ih a' ha'
    exact ⟨b, t1 ++ t2, forLoop_succ_ok.mpr ⟨a', t1, t2, h1, h2, rfl⟩, hb⟩

/-- An invariant of the body that holds at the start holds for what a
returning loop returns. -/
theorem forLoop_invariant {α : Type} {body : α → Traced α} (I : α → Prop)
    (hbody : ∀ a b t, I a → body a = Except.ok (b, t) → I b) :
    ∀ (n : Nat) (a b : α) (t : List Call), I a →
      forLoop n body a = Except.ok (b, t) → I b := by
  intro n
  induction n with
  | zero =>
    intro a b t ha h
    obtain ⟨rfl, -⟩ := forLoop_zero_ok.mp h
    exact ha
  | succ n ih =>
    intro a b t ha h
    obtain ⟨a', t1, t2, h1, h2, -⟩ := forLoop_succ_ok.mp h
    exact ih a' b t2 (hbody a a' t1 ha h1) h2

/-- Under the size contract, a returning `MGM` on `u` and `f` of one size
returns a vector of that size. -/
theorem MGM_length {P : MultigridPreconditioner R} (hS : SizeContract P) (level : Int)
    (u f : List R) (incsm : Int) (r : List R) (t : List Call)
    (huf : u.length = f.length) (h : MGM P level u f incsm = Except.ok (r, t)) :
    r.length = u.length := by
  by_cases hl : level ≤ 0
  · obtain ⟨t', h', -⟩ := (MGM_ok_coarse hl).mp h
    cases hct : P.coarsetype with
    | CG_COARSE =>
      obtain ⟨hr, -⟩ := (MGM_coarse_cg_ok hct).mp h'
      rw [hS.CGSolver _ _ hr, huf]
    | SMOOTHING_COARSE =>
      obtain ⟨sm, u1, hsm, hpre, hpost, -⟩ := (MGM_coarse_smoothing_ok hct).mp h'
      rw [hS.PostSmooth sm _ _ _ _ _ hsm hpost, hS.PreSmooth sm _ _ _ _ _ hsm hpre]
    | unrecognized v =>
      obtain ⟨rfl, -⟩ := (MGM_coarse_unrecognized_ok hct).mp h'
      rfl
    | EXACT_COARSE =>
      obtain ⟨C, u0, hC, hu0, hcase | hcase⟩ := (MGM_coarse_direct_ok (Or.inl hct)).mp h'
      · obtain ⟨-, rfl, -⟩ := hcase
        rw [hS.coarsegridpre C f _ hC hu0, huf]
      · obtain ⟨-, sm, d0, w0, s, tl, hsm, -, -, hloop, rfl, -⟩ := hcase
        have hinv := forLoop_invariant (fun s : List R × List R × List R => s.1.length = u0.length)
          (fun a b t ha hb => by
            obtain ⟨d, w, u', -, -, hadd, rfl, -⟩ := defectCorrection_ok.mp hb
            show u'.length = u0.length
            rw [length_of_vadd hadd]
            exact ha) _ _ _ _ rfl hloop
        rw [hinv, hS.coarsegridpre C f _ hC hu0, huf]
    | USER_COARSE =>
      obtain ⟨C, u0, hC, hu0, hcase | hcase⟩ := (MGM_coarse_direct_ok (Or.inr hct)).mp h'
      · obtain ⟨-, rfl, -⟩ := hcase
        rw [hS.coarsegridpre C f _ hC hu0, huf]
      · obtain ⟨-, sm, d0, w0, s, tl, hsm, -, -, hloop, rfl, -⟩ := hcase
        have hinv := forLoop_invariant (fun s : List R × List R × List R => s.1.length = u0.length)
          (fun a b t ha hb => by
            obtain ⟨d, w, u', -, -, hadd, rfl, -⟩ := defectCorrection_ok.mp hb
            show u'.length = u0.length
            rw [length_of_vadd hadd]
            exact ha) _ _ _ _ rfl hloop
        rw [hinv, hS.coarsegridpre C f _ hC hu0, huf]
  · obtain ⟨t', h', -⟩ := (MGM_ok_fine (by omega)).mp h
    by_cases hc : P.cycle = 0
    · obtain ⟨sm, u1, hsm, hpre, hpost, -⟩ := (MGM_fine_cycle0_ok hc).mp h'
      rw [hS.PostSmooth sm _ _ _ _ _ hsm hpost, hS.PreSmooth sm _ _ _ _ _ hsm hpre]
    · obtain ⟨sm, pr, d0, w0, u1, d1, d2, wt, tl, w2, u2, hsm, -, -, -, hpsr, -, -, -, -, -,
        hadd, hpost, -⟩ := MGM_fine_cycle_ok hc h'
      rw [hS.PostSmooth sm _ _ _ _ _ hsm hpost, length_of_vadd hadd,
        (hS.PreSmoothResiduum sm _ _ _ _ _ _ _ hsm hpsr).1]

/-- With collaborators that keep the size contract and return from every call, and
`ndof` non-decreasing in the level, `MGM` returns on every `u` and `f` of
`ndof (level)` entries: neither a prefix range nor an accumulation `+=` fails
anywhere in the recursion. -/
theorem MGM_returns {P : MultigridPreconditioner R} (hS : SizeContract P)
    (hT : NeverThrows P)
    (hmono : ∀ l : Int, 0 < l → P.fespace.GetNDofLevel (l - 1) ≤ P.fespace.GetNDofLevel l) :
    ∀ (k : Nat) (level : Int), level = k → ∀ (u f : List R) (incsm : Int),
      u.length = P.fespace.GetNDofLevel level → f.length = P.fespace.GetNDofLevel level →
      ∃ r t, MGM P level u f incsm = Except.ok (r, t) := by
  obtain ⟨sm, hsm, hcv, hpre, hpost, hpsr, hresid⟩ := hT.smoother
  obtain ⟨pr, hpr, hrestr, hprol⟩ := hT.prolongation
  obtain ⟨C, hC, hCf⟩ := hT.coarsegridpre
  intro k
  induction k with
  | zero =>
    intro level hl u f incsm hu hf
    have hl0 : level = 0 := by simpa using hl
    subst hl0
    have direct : (P.coarsetype = COARSETYPE.EXACT_COARSE ∨
        P.coarsetype = COARSETYPE.USER_COARSE) →
        ∃ r t, MGM_coarse P 0 u f = Except.ok (r, t) := by
      intro hct
      obtain ⟨u0, hu0⟩ := hCf f
      have hu0len : u0.length = P.fespace.GetNDofLevel 0 := by
        rw [hS.coarsegridpre C f u0 hC hu0, hf]
      by_cases hn : P.coarsesmoothingsteps > 1
      · obtain ⟨d0, hd0⟩ := hcv 0
        have hd0len := hS.CreateVector sm 0 d0 hsm hd0
        obtain ⟨s, tl, hloop, -⟩ := forLoop_returns
          (fun s : List R × List R × List R =>
            s.1.length = P.fespace.GetNDofLevel 0 ∧ s.2.1.length = P.fespace.GetNDofLevel 0)
          (fun a ha => by
            obtain ⟨d, hd⟩ := hresid 0 a.1 f a.2.1
            obtain ⟨w, hw⟩ := hCf d
            have hdlen : d.length = P.fespace.GetNDofLevel 0 := by
              rw [hS.Residuum sm _ _ _ _ _ hsm hd]
              exact ha.2
            have hwlen : w.length = P.fespace.GetNDofLevel 0 := by
              rw [hS.coarsegridpre C d w hC hw]
              exact hdlen
            have hadd := vadd_of_length (show a.1.length = w.length by rw [ha.1, hwlen])
            refine ⟨(_, d, w), _, defectCorrection_ok.mpr ⟨d, w, _, hd, hw, hadd, rfl, rfl⟩,
              ?_, hdlen⟩
            show (List.zipWith (· + ·) a.1 w).length = P.fespace.GetNDofLevel 0
            rw [length_of_vadd hadd]
            exact ha.1)
          (P.coarsesmoothingsteps - 1).toNat (u0, d0, d0) ⟨hu0len, hd0len⟩
        exact ⟨s.1, _, (MGM_coarse_direct_ok hct).mpr ⟨C, u0, hC, hu0,
          Or.inr ⟨hn, sm, d0, d0, s, tl, hsm, hd0, hd0, hloop, rfl, rfl⟩⟩⟩
      · exact ⟨u0, _, (MGM_coarse_direct_ok hct).mpr ⟨C, u0, hC, hu0, Or.inl ⟨hn, rfl, rfl⟩⟩⟩
    have hbase : ∃ r t, MGM_coarse P 0 u f = Except.ok (r, t) := by
      cases hct : P.coarsetype with
      | CG_COARSE =>
        obtain ⟨v, hv⟩ := hT.CGSolver f
        exact ⟨v, _, (MGM_coarse_cg_ok hct).mpr ⟨hv, rfl⟩⟩
      | SMOOTHING_COARSE =>
        obtain ⟨u1, h1⟩ := hpre 0 u f P.coarsesmoothingsteps
        obtain ⟨u2, h2⟩ := hpost 0 u1 f P.coarsesmoothingsteps
        exact ⟨u2, _, (MGM_coarse_smoothing_ok hct).mpr ⟨sm, u1, hsm, h1, h2, rfl⟩⟩
      | unrecognized v =>
        exact ⟨u, _, (MGM_coarse_unrecognized_ok hct).mpr ⟨rfl, rfl⟩⟩
      | EXACT_COARSE => exact direct (Or.inl hct)
      | USER_COARSE => exact direct (Or.inr hct)
    obtain ⟨r, t, hrt⟩ := hbase
    exact ⟨r, _, (MGM_ok_coarse (le_refl 0)).mpr ⟨t, hrt, rfl⟩⟩
  | succ k ih =>
    intro level hl u f incsm hu hf
    have hl1 : level = (k : Int) + 1 := by simpa using hl
    have hpos : 0 < level := by omega
    have hfine : ∃ r t, MGM_fine P (fun u' f' i' => MGM P (level - 1) u' f' i') level u f incsm
        = Except.ok (r, t) := by
      by_cases hc : P.cycle = 0
      · obtain ⟨u1, h1⟩ := hpre level u f (P.smoothingsteps * incsm)
        obtain ⟨u2, h2⟩ := hpost level u1 f (P.smoothingsteps * incsm)
        exact ⟨u2, _, (MGM_fine_cycle0_ok hc).mpr ⟨sm, u1, hsm, h1, h2, rfl⟩⟩
      · obtain ⟨d0, hd0⟩ := hcv level
        have hd0len := hS.CreateVector sm level d0 hsm hd0
        obtain ⟨⟨u1, d1⟩, hud⟩ := hpsr level u f d0 (P.smoothingsteps * incsm)
        obtain ⟨hu1len, hd1len⟩ := hS.PreSmoothResiduum sm _ _ _ _ _ _ _ hsm hud
        have hn := hmono level hpos
        obtain ⟨d2, hd2⟩ := hrestr level d1
        have hd2len := hS.RestrictInline pr _ _ _ hpr hd2
        have hdt : (d2.take (P.fespace.GetNDofLevel (level - 1))).length
            = P.fespace.GetNDofLevel (level - 1) := by
          rw [List.length_take]
          omega
        obtain ⟨wt, tl, hloop, hwt⟩ := forLoop_returns
          (fun wt : List R => wt.length = P.fespace.GetNDofLevel (level - 1))
          (fun a ha => by
            have ha' : a.length = P.fespace.GetNDofLevel (level - 1) := ha
            obtain ⟨r', t', hr'⟩ := ih (level - 1) (by omega) a
              (d2.take (P.fespace.GetNDofLevel (level - 1))) (incsm * P.incsmooth) ha' hdt
            refine ⟨r', t', hr', ?_⟩
            show r'.length = P.fespace.GetNDofLevel (level - 1)
            rw [MGM_length hS _ _ _ _ _ _ (by rw [ha', hdt]) hr', ha'])
          P.cycle.toNat ((zeroVec d0).take (P.fespace.GetNDofLevel (level - 1)))
          (by
            show ((zeroVec d0).take (P.fespace.GetNDofLevel (level - 1))).length
              = P.fespace.GetNDofLevel (level - 1)
            rw [List.length_take]
            simp only [zeroVec, List.length_replicate]
            omega)
        obtain ⟨w2, hw2⟩ := hprol level
          (setRange (zeroVec d0) (P.fespace.GetNDofLevel (level - 1)) wt)
        have hw2len : w2.length = P.fespace.GetNDofLevel level := by
          rw [hS.ProlongateInline pr _ _ _ hpr hw2]
          simp only [setRange, zeroVec, List.length_append, List.length_drop,
            List.length_replicate, hwt]
          omega
        have hadd := vadd_of_length (show u1.length = w2.length by omega)
        obtain ⟨r, hr⟩ := hpost level (List.zipWith (· + ·) u1 w2) f (P.smoothingsteps * incsm)
        exact ⟨r, _, MGM_fine_cycle_of hc hsm hpr hd0 hd0 hud (by omega) (by omega) hd2 hloop
          hw2 hadd hr⟩
    obtain ⟨r, t, hrt⟩ := hfine
    exact ⟨r, _, (MGM_ok_fine hpos).mpr ⟨t, hrt, rfl⟩⟩

end Returns

/-! ## The size-keeping example keeps the contracts -/

theorem Example.sized_contract (L c q : Int) (ct : COARSETYPE) (n m : Int) :
    SizeContract (Example.sized L c q ct n m) where
  CreateVector := by
    intro sm level v hsm h
    cases hsm
    cases h
    simp [Example.sized, Example.pre]
  PreSmooth := by
    intro sm level u f steps u' hsm h
    cases hsm
    cases h
    simp
  PostSmooth := by
    intro sm level u f steps u' hsm h
    cases hsm
    cases h
    simp
  PreSmoothResiduum := by
    intro sm level u f d steps u' d' hsm h
    cases hsm
    cases h
    simp
  Residuum := by
    intro sm level u f d d' hsm h
    cases hsm
    cases h
    simp
  RestrictInline := by
    intro pr level v v' hpr h
    cases hpr
    cases h
    rfl
  ProlongateInline := by
    intro pr level v v' hpr h
    cases hpr
    cases h
    rfl
  coarsegridpre := by
    intro C f v hC h
    cases hC
    cases h
    simp
  CGSolver := by
    intro f v h
    cases h
    rfl

theorem Example.sized_returns (L c q : Int) (ct : COARSETYPE) (n m : Int) :
    NeverThrows (Example.sized L c q ct n m) where
  smoother := ⟨Example.smootherSized, rfl, fun _ => ⟨_, rfl⟩, fun _ _ _ _ => ⟨_, rfl⟩,
    fun _ _ _ _ => ⟨_, rfl⟩, fun _ _ _ _ _ => ⟨_, rfl⟩, fun _ _ _ _ => ⟨_, rfl⟩⟩
  prolongation := ⟨Example.prolongation, rfl, fun _ _ => ⟨_, rfl⟩, fun _ _ => ⟨_, rfl⟩⟩
  coarsegridpre := ⟨_, rfl, fun _ => ⟨_, rfl⟩⟩
  CGSolver := fun _ => ⟨_, rfl⟩

theorem Example.sized_monotone (L c q : Int) (ct : COARSETYPE) (n m : Int) :
    ∀ l : Int, 0 < l → (Example.sized L c q ct n m).fespace.GetNDofLevel (l - 1)
      ≤ (Example.sized L c q ct n m).fespace.GetNDofLevel l := by
  intro l hl
  show (l - 1).toNat + 1 ≤ l.toNat + 1
  omega

/-! ## Prefix ranges stay within the vectors -/

section ClaimsRanges

variable {R : Type} [Zero R] [Add R]

open Traced

/-- C18: let the collaborators keep the size contract (in particular `CreateVector
(level)` returns `ndof (level)` entries) and let `ndof` be non-decreasing in
the level.  Then (1) `Mult` on vectors of `ndof (L-1)` entries starts `MGM` on
vectors of that size; (2) in `MGM` at a `level > 0` on such vectors, once the
scratch vectors are allocated and pre-smoothing has returned, `d` and `w`
have `ndof (level)` entries and the ranges `[0, ndof (level-1))` taken of them
return: the out-of-range branch is not taken; (3) every recursive call
`MGM (level-1, wt, dt, .)` of a returning run receives `wt` and `dt` of exactly
`ndof (level-1)` entries, and the run returns `ndof (level)` entries; (4) if
moreover no collaborator throws, the whole `Mult` returns, so that no range
fails at any level of the recursion. -/
theorem C18_prefix_ranges_within (P : MultigridPreconditioner R) (hS : SizeContract P)
    (hmono : ∀ l : Int, 0 < l → P.fespace.GetNDofLevel (l - 1) ≤ P.fespace.GetNDofLevel l) :
    (∀ x y : List R, x.length = P.fespace.GetNDofLevel (P.ma.GetNLevels - 1) →
      y.length = P.fespace.GetNDofLevel (P.ma.GetNLevels - 1) →
      (zeroVec y).length = P.fespace.GetNDofLevel (P.ma.GetNLevels - 1) ∧
      ∀ r t, (Mult P x y = Except.ok (r, t) ↔
        MGM P (P.ma.GetNLevels - 1) (zeroVec y) x MGM_default_incsm = Except.ok (r, t))) ∧
    (∀ (level : Int) (u f : List R) (sm : Smoother R) (d0 w0 u1 d1 : List R) (steps : Int),
      0 < level → P.smoother = some sm →
      sm.CreateVector level = Except.ok d0 → sm.CreateVector level = Except.ok w0 →
      sm.PreSmoothResiduum level u f d0 steps = Except.ok (u1, d1) →
      d1.length = P.fespace.GetNDofLevel level ∧ w0.length = P.fespace.GetNDofLevel level ∧
      P.fespace.GetNDofLevel (level - 1) ≤ P.fespace.GetNDofLevel level ∧
      Range d1 0 (P.fespace.GetNDofLevel (level - 1))
        = Except.ok (d1.take (P.fespace.GetNDofLevel (level - 1))) ∧
      Range w0 0 (P.fespace.GetNDofLevel (level - 1))
        = Except.ok (w0.take (P.fespace.GetNDofLevel (level - 1)))) ∧
    (∀ (level : Int) (u f : List R) (incsm : Int) (r : List R) (t : List Call),
      0 < level → P.cycle ≠ 0 →
      u.length = P.fespace.GetNDofLevel level → f.length = P.fespace.GetNDofLevel level →
      MGM P level u f incsm = Except.ok (r, t) →
      r.length = P.fespace.GetNDofLevel level ∧
      ∃ (w : Nat → List R) (dt : List R) (tr : Nat → List Call),
        (∀ j : Nat, j < P.cycle.toNat →
          MGM P (level - 1) (w j) dt (incsm * P.incsmooth) = Except.ok (w (j + 1), tr j)) ∧
        dt.length = P.fespace.GetNDofLevel (level - 1) ∧
        ∀ j : Nat, j ≤ P.cycle.toNat → (w j).length = P.fespace.GetNDofLevel (level - 1)) ∧
    (NeverThrows P → ∀ x y : List R, 1 ≤ P.ma.GetNLevels →
      x.length = P.fespace.GetNDofLevel (P.ma.GetNLevels - 1) →
      y.length = P.fespace.GetNDofLevel (P.ma.GetNLevels - 1) →
      ∃ r t, Mult P x y = Except.ok (r, t) ∧
        r.length = P.fespace.GetNDofLevel (P.ma.GetNLevels - 1)) := by
  refine ⟨?_, ?_, ?_, ?_⟩
  · intro x y _ hy
    refine ⟨by simp [zeroVec, hy], fun r t => Mult_ok⟩
  · intro level u f sm d0 w0 u1 d1 steps hl hsm hd0 hw0 hpsr
    have hd0len := hS.CreateVector sm level d0 hsm hd0
    have hw0len := hS.CreateVector sm level w0 hsm hw0
    have hd1len := (hS.PreSmoothResiduum sm _ _ _ _ _ _ _ hsm hpsr).2
    have hn := hmono level hl
    exact ⟨by omega, hw0len, hn, Range_zero_of_le (by omega), Range_zero_of_le (by omega)⟩
  · intro level u f incsm r t hl hc hu hf h
    refine ⟨by rw [MGM_length hS _ _ _ _ _ _ (by rw [hu, hf]) h, hu], ?_⟩
    obtain ⟨t', h', -⟩ := (MGM_ok_fine hl).mp h
    obtain ⟨sm, pr, d0, w0, u1, d1, d2, wt, tl, w2, u2, hsm, hpr, hd0, hw0, hpsr, hnd, hnw,
      hres, hloop, -, -, -, -⟩ := MGM_fine_cycle_ok hc h'
    obtain ⟨w, tr, hw0', hstep, -, -⟩ := forLoop_ok_iff.mp hloop
    have hd2len := hS.RestrictInline pr _ _ _ hpr hres
    have hdt : (d2.take (P.fespace.GetNDofLevel (level - 1))).length
        = P.fespace.GetNDofLevel (level - 1) := by
      rw [List.length_take]
      omega
    refine ⟨w, d2.take (P.fespace.GetNDofLevel (level - 1)), tr, hstep, hdt, ?_⟩
    intro j
    induction j with
    | zero =>
      intro _
      rw [hw0', List.length_take]
      simp only [zeroVec, List.length_replicate]
      omega
    | succ j ih =>
      intro hj
      have hprev := ih (by omega)
      rw [MGM_length hS _ _ _ _ _ _ (by rw [hprev, hdt]) (hstep j (by omega)), hprev]
  · intro hT x y hL hx hy
    have hk : P.ma.GetNLevels - 1 = ((P.ma.GetNLevels - 1).toNat : Int) := by omega
    have hz : (zeroVec y).length = P.fespace.GetNDofLevel (P.ma.GetNLevels - 1) := by
      simp [zeroVec, hy]
    obtain ⟨r, t, hrt⟩ := MGM_returns hS hT hmono _ _ hk (zeroVec y) x MGM_default_incsm hz hx
    exact ⟨r, t, Mult_ok.mpr hrt,
      by rw [MGM_length hS _ _ _ _ _ _ (by rw [hz, hx]) hrt, hz]⟩

/-- C18, on three levels with 1, 2 and 3 dofs, cycle 2 and size-keeping
collaborators: `Mult` on vectors of 3 entries returns 3 entries. -/
theorem C18_prefix_ranges_within_witness :
    ∃ r t, Mult (Example.sized 3 2 3 COARSETYPE.EXACT_COARSE 2 3) [1, 2, 3] [9, 9, 9]
        = Except.ok (r, t) ∧
      r.length = (Example.sized 3 2 3 COARSETYPE.EXACT_COARSE 2 3).fespace.GetNDofLevel (3 - 1) :=
  (C18_prefix_ranges_within (Example.sized 3 2 3 COARSETYPE.EXACT_COARSE 2 3)
    (Example.sized_contract 3 2 3 COARSETYPE.EXACT_COARSE 2 3)
    (Example.sized_monotone 3 2 3 COARSETYPE.EXACT_COARSE 2 3)).2.2.2
    (Example.sized_returns 3 2 3 COARSETYPE.EXACT_COARSE 2 3) [1, 2, 3] [9, 9, 9]
    (by decide) rfl rfl

end ClaimsRanges

/-! ## The two-level matrix -/

section TwoLevelRuns

variable {R : Type} [Zero R] [Add R]

open Traced

theorem value_ok {α : Type} {x : Traced α} {a : α} :
    Traced.value x = Except.ok a ↔ ∃ t, x = Except.ok (a, t) := by
  unfold Traced.value
  cases x with
  | error e => simp
  | ok p =>
    obtain ⟨b, t⟩ := p
    constructor
    · intro h
      cases h
      exact ⟨t, rfl⟩
    · rintro ⟨t', h⟩
      cases h
      rfl

/-- A returning `TwoLevelMatrix::Mult`, stage by stage; `c0` is the vector that
`cpre->CreateVector ()` returns, whose size is the dimension of `cpre`. -/
theorem TwoLevelMatrix_Mult_ok {T : TwoLevelMatrix R} {f u r : List R} {t : List Call} :
    T.Mult f u = Except.ok (r, t) ↔
      ∃ (cpre mat : MatrixObject R) (sm : Smoother R) (c0 res0 u1 res cw : List R),
        T.cpre = some cpre ∧ T.mat = some mat ∧ T.smoother = some sm ∧
        cpre.CreateVector = Except.ok c0 ∧ mat.CreateVector = Except.ok res0 ∧
        sm.PreSmoothResiduum T.level (zeroVec u) f res0 T.smoothingsteps
          = Except.ok (u1, res) ∧
        c0.length ≤ res.length ∧ c0.length ≤ u1.length ∧
        cpre.Mult (res.take c0.length) = Except.ok cw ∧ cw.length = c0.length ∧
        sm.PostSmooth T.level
          (List.zipWith (· + ·) (u1.take c0.length) cw ++ u1.drop c0.length) f
          T.smoothingsteps = Except.ok r ∧
        t = [Call.PreSmoothResiduum T.level T.smoothingsteps, Call.coarsegridpre,
             Call.PostSmooth T.level T.smoothingsteps] := by
  unfold TwoLevelMatrix.Mult TwoLevelMatrix.CreateVector
  simp only [bind_def]
  constructor
  · intro h
    obtain ⟨cpre, _, _, a0, b0, rfl⟩ := andThen_ok.mp h
    obtain ⟨hcpre, rfl⟩ := deref_ok.mp a0
    obtain ⟨c0, _, _, a1, b1, rfl⟩ := andThen_ok.mp b0
    obtain ⟨hc0, rfl⟩ := quiet_ok.mp a1
    obtain ⟨c0', _, _, a2, b2, rfl⟩ := andThen_ok.mp b1
    obtain ⟨hc0', rfl⟩ := quiet_ok.mp a2
    have e0 : c0' = c0 := by
      rw [hc0] at hc0'
      cases hc0'
      rfl
    rw [e0] at b2
    obtain ⟨res0, _, _, a3, b3, rfl⟩ := andThen_ok.mp b2
    obtain ⟨mat, _, _, a4, b4, rfl⟩ := andThen_ok.mp a3
    obtain ⟨hmat, rfl⟩ := deref_ok.mp a4
    obtain ⟨hres0, rfl⟩ := quiet_ok.mp b4
    obtain ⟨sm, _, _, a5, b5, rfl⟩ := andThen_ok.mp b3
    obtain ⟨hsm, rfl⟩ := deref_ok.mp a5
    obtain ⟨⟨u1, res⟩, _, _, a6, b6, rfl⟩ := andThen_ok.mp b5
    obtain ⟨hpsr, rfl⟩ := call_ok.mp a6
    obtain ⟨cres, _, _, a7, b7, rfl⟩ := andThen_ok.mp b6
    obtain ⟨hr1, rfl⟩ := quiet_ok.mp a7
    obtain ⟨hle1, rfl⟩ := Range_zero_ok.mp hr1
    obtain ⟨cw, _, _, a8, b8, rfl⟩ := andThen_ok.mp b7
    obtain ⟨hcw, rfl⟩ := call_ok.mp a8
    obtain ⟨ut, _, _, a9, b9, rfl⟩ := andThen_ok.mp b8
    obtain ⟨hr2, rfl⟩ := quiet_ok.mp a9
    obtain ⟨hle2, rfl⟩ := Range_zero_ok.mp hr2
    obtain ⟨ut', _, _, a10, b10, rfl⟩ := andThen_ok.mp b9
    obtain ⟨hadd, rfl⟩ := quiet_ok.mp a10
    obtain ⟨hlen, rfl⟩ := vadd_ok.mp hadd
    obtain ⟨hpost, rfl⟩ := call_ok.mp b10
    refine ⟨cpre, mat, sm, c0, res0, u1, res, cw, hcpre, hmat, hsm, hc0, hres0, hpsr, hle1,
      hle2, hcw, ?_, hpost, by simp⟩
    rw [← hlen, List.length_take]
    omega
  · rintro ⟨cpre, mat, sm, c0, res0, u1, res, cw, hcpre, hmat, hsm, hc0, hres0, hpsr, hle1,
      hle2, hcw, hlen, hpost, rfl⟩
    have hadd : vadd (u1.take c0.length) cw
        = Except.ok (List.zipWith (· + ·) (u1.take c0.length) cw) := by
      apply vadd_of_length
      rw [List.length_take, hlen]
      omega
    refine andThen_ok.mpr ⟨cpre, [], _, deref_ok.mpr ⟨hcpre, rfl⟩, ?_, rfl⟩
    refine andThen_ok.mpr ⟨c0, [], _, quiet_ok.mpr ⟨hc0, rfl⟩, ?_, rfl⟩
    refine andThen_ok.mpr ⟨c0, [], _, quiet_ok.mpr ⟨hc0, rfl⟩, ?_, rfl⟩
    refine andThen_ok.mpr ⟨res0, [], _,
      andThen_ok.mpr ⟨mat, [], [], deref_ok.mpr ⟨hmat, rfl⟩, quiet_ok.mpr ⟨hres0, rfl⟩, rfl⟩,
      ?_, rfl⟩
    refine andThen_ok.mpr ⟨sm, [], _, deref_ok.mpr ⟨hsm, rfl⟩, ?_, rfl⟩
    refine andThen_ok.mpr ⟨(u1, res), [Call.PreSmoothResiduum T.level T.smoothingsteps],
      [Call.coarsegridpre, Call.PostSmooth T.level T.smoothingsteps],
      call_ok.mpr ⟨hpsr, rfl⟩, ?_, rfl⟩
    refine andThen_ok.mpr ⟨_, [], _, quiet_ok.mpr ⟨Range_zero_of_le hle1, rfl⟩, ?_, rfl⟩
    refine andThen_ok.mpr ⟨cw, [Call.coarsegridpre], [Call.PostSmooth T.level T.smoothingsteps],
      call_ok.mpr ⟨hcw, rfl⟩, ?_, rfl⟩
    refine andThen_ok.mpr ⟨_, [], _, quiet_ok.mpr ⟨Range_zero_of_le hle2, rfl⟩, ?_, rfl⟩
    refine andThen_ok.mpr ⟨_, [], _, quiet_ok.mpr ⟨hadd, rfl⟩, ?_, rfl⟩
    exact call_ok.mpr ⟨hpost, rfl⟩

/-- C14: the call `TwoLevelMatrix::Mult (f, u)` returns `r` exactly when, with `nc`
the dimension of the coarse preconditioner (the size of `cpre->CreateVector ()`):
`PreSmoothResiduum (level, 0, f, res, smoothingsteps)` gives `(u1, res)`; `cpre`
applied to the first `nc` entries of `res` gives `cw`, of `nc` entries; and
`PostSmooth (level, u2, f, smoothingsteps)` gives `r`, where `u2` is `u1` with
`cw` added to its first `nc` entries and the entries from `nc` on unchanged.
The result depends on `u` only through its size. -/
theorem C14_TwoLevelMatrix_Mult (T : TwoLevelMatrix R) (f u u' : List R) :
    (∀ r t, T.Mult f u = Except.ok (r, t) ↔
      ∃ (cpre mat : MatrixObject R) (sm : Smoother R) (c0 res0 u1 res cw : List R),
        T.cpre = some cpre ∧ T.mat = some mat ∧ T.smoother = some sm ∧
        cpre.CreateVector = Except.ok c0 ∧ mat.CreateVector = Except.ok res0 ∧
        sm.PreSmoothResiduum T.level (List.replicate u.length 0) f res0 T.smoothingsteps
          = Except.ok (u1, res) ∧
        c0.length ≤ res.length ∧ c0.length ≤ u1.length ∧
        cpre.Mult (res.take c0.length) = Except.ok cw ∧ cw.length = c0.length ∧
        sm.PostSmooth T.level
          (List.zipWith (· + ·) (u1.take c0.length) cw ++ u1.drop c0.length) f
          T.smoothingsteps = Except.ok r ∧
        t = [Call.PreSmoothResiduum T.level T.smoothingsteps, Call.coarsegridpre,
             Call.PostSmooth T.level T.smoothingsteps]) ∧
    (u'.length = u.length → T.Mult f u' = T.Mult f u) := by
  constructor
  · intro r t
    exact TwoLevelMatrix_Mult_ok
  · intro hlen
    unfold TwoLevelMatrix.Mult zeroVec
    rw [hlen]

/-- C14, on a fine space of 3 entries with a coarse preconditioner of dimension
2: the old contents of `u` do not matter. -/
theorem C14_TwoLevelMatrix_Mult_witness :
    (Example.twolevel 3 2 5 1).Mult [1, 2, 3] [4, 4, 4]
      = (Example.twolevel 3 2 5 1).Mult [1, 2, 3] [9, 9, 9] :=
  (C14_TwoLevelMatrix_Mult (Example.twolevel 3 2 5 1) [1, 2, 3] [9, 9, 9] [4, 4, 4]).2 rfl

end TwoLevelRuns

section TwoLevelEquivalence

variable {R : Type} [AddZeroClass R]

open Traced

theorem zipWith_add_replicate_zero (x : List R) :
    List.zipWith (· + ·) x (List.replicate x.length 0) = x :=
  ((vadd_ok.mp (vadd_zeroVec x)).2).symm

/-- Adding a vector that is `cw` on the first `n` entries and zero after them
changes the first `n` entries only. -/
theorem zipWith_add_append_zero (u1 cw : List R) (n k : Nat) (hcw : cw.length = n)
    (hn : n ≤ u1.length) (hk : k = u1.length - n) :
    List.zipWith (· + ·) u1 (cw ++ List.replicate k 0)
      = List.zipWith (· + ·) (u1.take n) cw ++ u1.drop n := by
  have hsplit : List.zipWith (· + ·) (u1.take n ++ u1.drop n) (cw ++ List.replicate k 0)
      = List.zipWith (· + ·) (u1.take n) cw
        ++ List.zipWith (· + ·) (u1.drop n) (List.replicate k 0) := by
    apply List.zipWith_append
    rw [List.length_take, hcw]
    omega
  have hk' : k = (u1.drop n).length := by
    rw [List.length_drop]
    exact hk
  rw [List.take_append_drop] at hsplit
  rw [hsplit, hk', zipWith_add_replicate_zero]

/-- One level of `MGM` above a `USER_COARSE` base case with one coarse smoothing
step, cycle 1 and transfer operators that leave the vector as it is. -/
theorem MGM_one_level_ok (P : MultigridPreconditioner R) (C : BaseMatrix R)
    (sm : Smoother R) (pr : Prolongation R) (u f r : List R)
    (hcycle : P.cycle = 1) (hct : P.coarsetype = COARSETYPE.USER_COARSE)
    (hcss : P.coarsesmoothingsteps = 1) (hC : P.coarsegridpre = some C)
    (hPs : P.smoother = some sm) (hPp : P.prolongation = some pr)
    (hrestrict : ∀ v, pr.RestrictInline 1 v = Except.ok v)
    (hprolong : ∀ v, pr.ProlongateInline 1 v = Except.ok v) :
    (∃ t, MGM P 1 u f 1 = Except.ok (r, t)) ↔
      ∃ d0 u1 d1 cw, sm.CreateVector 1 = Except.ok d0 ∧
        sm.PreSmoothResiduum 1 u f d0 P.smoothingsteps = Except.ok (u1, d1) ∧
        P.fespace.GetNDofLevel 0 ≤ d1.length ∧ P.fespace.GetNDofLevel 0 ≤ d0.length ∧
        C (d1.take (P.fespace.GetNDofLevel 0)) = Except.ok cw ∧
        u1.length = (cw ++ List.replicate (d0.length - P.fespace.GetNDofLevel 0) 0).length ∧
        sm.PostSmooth 1
          (List.zipWith (· + ·) u1
            (cw ++ List.replicate (d0.length - P.fespace.GetNDofLevel 0) 0))
          f P.smoothingsteps = Except.ok r := by
  have hcne : P.cycle ≠ 0 := by rw [hcycle]; decide
  have e1 : (1 : Int) - 1 = 0 := rfl
  have e2 : P.smoothingsteps * 1 = P.smoothingsteps := mul_one _
  have hn1 : ¬ P.coarsesmoothingsteps > 1 := by rw [hcss]; decide
  have hbase : ∀ (a dt cw : List R) (i : Int), C dt = Except.ok cw →
      MGM P 0 a dt i = Except.ok (cw, [Call.MGM 0 i, Call.coarsegridpre]) := by
    intro a dt cw i hcw
    exact (MGM_ok_coarse (le_refl 0)).mpr ⟨_, (MGM_coarse_direct_ok (Or.inr hct)).mpr
      ⟨C, cw, hC, hcw, Or.inl ⟨hn1, rfl, rfl⟩⟩, rfl⟩
  constructor
  · rintro ⟨t, h⟩
    obtain ⟨t', h', -⟩ := (MGM_ok_fine (by decide : (0 : Int) < 1)).mp h
    obtain ⟨sm', pr', d0, w0, u1, d1, d2, wt, tl, w2, u2, hsm', hpr', hd0, hw0, hpsr, hnd, hnw,
      hres, hloop, hpro, hadd, hpost, -⟩ := MGM_fine_cycle_ok hcne h'
    rw [hPs] at hsm'
    cases hsm'
    rw [hPp] at hpr'
    cases hpr'
    rw [hd0] at hw0
    cases hw0
    rw [hrestrict] at hres
    cases hres
    rw [hprolong] at hpro
    cases hpro
    rw [hcycle, Int.toNat_one] at hloop
    obtain ⟨a', t1, t2, hb, hz, -⟩ := forLoop_succ_ok.mp hloop
    obtain ⟨rfl, -⟩ := forLoop_zero_ok.mp hz
    simp only [e1, e2] at hb hnd hnw hpsr hadd hpost
    obtain ⟨tb, hb', -⟩ := (MGM_ok_coarse (le_refl 0)).mp hb
    obtain ⟨C', u0, hC', hu0, hcase⟩ := (MGM_coarse_direct_ok (Or.inr hct)).mp hb'
    rw [hC] at hC'
    cases hC'
    rcases hcase with ⟨-, rfl, -⟩ | ⟨hn, -⟩
    · obtain ⟨hlen, rfl⟩ := vadd_ok.mp hadd
      simp only [setRange, zeroVec, List.drop_replicate] at hlen hpost
      exact ⟨d0, u1, d1, wt, hd0, hpsr, hnd, hnw, hu0, hlen, hpost⟩
    · exact absurd hn hn1
  · rintro ⟨d0, u1, d1, cw, hd0, hpsr, hnd, hnw, hcw, hlen, hpost⟩
    have hloop : forLoop P.cycle.toNat
        (fun wt => MGM P (1 - 1) wt (d1.take (P.fespace.GetNDofLevel (1 - 1)))
          (1 * P.incsmooth))
        ((zeroVec d0).take (P.fespace.GetNDofLevel (1 - 1)))
        = Except.ok (cw, [Call.MGM 0 (1 * P.incsmooth), Call.coarsegridpre] ++ []) := by
      rw [hcycle, Int.toNat_one]
      exact forLoop_succ_ok.mpr ⟨cw, _, [], hbase _ _ cw _ hcw, rfl, rfl⟩
    have hadd : vadd u1 (setRange (zeroVec d0) (P.fespace.GetNDofLevel (1 - 1)) cw)
        = Except.ok (List.zipWith (· + ·) u1
            (cw ++ List.replicate (d0.length - P.fespace.GetNDofLevel 0) 0)) := by
      simp only [setRange, zeroVec, List.drop_replicate, e1]
      exact vadd_of_length hlen
    exact ⟨_, (MGM_ok_fine (by decide : (0 : Int) < 1)).mpr ⟨_,
      MGM_fine_cycle_of hcne hPs hPp hd0 hd0 (by rw [e2]; exact hpsr) hnd hnw (hrestrict d1)
        hloop (hprolong _) hadd (by rw [e2]; exact hpost), rfl⟩⟩

/-- C15: the call `TwoLevelMatrix::Mult (f, u)` is one unrolled level of `MGM`.  Let
`P` have cycle 1, coarse type `USER_COARSE` with the coarse solver `cpre`, one
coarse smoothing step, `ndof (0)` equal to the dimension of `cpre`, and
restriction and prolongation that leave the vector as it is; let `T` have the
same smoother and step count, and level 1.  Let the vectors keep their sizes:
the smoother and the fine matrix allocate the same scratch vector, pre-smoothing
leaves `u` at that size, and `cpre` returns as many entries as it is given.
Then, `a + 0 = a` holding for the scalars, `MGM (1, 0, f, incsm = 1)` returns
`r` exactly when `TwoLevelMatrix::Mult (f, u)` returns `r`. -/
theorem C15_TwoLevelMatrix_is_one_level_of_MGM (P : MultigridPreconditioner R)
    (T : TwoLevelMatrix R) (cpre mat : MatrixObject R) (sm : Smoother R)
    (pr : Prolongation R) (c0 res0 f u : List R)
    (hcycle : P.cycle = 1) (hct : P.coarsetype = COARSETYPE.USER_COARSE)
    (hcss : P.coarsesmoothingsteps = 1) (hC : P.coarsegridpre = some cpre.Mult)
    (hTc : T.cpre = some cpre) (hTm : T.mat = some mat)
    (hPs : P.smoother = some sm) (hTs : T.smoother = some sm)
    (hPp : P.prolongation = some pr)
    (hlevel : T.level = 1) (hsteps : T.smoothingsteps = P.smoothingsteps)
    (hc0 : cpre.CreateVector = Except.ok c0)
    (hndof : P.fespace.GetNDofLevel 0 = c0.length)
    (hres0 : mat.CreateVector = Except.ok res0) (hcv : sm.CreateVector 1 = Except.ok res0)
    (hrestrict : ∀ v, pr.RestrictInline 1 v = Except.ok v)
    (hprolong : ∀ v, pr.ProlongateInline 1 v = Except.ok v)
    (hsizeC : ∀ v w, v.length = c0.length → cpre.Mult v = Except.ok w →
      w.length = c0.length)
    (hsizeU : ∀ u1 d1, sm.PreSmoothResiduum 1 (zeroVec u) f res0 P.smoothingsteps
      = Except.ok (u1, d1) → u1.length = res0.length) :
    ∀ r, Traced.value (MGM P 1 (zeroVec u) f 1) = Except.ok r ↔
      Traced.value (T.Mult f u) = Except.ok r := by
  intro r
  rw [value_ok, value_ok,
    MGM_one_level_ok P cpre.Mult sm pr _ f r hcycle hct hcss hC hPs hPp hrestrict hprolong]
  constructor
  · rintro ⟨d0, u1, d1, cw, hd0, hpsr, hnd, hnw, hcw, hlen, hpost⟩
    rw [hcv] at hd0
    cases hd0
    rw [hndof] at hnd hnw hcw hlen hpost
    have hcwlen := hsizeC _ _ (by rw [List.length_take]; omega) hcw
    have hu1len := hsizeU _ _ hpsr
    rw [zipWith_add_append_zero u1 cw c0.length _ hcwlen (by omega) (by omega)] at hpost
    refine ⟨_, TwoLevelMatrix_Mult_ok.mpr ⟨cpre, mat, sm, c0, res0, u1, d1, cw, hTc, hTm, hTs,
      hc0, hres0, ?_, hnd, by omega, hcw, hcwlen, ?_, rfl⟩⟩
    · rw [hlevel, hsteps]
      exact hpsr
    · rw [hlevel, hsteps]
      exact hpost
  · rintro ⟨t, h⟩
    obtain ⟨cpre', mat', sm', c0', res0', u1, res, cw, hTc', hTm', hTs', hc0', hres0', hpsr,
      hle1, hle2, hcw, hcwlen, hpost, -⟩ := TwoLevelMatrix_Mult_ok.mp h
    rw [hTc] at hTc'
    cases hTc'
    rw [hTm] at hTm'
    cases hTm'
    rw [hTs] at hTs'
    cases hTs'
    rw [hc0] at hc0'
    cases hc0'
    rw [hres0] at hres0'
    cases hres0'
    rw [hlevel, hsteps] at hpsr hpost
    have hu1len := hsizeU _ _ hpsr
    refine ⟨res0, u1, res, cw, hcv, hpsr, by omega, by omega, by rw [hndof]; exact hcw, ?_, ?_⟩
    · rw [List.length_append, List.length_replicate, hcwlen]
      omega
    · rw [hndof, zipWith_add_append_zero u1 cw c0.length _ hcwlen (by omega) (by omega)]
      exact hpost

/-- C15, on a fine space of 2 entries over a coarse space of 1 entry: both
return `[-1, 4]` for `f = [1, 2]`. -/
theorem C15_TwoLevelMatrix_is_one_level_of_MGM_witness :
    Traced.value (MGM (Example.pre 2 1 1 COARSETYPE.USER_COARSE 1 3) 1 (zeroVec [9, 9]) [1, 2] 1)
      = Except.ok [-1, 4] ∧
    Traced.value ((Example.twolevel 2 1 3 1).Mult [1, 2] [9, 9]) = Except.ok [-1, 4] :=
  ⟨rfl, (C15_TwoLevelMatrix_is_one_level_of_MGM
    (Example.pre 2 1 1 COARSETYPE.USER_COARSE 1 3) (Example.twolevel 2 1 3 1)
    ⟨fun v => Except.ok (v.map (fun a => 3 * a)), Except.ok (List.replicate 1 7)⟩
    ⟨fun v => Except.ok v, Except.ok (List.replicate 2 7)⟩
    Example.smoother Example.prolongation [7] [7, 7] [1, 2] [9, 9]
    rfl rfl rfl rfl rfl rfl rfl rfl rfl rfl rfl rfl rfl rfl rfl
    (fun _ => rfl) (fun _ => rfl)
    (fun v w hv h => by cases h; simpa using hv)
    (fun u1 d1 h => by cases h; rfl) [-1, 4]).mp rfl⟩

end TwoLevelEquivalence

/-! ## Smoothing steps over one run -/

theorem totalSteps_nil (g : Call → Int) : totalSteps g [] = 0 := rfl

theorem totalSteps_cons (g : Call → Int) (c : Call) (t : List Call) :
    totalSteps g (c :: t) = g c + totalSteps g t := by
  simp [totalSteps]

theorem totalSteps_append (g : Call → Int) (t1 t2 : List Call) :
    totalSteps g (t1 ++ t2) = totalSteps g t1 + totalSteps g t2 := by
  simp [totalSteps]

theorem totalSteps_eq_zero (g : Call → Int) (t : List Call) (h : ∀ c ∈ t, g c = 0) :
    totalSteps g t = 0 := by
  induction t with
  | nil => rfl
  | cons c t ih =>
    rw [totalSteps_cons, h c (List.mem_cons_self _ _),
      ih (fun c hc => h c (List.mem_cons_of_mem _ hc))]
    rfl

/-- The partial sums of a geometric progression, one term further. -/
theorem geometric_succ (x : Int) (k : Nat) :
    Finset.sum (Finset.range (k + 1)) (fun j => x ^ j)
      = 1 + x * Finset.sum (Finset.range k) (fun j => x ^ j) := by
  rw [Finset.sum_range_succ', Finset.mul_sum]
  simp only [pow_succ, pow_zero]
  rw [add_comm]
  congr 1
  apply Finset.sum_congr rfl
  intro j _
  ring

theorem forLoop_totalSteps {α : Type} {body : α → Traced α} {g : Call → Int} {m : Int}
    (hbody : ∀ a b t, body a = Except.ok (b, t) → totalSteps g t = m) :
    ∀ (n : Nat) (a b : α) (t : List Call),
      forLoop n body a = Except.ok (b, t) → totalSteps g t = n * m := by
  intro n
  induction n with
  | zero =>
    intro a b t h
    obtain ⟨-, rfl⟩ := forLoop_zero_ok.mp h
    simp [totalSteps]
  | succ n ih =>
    intro a b t h
    obtain ⟨a', t1, t2, h1, h2, rfl⟩ := forLoop_succ_ok.mp h
    rw [totalSteps_append, hbody a a' t1 h1, ih a' b t2 h2]
    push_cast
    ring

section StepTotals

variable {R : Type} [Zero R] [Add R]

/-- The steps requested from `PreSmoothResiduum`, and from `PostSmooth` above level
0, during one run of `MGM` started at level `k` with factor `incsm`, for a
cycle of at least 1. -/
theorem MGM_totalSteps (P : MultigridPreconditioner R) (hc : 1 ≤ P.cycle) :
    ∀ (k : Nat) (level : Int), level = k → ∀ (u f : List R) (incsm : Int) (r : List R)
      (t : List Call), MGM P level u f incsm = Except.ok (r, t) →
      totalSteps Call.preSteps t = P.smoothingsteps * incsm *
          Finset.sum (Finset.range k) (fun j => (P.cycle * P.incsmooth) ^ j) ∧
      totalSteps Call.postSteps t = P.smoothingsteps * incsm *
          Finset.sum (Finset.range k) (fun j => (P.cycle * P.incsmooth) ^ j) := by
  intro k
  induction k with
  | zero =>
    intro level hl u f incsm r t h
    obtain ⟨t', h', rfl⟩ := (MGM_ok_coarse (by omega)).mp h
    have hl0 : level = 0 := by simpa using hl
    have hpre : totalSteps Call.preSteps t' = 0 := by
      apply totalSteps_eq_zero
      intro c hc'
      rcases MGM_coarse_calls h' c hc' with e | e | e | e | e <;> subst e <;> rfl
    have hpost : totalSteps Call.postSteps t' = 0 := by
      apply totalSteps_eq_zero
      intro c hc'
      rcases MGM_coarse_calls h' c hc' with e | e | e | e | e <;> subst e <;>
        simp [Call.postSteps, hl0]
    rw [totalSteps_cons, totalSteps_cons, hpre, hpost]
    simp [Call.preSteps, Call.postSteps]
  | succ k ih =>
    intro level hl u f incsm r t h
    obtain ⟨t', h', rfl⟩ := (MGM_ok_fine (by omega)).mp h
    have hl1 : level = (k : Int) + 1 := by simpa using hl
    have hcy : P.cycle ≠ 0 := by omega
    have hpos : 0 < level := by omega
    obtain ⟨sm, pr, d0, w0, u1, d1, d2, wt, tl, w2, u2, -, -, -, -, -, -, -, -, hloop, -, -,
      -, rfl⟩ := MGM_fine_cycle_ok hcy h'
    have hpre := forLoop_totalSteps (g := Call.preSteps)
      (fun a b t hb => (ih (level - 1) (by omega) _ _ _ _ _ hb).1) _ _ _ _ hloop
    have hpost := forLoop_totalSteps (g := Call.postSteps)
      (fun a b t hb => (ih (level - 1) (by omega) _ _ _ _ _ hb).2) _ _ _ _ hloop
    have hcn : ((P.cycle.toNat : Nat) : Int) = P.cycle := by omega
    rw [hcn] at hpre hpost
    rw [geometric_succ]
    constructor
    · rw [totalSteps_cons, totalSteps_append, totalSteps_append, hpre]
      simp only [totalSteps_cons, totalSteps_nil, Call.preSteps]
      ring
    · rw [totalSteps_cons, totalSteps_append, totalSteps_append, hpost]
      simp only [totalSteps_cons, totalSteps_nil, Call.postSteps, if_pos hpos]
      ring

/-- C22: for a hierarchy of `L >= 1` levels and a cycle `c >= 1`, the steps that
one returning `Mult` requests from the fused pre-smoothing primitive
`PreSmoothResiduum` add up to `s * sum_{k=0}^{L-2} (c*q)^k`, with `s` the
smoothing steps and `q` their increase (the empty sum, 0, when `L = 1`), and
the steps requested from `PostSmooth` above level 0 add up to the same number. -/
theorem C22_total_smoothing_steps (P : MultigridPreconditioner R) (x y r : List R)
    (t : List Call) (hL : 1 ≤ P.ma.GetNLevels) (hc : 1 ≤ P.cycle)
    (h : Mult P x y = Except.ok (r, t)) :
    totalSteps Call.preSteps t = P.smoothingsteps *
        Finset.sum (Finset.range (P.ma.GetNLevels - 1).toNat)
          (fun k => (P.cycle * P.incsmooth) ^ k) ∧
    totalSteps Call.postSteps t = totalSteps Call.preSteps t ∧
    (P.ma.GetNLevels = 1 → totalSteps Call.preSteps t = 0) := by
  have hk : P.ma.GetNLevels - 1 = ((P.ma.GetNLevels - 1).toNat : Int) := by omega
  obtain ⟨h1, h2⟩ := MGM_totalSteps P hc _ _ hk _ _ _ _ _ (Mult_ok.mp h)
  have e : P.smoothingsteps * MGM_default_incsm = P.smoothingsteps := by
    simp [MGM_default_incsm]
  rw [e] at h1 h2
  refine ⟨h1, by rw [h1, h2], ?_⟩
  intro hL1
  rw [h1, hL1]
  simp

/-- C22 on three levels with a W-cycle, 2 smoothing steps and increase 3: both
totals are `2 * (1 + 6 + 36) = 14`. -/
theorem C22_total_smoothing_steps_witness :
    (∃ r t, Mult (SetSmoothingSteps (Example.pre 3 2 3 COARSETYPE.USER_COARSE 1 3) 2)
        [1, 2, 3] [9, 9, 9] = Except.ok (r, t) ∧
      totalSteps Call.preSteps t = 14 ∧ totalSteps Call.postSteps t = 14) := by
  obtain ⟨h1, h2, -⟩ := C22_total_smoothing_steps
    (SetSmoothingSteps (Example.pre 3 2 3 COARSETYPE.USER_COARSE 1 3) 2)
    [1, 2, 3] [9, 9, 9] _ _ (by decide) (by decide) rfl
  have e : (SetSmoothingSteps (Example.pre 3 2 3 COARSETYPE.USER_COARSE 1 3) 2).smoothingsteps *
      Finset.sum (Finset.range
        ((SetSmoothingSteps (Example.pre 3 2 3 COARSETYPE.USER_COARSE 1 3) 2).ma.GetNLevels
          - 1).toNat)
        (fun k => ((SetSmoothingSteps (Example.pre 3 2 3 COARSETYPE.USER_COARSE 1 3) 2).cycle *
          (SetSmoothingSteps (Example.pre 3 2 3 COARSETYPE.USER_COARSE 1 3) 2).incsmooth) ^ k)
      = 14 := by
    simp [SetSmoothingSteps, Example.pre, Finset.sum_range_succ]
  exact ⟨_, _, rfl, h1.trans e, h2.trans (h1.trans e)⟩

end StepTotals

/-! ## A coarse-grid preconditioner set by the user -/

section UserCoarse

variable {R : Type}

/-- Under `USER_COARSE` a returning `Update ()` rebuilds nothing: the coarse type
and the coarse-grid preconditioner stay, and so do the counts of steps. -/
theorem Update_user_coarse {E : UpdateCalls R} {P : MultigridPreconditioner R}
    {U : Updated R} (hct : P.coarsetype = COARSETYPE.USER_COARSE)
    (h : Update E P = Except.ok U) :
    U.state.coarsetype = COARSETYPE.USER_COARSE ∧ U.state.coarsegridpre = P.coarsegridpre ∧
      U.rebuilt = false := by
  obtain ⟨sm, pr, -, -, hco⟩ := Update_ok.mp h
  rcases updateCoarse_ok.mp hco with ⟨⟨-, hex⟩, -⟩ | ⟨-, rfl⟩
  · have hex' : P.coarsetype = COARSETYPE.EXACT_COARSE := hex
    rw [hct] at hex'
    cases hex'
  · exact ⟨hct, rfl, rfl⟩

/-- A returning `SetUpdateAll (ua)` changes `updateall` and the smoother only. -/
theorem SetUpdateAll_ok {smootherSetUpdateAll : Smoother R → Int → Except Thrown (Smoother R)}
    {P Q : MultigridPreconditioner R} {ua : Int}
    (h : SetUpdateAll smootherSetUpdateAll P ua = Except.ok Q) :
    ∃ sm, Q = { P with updateall := ua, smoother := sm } ∧
      ((P.smoother = none ∧ sm = none) ∨
        ∃ s s', P.smoother = some s ∧ smootherSetUpdateAll s ua = Except.ok s' ∧
          sm = some s') := by
  unfold SetUpdateAll at h
  cases hsm : P.smoother with
  | none =>
    rw [hsm] at h
    cases h
    exact ⟨none, rfl, Or.inl ⟨rfl, rfl⟩⟩
  | some s =>
    rw [hsm] at h
    cases hs : smootherSetUpdateAll s ua with
    | error e =>
      simp only [hs] at h
      cases h
    | ok s' =>
      simp only [hs] at h
      cases h
      exact ⟨some s', rfl, Or.inr ⟨s, s', rfl, hs, rfl⟩⟩

/-- Every state reached from one under `USER_COARSE` is under `USER_COARSE`, with
the same coarse-grid preconditioner. -/
theorem Reaches_user_coarse {E : UpdateCalls R}
    {smootherSetUpdateAll : Smoother R → Int → Except Thrown (Smoother R)}
    {P Q : MultigridPreconditioner R} (hct : P.coarsetype = COARSETYPE.USER_COARSE)
    (h : Reaches E smootherSetUpdateAll P Q) :
    Q.coarsetype = COARSETYPE.USER_COARSE ∧ Q.coarsegridpre = P.coarsegridpre := by
  induction h with
  | start => exact ⟨hct, rfl⟩
  | Update Q U _ hU ih =>
    obtain ⟨h1, h2, -⟩ := Update_user_coarse ih.1 hU
    exact ⟨h1, h2.trans ih.2⟩
  | SetUpdateAll Q Q' ua _ hQ ih =>
    obtain ⟨sm, rfl, -⟩ := SetUpdateAll_ok hQ
    exact ih
  | hierarchy Q ma fespace biform _ ih => exact ih

end UserCoarse

section UserCoarseRuns

variable {R : Type} [Zero R] [Add R]

/-- C21: after `SetCoarseGridPreconditioner (C)` the coarse type is `USER_COARSE`
and the coarse-grid preconditioner is `C`; every state reached from there by
returning calls of `Update ()`, with any changes of the hierarchy and of
`updateall` in between, has the same coarse type and the same coarse-grid
preconditioner, and a returning run of the base case in such a state applies
`C` to the right-hand side (and returns that when there is at most one coarse
smoothing step). -/
theorem C21_user_coarse_survives_Update (E : UpdateCalls R)
    (smootherSetUpdateAll : Smoother R → Int → Except Thrown (Smoother R))
    (P : MultigridPreconditioner R) (C : Option (BaseMatrix R)) :
    (SetCoarseGridPreconditioner P C).coarsetype = COARSETYPE.USER_COARSE ∧
    (SetCoarseGridPreconditioner P C).coarsegridpre = C ∧
    ∀ Q, Reaches E smootherSetUpdateAll (SetCoarseGridPreconditioner P C) Q →
      Q.coarsetype = COARSETYPE.USER_COARSE ∧ Q.coarsegridpre = C ∧
      ∀ (level : Int) (u f : List R) (incsm : Int) (r : List R) (t : List Call),
        level ≤ 0 → MGM Q level u f incsm = Except.ok (r, t) →
        ∃ c u0, C = some c ∧ c f = Except.ok u0 ∧ Call.coarsegridpre ∈ t ∧
          (Q.coarsesmoothingsteps ≤ 1 → r = u0) := by
  refine ⟨rfl, rfl, ?_⟩
  intro Q hQ
  obtain ⟨hct, hcg⟩ := Reaches_user_coarse (P := SetCoarseGridPreconditioner P C) rfl hQ
  have hcg' : Q.coarsegridpre = C := hcg
  refine ⟨hct, hcg', ?_⟩
  intro level u f incsm r t hl h
  obtain ⟨t', h', rfl⟩ := (MGM_ok_coarse hl).mp h
  obtain ⟨c, u0, hc, hu0, hcase⟩ := (MGM_coarse_direct_ok (Or.inr hct)).mp h'
  refine ⟨c, u0, by rw [← hcg', hc], hu0, ?_, ?_⟩
  · rcases hcase with ⟨-, -, rfl⟩ | ⟨-, _, _, _, _, _, -, -, -, -, -, rfl⟩ <;> simp
  · intro hcss
    rcases hcase with ⟨-, rfl, -⟩ | ⟨hgt, -⟩
    · rfl
    · omega

/-- C21 on one level with `updateall` set to 1, where `Update ()` would rebuild
the inverse under `EXACT_COARSE`: after `Update ()` the base case still
multiplies by 5, as the preconditioner set by the user does. -/
theorem C21_user_coarse_survives_Update_witness :
    ∃ Q U, SetUpdateAll (fun sm _ => Except.ok sm)
        (SetCoarseGridPreconditioner (Example.pre 1 1 1 COARSETYPE.EXACT_COARSE 1 3)
          (some (Example.userpre 5))) 1 = Except.ok Q ∧
      Update Example.updates Q = Except.ok U ∧
      U.state.coarsetype = COARSETYPE.USER_COARSE ∧
      Traced.value (MGM U.state 0 [9] [2] 1) = Except.ok [10] ∧
      ∃ c u0, some (Example.userpre 5) = some c ∧
        c [2] = Except.ok u0 ∧
        Call.coarsegridpre ∈ [Call.MGM 0 1, Call.coarsegridpre] ∧
        (U.state.coarsesmoothingsteps ≤ 1 → [10] = u0) :=
  ⟨_, _, rfl, rfl,
    (((C21_user_coarse_survives_Update Example.updates (fun sm _ => Except.ok sm)
      (Example.pre 1 1 1 COARSETYPE.EXACT_COARSE 1 3)
      (some (Example.userpre 5))).2.2 _
      (Reaches.Update _ _ (Reaches.SetUpdateAll _ _ 1 Reaches.start rfl) rfl)).1),
    rfl,
    (((C21_user_coarse_survives_Update Example.updates (fun sm _ => Except.ok sm)
      (Example.pre 1 1 1 COARSETYPE.EXACT_COARSE 1 3)
      (some (Example.userpre 5))).2.2 _
      (Reaches.Update _ _ (Reaches.SetUpdateAll _ _ 1 Reaches.start rfl) rfl)).2.2
      0 [9] [2] 1 [10] [Call.MGM 0 1, Call.coarsegridpre] (by decide) rfl)⟩

end UserCoarseRuns

/-! ## The constructor -/

section Construction

variable {R : Type}

/-- The constructor returns exactly when the smoother, if there is one, takes
`SetUpdateAll`; the object is then the one with the default configuration. -/
theorem construct_ok {smootherSetUpdateAll : Smoother R → Int → Except Thrown (Smoother R)}
    {cg : BaseMatrix R → BaseMatrix R} {uninit : Int} {ama : MeshAccess} {afespace : FESpace}
    {abiform : BilinearForm R} {asmoother : Option (Smoother R)}
    {aprolongation : Option (Prolongation R)} {P : MultigridPreconditioner R} :
    MultigridPreconditioner.construct smootherSetUpdateAll cg uninit ama afespace abiform
        asmoother aprolongation = Except.ok P ↔
      ∃ sm, ((asmoother = none ∧ sm = none) ∨
          ∃ s s', asmoother = some s ∧
            smootherSetUpdateAll s (if abiform.UseGalerkin then 1 else 0) = Except.ok s' ∧
            sm = some s') ∧
        P = { ma := ama, fespace := afespace, biform := abiform, smoother := sm,
              prolongation := aprolongation, coarsegridpre := none,
              smoothingsteps := 1, cycle := 1, incsmooth := 1,
              coarsetype := COARSETYPE.EXACT_COARSE, coarsesmoothingsteps := 1,
              ownsmoother := 1, ownprolongation := 1, owncoarsegridpre := 1,
              updateall := if abiform.UseGalerkin then 1 else 0, update_always := 0,
              checksumcgpre := -17, CGSolver := cg } := by
  unfold MultigridPreconditioner.construct
  simp only [SetSmoothingSteps, SetCycle, SetIncreaseSmoothingSteps, SetCoarseType,
    SetCoarseSmoothingSteps, SetOwnSmoother, SetOwnProlongation,
    SetOwnCoarseGridPreconditioner, SetUpdateAlways, SetUpdateAll]
  cases asmoother with
  | none =>
    constructor
    · intro h
      cases h
      exact ⟨none, Or.inl ⟨rfl, rfl⟩, rfl⟩
    · rintro ⟨sm, h | ⟨s, s', h, -, -⟩, rfl⟩
      · obtain ⟨-, rfl⟩ := h
        rfl
      · cases h
  | some s =>
    cases hs : smootherSetUpdateAll s (if abiform.UseGalerkin then 1 else 0) with
    | error e =>
      constructor
      · intro h
        simp only [hs] at h
        cases h
      · rintro ⟨sm, h | ⟨s0, s', h, h', -⟩, -⟩
        · cases h.1
        · cases h
          rw [hs] at h'
          cases h'
    | ok s' =>
      constructor
      · intro h
        simp only [hs] at h
        cases h
        exact ⟨some s', Or.inr ⟨s, s', rfl, hs, rfl⟩, rfl⟩
      · rintro ⟨sm, h | ⟨s0, s1, h, h', rfl⟩, rfl⟩
        · cases h.1
        · cases h
          rw [hs] at h'
          cases h'
          simp only [hs]

/-- C23: an object that the constructor returns is configured as a V-cycle with
exact coarse solve: `smoothingsteps = 1`, `cycle = 1`, `incsmooth = 1`, coarse
type `EXACT_COARSE`, `coarsesmoothingsteps = 1`, `update_always = 0`,
`updateall` the value of `biform.UseGalerkin ()`, the three ownership flags
set, and no coarse-grid preconditioner: the constructor does not run `Update
()`, and the prolongation is the one passed in. -/
theorem C23_fresh_configuration
    (smootherSetUpdateAll : Smoother R → Int → Except Thrown (Smoother R))
    (cg : BaseMatrix R → BaseMatrix R) (uninit : Int) (ama : MeshAccess) (afespace : FESpace)
    (abiform : BilinearForm R) (asmoother : Option (Smoother R))
    (aprolongation : Option (Prolongation R)) (P : MultigridPreconditioner R)
    (h : MultigridPreconditioner.construct smootherSetUpdateAll cg uninit ama afespace abiform
        asmoother aprolongation = Except.ok P) :
    P.smoothingsteps = 1 ∧ P.cycle = 1 ∧ P.incsmooth = 1 ∧
    P.coarsetype = COARSETYPE.EXACT_COARSE ∧ P.coarsesmoothingsteps = 1 ∧
    P.update_always = 0 ∧
    (P.updateall = if abiform.UseGalerkin then 1 else 0) ∧
    (P.updateall ≠ 0 ↔ abiform.UseGalerkin = true) ∧
    P.ownsmoother = 1 ∧ P.ownprolongation = 1 ∧ P.owncoarsegridpre = 1 ∧
    P.coarsegridpre = none ∧ P.prolongation = aprolongation := by
  obtain ⟨sm, -, rfl⟩ := construct_ok.mp h
  refine ⟨rfl, rfl, rfl, rfl, rfl, rfl, rfl, ?_, rfl, rfl, rfl, rfl, rfl⟩
  cases abiform.UseGalerkin <;> simp

/-- C23 for a Galerkin bilinear form on three levels: the constructor returns,
and `updateall` is 1. -/
theorem C23_fresh_configuration_witness :
    ∃ P, MultigridPreconditioner.construct (fun sm _ => Except.ok sm) (fun A => A) 5 ⟨3⟩
        ⟨fun level => level.toNat + 1, none⟩ ⟨3, fun _ v => Except.ok v, true⟩
        (some Example.smoother) (some Example.prolongation) = Except.ok P ∧
      P.smoothingsteps = 1 ∧ P.cycle = 1 ∧ P.incsmooth = 1 ∧
      P.coarsetype = COARSETYPE.EXACT_COARSE ∧ P.coarsesmoothingsteps = 1 ∧
      P.update_always = 0 ∧ P.updateall = 1 ∧ P.ownsmoother = 1 ∧ P.ownprolongation = 1 ∧
      P.owncoarsegridpre = 1 ∧ P.coarsegridpre = none :=
  ⟨_, rfl,
    (C23_fresh_configuration (fun sm _ => Except.ok sm) (fun A => A) 5 ⟨3⟩
      ⟨fun level => level.toNat + 1, none⟩ ⟨3, fun _ v => Except.ok v, true⟩
      (some Example.smoother) (some Example.prolongation) _ rfl).1,
    rfl, rfl, rfl, rfl, rfl, rfl, rfl, rfl, rfl, rfl⟩

end Construction

end ngmg
